import Mathlib

/-!
# Verification development for the `lapis` table substrate

Shallow embedding of the file formats (`src/core/file.cc`), the transport
(`src/utils/network_thread.cc`), the request dispatcher
(`src/core/request_dispatcher.cc`), the layer sort (`src/net/net.cc`), the
parameter splitting of the model controller (`src/model_controller/model.cc`)
and the typed disk table (`include/core/disk-table.h`), followed by theorems
about them.

Conventions
* a byte is a `Fin 256`, a `std::string` / file content is a list of bytes;
* a C `int` is an `Int`; storing into an `int` truncates with `toInt32`;
* `(char*)&x, sizeof(int)` is the four-byte little-endian image `int32Bytes x`
  (the development only relies on `int32Bytes`/`bytesToInt32` being inverse to
  each other, which holds for either byte order);
* a `FILE*` is a `Stream` (position and access flags) over the content of the
  file it was opened on.
-/

namespace lapis

abbrev Byte := Fin 256
abbrev Bytes := List Byte

/-! ## Machine integers -/

/-- Range of a C `int`. -/
def InInt32 (i : Int) : Prop := -2147483648 ≤ i ∧ i < 2147483648

instance (i : Int) : Decidable (InInt32 i) := by unfold InInt32; infer_instance

/-- Conversion of an integer to `int` (two's complement truncation to 32 bits). -/
def toInt32 (i : Int) : Int :=
  let u := i % 4294967296
  if u < 2147483648 then u else u - 4294967296

/-- Object representation of an `int`: `(char*)&i` over `sizeof(int)` bytes. -/
def int32Bytes (i : Int) : Bytes :=
  let u := (i % 4294967296).toNat
  [Fin.ofNat (u % 256), Fin.ofNat (u / 256 % 256),
   Fin.ofNat (u / 65536 % 256), Fin.ofNat (u / 16777216 % 256)]

/-- Value of the `int` whose object representation is the given four bytes;
`none` when fewer or more than four bytes are supplied (the `int` is then not
fully initialised). -/
def bytesToInt32 : Bytes → Option Int
  | [b0, b1, b2, b3] =>
      some (toInt32 ((b0.val : Int) + 256 * b1.val + 65536 * b2.val + 16777216 * b3.val))
  | _ => none

/-! ## stdio streams -/

/-- A `FILE*`: stream position, whether the stream may be read / written, and
whether it was opened in append mode (every write then goes to end of file). -/
structure Stream where
  pos : Nat
  rd : Bool
  wr : Bool
  app : Bool
deriving DecidableEq, Repr

inductive Whence where
  | SEEK_SET
  | SEEK_END
deriving DecidableEq, Repr

/-- The call `fopen(path, mode)` for the three modes the sources name: `"r"` (the file must
exist), `"w"` (create or truncate) and `"a"` (create if absent, append).
`existing` is the content of the file before the call; the result is the
content after it and the stream, or `none` for a null `FILE*`. -/
def fopen (existing : Option Bytes) (mode : String) : Option (Bytes × Stream) :=
  if mode = "r" then existing.map (fun d => (d, ⟨0, true, false, false⟩))
  else if mode = "w" then some ([], ⟨0, false, true, false⟩)
  else if mode = "a" then some (existing.getD [], ⟨0, false, true, true⟩)
  else none

/-- Writes the bytes at the stream position (at end of file in append mode); a
position past end of file leaves a zero-filled hole. A stream not open for
writing writes nothing. Result: new file content and stream. -/
def Stream.fwrite (s : Stream) (data : Bytes) (bs : Bytes) : Bytes × Stream :=
  if s.wr then
    let p := if s.app then data.length else s.pos
    (data.take p ++ List.replicate (p - data.length) (0 : Byte) ++ bs
        ++ data.drop (p + bs.length),
     { s with pos := p + bs.length })
  else (data, s)

/-- Reads up to `n` bytes at the stream position: the bytes obtained and the
advanced stream. A stream not open for reading obtains nothing. -/
def Stream.fread (s : Stream) (data : Bytes) (n : Nat) : Bytes × Stream :=
  if s.rd then
    let bs := (data.drop s.pos).take n
    (bs, { s with pos := s.pos + bs.length })
  else ([], s)

/-- Repositions the stream; a negative resulting position is an error and
leaves the stream where it was. -/
def Stream.fseek (s : Stream) (data : Bytes) (off : Int) (w : Whence) : Stream :=
  let base : Int := match w with
    | .SEEK_SET => 0
    | .SEEK_END => data.length
  if base + off < 0 then s else { s with pos := (base + off).toNat }

/-! ## Checkpoint log (`LogFile`) -/

/-- A `LogFile` object together with the content of the file it is open on. -/
structure LogFile where
  file : Bytes
  fp_ : Stream
  current_offset_ : Int
  total_value_size : Int
deriving DecidableEq, Repr

/-- Constructor `LogFile::LogFile(path, mode, shard_id)`; `existing` is the content
of the file at `path` before the call. Mode `"w"` writes the header, every
other mode moves to end of file. `none` when `fopen` yields a null pointer
(which the source hands to `setvbuf`). -/
def LogFile.create (existing : Option Bytes) (mode : String) (shard_id : Int) :
    Option LogFile :=
  match fopen existing mode with
  | none => none
  | some (d, s) =>
    if mode = "w" then
      let (d, s) := s.fwrite d (int32Bytes shard_id)
      some { file := d, fp_ := s, current_offset_ := 0, total_value_size := 0 }
    else
      some { file := d, fp_ := s.fseek d 0 .SEEK_END,
             current_offset_ := 0, total_value_size := 0 }

/-- The method `LogFile::append(key, val, size)`. `fwrite(key.data(), key_size, 1, fp_)` writes
the first `key_size` bytes of the key (all of it when the length fits an `int`). -/
def LogFile.append (f : LogFile) (key val : Bytes) (size : Int) : LogFile :=
  let key_size := toInt32 key.length
  let val_size := toInt32 val.length
  let total_size := toInt32 (key_size + val_size + 2 * 4)
  let (d, s) := f.fp_.fwrite f.file (int32Bytes key_size)
  let (d, s) := s.fwrite d (key.take key_size.toNat)
  let (d, s) := s.fwrite d (val.take val_size.toNat)
  let (d, s) := s.fwrite d (int32Bytes size)
  let (d, s) := s.fwrite d (int32Bytes total_size)
  { f with file := d, fp_ := s }

/-- Result of `LogFile::previous_entry`: the byte ranges handed to the key and
value parsers and the table size. -/
structure LogEntry where
  key : Bytes
  val : Bytes
  size : Int
deriving DecidableEq, Repr

/-- The method `LogFile::previous_entry(key, val, size)`. The result is `none` where the
source reads an `int` that a short `fread` left uninitialised, resizes the
buffer to a negative length, or indexes outside the buffer. -/
def LogFile.previous_entry (f : LogFile) : Option (LogEntry × LogFile) :=
  let off1 := f.current_offset_ + 4
  let fp := f.fp_.fseek f.file (-off1) .SEEK_END
  let (lenBytes, fp) := fp.fread f.file 4
  match bytesToInt32 lenBytes with
  | none => none
  | some total_length =>
    let off2 := off1 + total_length
    let fp := fp.fseek f.file (-off2) .SEEK_END
    if total_length < 0 then none else
    let (got, fp) := fp.fread f.file total_length.toNat
    let buf : Bytes := got ++ List.replicate (total_length.toNat - got.length) (0 : Byte)
    match bytesToInt32 (buf.take 4) with
    | none => none
    | some key_size =>
      let value_size := total_length - 2 * 4 - key_size
      if key_size < 0 ∨ value_size < 0 then none else
      let key := (buf.drop 4).take key_size.toNat
      let val := (buf.drop (4 + key_size.toNat)).take value_size.toNat
      match bytesToInt32 ((buf.drop (4 + key_size.toNat + value_size.toNat)).take 4) with
      | none => none
      | some size =>
        some ({ key := key, val := val, size := size },
              { f with fp_ := fp, current_offset_ := off2,
                       total_value_size := f.total_value_size + value_size })

/-- The method `LogFile::read_shard_id()`; `none` when the `fread` comes up short. -/
def LogFile.read_shard_id (f : LogFile) : Option Int × LogFile :=
  let fp := f.fp_.fseek f.file 0 .SEEK_SET
  let (bs, fp) := fp.fread f.file 4
  (bytesToInt32 bs, { f with fp_ := fp })

/-- The method `LogFile::read_latest_table_size()`; `none` when the `fread` comes up short. -/
def LogFile.read_latest_table_size (f : LogFile) : Option Int × LogFile :=
  let fp := f.fp_.fseek f.file (-8) .SEEK_END
  let (bs, fp) := fp.fread f.file 4
  let fp := fp.fseek f.file 0 .SEEK_END
  (bytesToInt32 bs, { f with fp_ := fp })

/-- Appends the records in order. -/
def LogFile.appendAll (f : LogFile) (rs : List LogEntry) : LogFile :=
  rs.foldl (fun g r => g.append r.key r.val r.size) f

/-- Calls `previous_entry` `n` times, collecting the entries in call order. -/
def LogFile.scanBack : Nat → LogFile → Option (List LogEntry × LogFile)
  | 0, f => some ([], f)
  | n + 1, f =>
    match f.previous_entry with
    | none => none
    | some (e, g) =>
      match LogFile.scanBack n g with
      | none => none
      | some (es, h) => some (e :: es, h)

/-- A record whose lengths and table size are representable in the `int`
fields of the format. -/
def LogEntry.Fits (r : LogEntry) : Prop :=
  r.key.length + r.val.length + 8 < 2147483648 ∧ InInt32 r.size

instance (r : LogEntry) : Decidable r.Fits := by unfold LogEntry.Fits; infer_instance

/-- Image of one record as `append` lays it out when the lengths fit an `int`:
`key_len | key | value | table_size | total_len`, the last field holding
`key_len + value_len + 2 * sizeof(int)`. -/
def recordBytes (key val : Bytes) (size : Int) : Bytes :=
  int32Bytes key.length ++ key ++ val ++ int32Bytes size
    ++ int32Bytes (key.length + val.length + 8)

/-- The bytes one call of `append` hands to `fwrite`, in order, whatever the
lengths. -/
def appendBytes (key val : Bytes) (size : Int) : Bytes :=
  int32Bytes (toInt32 key.length) ++ key.take (toInt32 key.length).toNat
    ++ val.take (toInt32 val.length).toNat ++ int32Bytes size
    ++ int32Bytes (toInt32 (toInt32 key.length + toInt32 val.length + 2 * 4))

/-- Content of the records part of a log holding the given records. -/
def recordsBytes (rs : List LogEntry) : Bytes :=
  (rs.map (fun r => recordBytes r.key r.val r.size)).flatten

/-! ## File system and `LocalFile` -/

/-- File name to content. -/
abbrev FileSystem := String → Option Bytes

/-- The file system with the content of one file replaced (`none` removes it). -/
def FileSystem.set (fs : FileSystem) (name : String) (c : Option Bytes) : FileSystem :=
  fun n => if n = name then c else fs n

/-- Modelled from the spec: the class `LocalFile` of `core/file.h` (absent from the
sources), a thin wrapper of a stdio stream on a named file: the constructor
opens (a writer creates the staging file), `read`/`write` transfer bytes at
the stream position and return their number, `tell` is the position, `sync`
flushes. -/
structure LocalFile where
  path : String
  s : Stream
deriving DecidableEq, Repr

/-- Modelled from the spec: the constructor `LocalFile(name, mode)`, an `fopen`
of the named file; `none` when the file cannot be opened. -/
def LocalFile.create (fs : FileSystem) (name mode : String) :
    Option (FileSystem × LocalFile) :=
  match fopen (fs name) mode with
  | none => none
  | some (d, s) => some (fs.set name (some d), ⟨name, s⟩)

/-- Modelled from the spec: `LocalFile::write(buffer, len)`, an `fwrite` on the
file the stream is open on. -/
def LocalFile.write (fs : FileSystem) (lf : LocalFile) (bs : Bytes) :
    FileSystem × LocalFile :=
  if lf.s.wr then
    let (d, s) := lf.s.fwrite ((fs lf.path).getD []) bs
    (fs.set lf.path (some d), { lf with s := s })
  else (fs, lf)

/-- Modelled from the spec: `LocalFile::read(buffer, len)`, an `fread`; the bytes
obtained (their number is the return value) and the advanced stream. -/
def LocalFile.read (fs : FileSystem) (lf : LocalFile) (n : Nat) : Bytes × LocalFile :=
  let (bs, s) := lf.s.fread ((fs lf.path).getD []) n
  (bs, { lf with s := s })

/-- Modelled from the spec: `LocalFile::tell()`, the stream position. -/
def LocalFile.tell (lf : LocalFile) : Nat := lf.s.pos

/-- The call `File::Move(src, dst)`: `rename`, aborting (`none`) when it fails. -/
def File.Move (fs : FileSystem) (src dst : String) : Option FileSystem :=
  match fs src with
  | none => none
  | some d => some ((fs.set src none).set dst (some d))

/-! ## Record file (`RecordFile`) -/

/-- Modelled from the spec: the compression constant `LZO` of `core/file.h`
(absent from the sources); compression is unsupported and only the
distinction from the default `0` matters. -/
def LZO : Int := 1

structure RecordFile where
  path_ : String
  mode_ : String
  fp : Option LocalFile
  buf_ : Bytes
deriving DecidableEq, Repr

/-- Constructor `RecordFile::RecordFile(path, mode, compression)`. -/
def RecordFile.create (fs : FileSystem) (path mode : String) (compression : Int) :
    Option (FileSystem × RecordFile) :=
  match (if mode = "r" then LocalFile.create fs path mode
         else LocalFile.create fs (path ++ ".tmp") mode) with
  | none => none
  | some (fs1, lf) =>
    some (fs1, { path_ := path, mode_ := mode,
                 fp := if compression = LZO then none else some lf, buf_ := [] })

/-- Destructor `RecordFile::~RecordFile()`. -/
def RecordFile.close (fs : FileSystem) (rf : RecordFile) : Option FileSystem :=
  match rf.fp with
  | none => some fs
  | some _ =>
    if rf.mode_ ≠ "r" then File.Move fs (rf.path_ ++ ".tmp") rf.path_
    else some fs

/-- On-disk image of one chunk as `writeChunk` lays it out. -/
def chunkBytes (data : Bytes) : Bytes := int32Bytes (toInt32 data.length) ++ data

/-- The method `RecordFile::writeChunk(data)`; `none` on a null `fp`. -/
def RecordFile.writeChunk (fs : FileSystem) (rf : RecordFile) (data : Bytes) :
    Option (FileSystem × RecordFile) :=
  match rf.fp with
  | none => none
  | some lf =>
    let len := toInt32 data.length
    let (fs, lf) := lf.write fs (int32Bytes len)
    let (fs, lf) := lf.write fs data
    some (fs, { rf with fp := some lf })

/-- The method `RecordFile::readChunk(s)`: the returned flag, the string `s` and the
reader. `none` on a null `fp` or a negative length handed to `resize`. -/
def RecordFile.readChunk (fs : FileSystem) (rf : RecordFile) :
    Option (Bool × Bytes × RecordFile) :=
  match rf.fp with
  | none => none
  | some lf =>
    let (lenBytes, lf) := lf.read fs 4
    match bytesToInt32 lenBytes with
    | none => some (false, [], { rf with fp := some lf })
    | some len =>
      if len < 0 then none else
      let (got, lf) := lf.read fs len.toNat
      some (true, got ++ List.replicate (len.toNat - got.length) (0 : Byte),
            { rf with fp := some lf })

/-- The method `RecordFile::read(m)`; `parse` is `none` for a null message pointer, otherwise
the message parser, whose failure trips the `CHECK`. -/
def RecordFile.read {M : Type} (fs : FileSystem) (rf : RecordFile)
    (parse : Option (Bytes → Option M)) : Option (Bool × Option M × RecordFile) :=
  match rf.readChunk fs with
  | none => none
  | some (false, b, rf1) => some (false, none, { rf1 with buf_ := b })
  | some (true, b, rf1) =>
    match parse with
    | none => some (true, none, { rf1 with buf_ := b })
    | some p =>
      match p b with
      | none => none
      | some m => some (true, some m, { rf1 with buf_ := b })

/-- Loop of `RecordFile::seek(pos)`: `while (fp->tell() < pos && read(NULL));`,
run for at most `fuel` iterations (`none` when they do not suffice, or on a
fault inside `read`). -/
def RecordFile.seekLoop (fs : FileSystem) (pos : Nat) : Nat → RecordFile → Option RecordFile
  | 0, _ => none
  | fuel + 1, rf =>
    match rf.fp with
    | none => none
    | some lf =>
      if lf.tell < pos then
        match rf.read fs (none : Option (Bytes → Option Unit)) with
        | none => none
        | some (true, _, rf1) => RecordFile.seekLoop fs pos fuel rf1
        | some (false, _, rf1) => some rf1
      else some rf

/-- The method `RecordFile::seek(pos)`. Every iteration but the last consumes at least
four bytes, so one iteration per byte of the file and two more always suffice. -/
def RecordFile.seek (fs : FileSystem) (rf : RecordFile) (pos : Nat) : Option RecordFile :=
  RecordFile.seekLoop fs pos (((rf.fp.bind (fun lf => fs lf.path)).getD []).length + 2) rf

/-- Writes the chunks in order. -/
def RecordFile.writeChunks (fs : FileSystem) (rf : RecordFile) :
    List Bytes → Option (FileSystem × RecordFile)
  | [] => some (fs, rf)
  | c :: cs =>
    match rf.writeChunk fs c with
    | none => none
    | some (fs1, rf1) => RecordFile.writeChunks fs1 rf1 cs

/-- Calls `readChunk` `n` times: the flags and strings obtained, in call order. -/
def RecordFile.readChunks (fs : FileSystem) : Nat → RecordFile →
    Option (List (Bool × Bytes) × RecordFile)
  | 0, rf => some ([], rf)
  | n + 1, rf =>
    match rf.readChunk fs with
    | none => none
    | some (ok, b, rf1) =>
      match RecordFile.readChunks fs n rf1 with
      | none => none
      | some (rs, rf2) => some ((ok, b) :: rs, rf2)

/-- Content of a record file holding the given chunks. -/
def chunksBytes (cs : List Bytes) : Bytes := (cs.map chunkBytes).flatten

/-- Offset of the `k`-th chunk boundary of a file holding the chunks `cs`. -/
def boundary (cs : List Bytes) (k : Nat) : Nat := (chunksBytes (cs.take k)).length

/-- The file system holding no file. -/
def emptyFs : FileSystem := fun _ => none

/-- A file system in which a stale staging file `x.tmp` was left behind. -/
def staleFs : FileSystem := fun n => if n = "x.tmp" then some [9] else none

/-- A file system holding one record file `x` with the chunks `[7]` and `[]`. -/
def dataFs : FileSystem := fun n => if n = "x" then some [1, 0, 0, 0, 7, 0, 0, 0, 0] else none

/-- A record file opened for reading: mode `"r"` and a stream that cannot write. -/
def RecordFile.ReadOnly (rf : RecordFile) : Prop :=
  rf.mode_ = "r" ∧ ∀ lf, rf.fp = some lf → lf.s.wr = false

/-! ## Tagged messages -/

/-- Modelled from the spec: the message tags of `proto/worker.proto` (absent from
the sources), the closed enum listed for the fabric. -/
inductive Tag where
  | MTYPE_REGISTER_WORKER
  | MTYPE_SHARD_ASSIGNMENT
  | MTYPE_MODEL_CONFIG
  | MTYPE_PUT_REQUEST
  | MTYPE_GET_REQUEST
  | MTYPE_UPDATE_REQUEST
  | MTYPE_PUT_RESPONSE
  | MTYPE_DATA_PUT_REQUEST
  | MTYPE_DATA_PUT_REQUEST_FINISH
  | MTYPE_BARRIER_REQUEST
  | MTYPE_BARRIER_REPLY
  | MTYPE_BARRIER_READY
  | MTYPE_SHUTDOWN
deriving DecidableEq, Repr

open Tag

structure TaggedMessage where
  tag : Tag
  data : Bytes
deriving DecidableEq, Repr

/-- The table request tags named by the specification. -/
def Tag.isTableRequest (t : Tag) : Bool :=
  t = MTYPE_PUT_REQUEST || t = MTYPE_GET_REQUEST || t = MTYPE_UPDATE_REQUEST

/-! ## Transport (`NetworkThread`) -/

/-- The three counters of `network_thread_stats_`. -/
structure NetStats where
  first_byte_received : Int
  last_byte_received : Int
  total_byte_received : Int
deriving DecidableEq, Repr

/-- An `RPCRequest` as `network_thread.cc` uses it: destination rank, message
type and serialised payload. -/
structure RPCRequest where
  target : Int
  rpc_type : Tag
  payload : Bytes
deriving DecidableEq, Repr

/-- The queues of a `NetworkThread`, over a request queue of type `Q`:
`response_queue_[tag][source]`, the disk queue, the statistics, which tags
have a callback registered, the callbacks invoked so far and the sends
submitted but not yet started. -/
structure NetworkThread (Q : Type) where
  request_queue_ : Q
  disk_queue_ : List Bytes
  response_queue_ : Tag → Int → List Bytes
  network_thread_stats_ : NetStats
  callbacks_ : Tag → Bool
  invoked : List Tag
  pending_sends_ : List RPCRequest

/-- Body of the `Iprobe` branch of `NetworkThread::NetworkLoop` for one incoming
message `(tag, source, data)`: statistics, routing, callback. `Enqueue` is the
request queue's method and `now1`, `now2` are the two readings of the clock.
The send half of the loop does not touch these members. -/
def NetworkThread.NetworkLoop {Q : Type} (Enqueue : Q → Tag → Bytes → Q)
    (nt : NetworkThread Q) (tag : Tag) (source : Int) (data : Bytes)
    (now1 now2 : Int) : NetworkThread Q :=
  let st := nt.network_thread_stats_
  let st := if tag = MTYPE_DATA_PUT_REQUEST ∧ st.first_byte_received = 0
            then { st with first_byte_received := now1 } else st
  let st := if tag = MTYPE_DATA_PUT_REQUEST
            then { st with last_byte_received := now2,
                           total_byte_received := st.total_byte_received + data.length }
            else st
  let nt := { nt with network_thread_stats_ := st }
  let nt :=
    if tag = MTYPE_PUT_REQUEST ∨ tag = MTYPE_GET_REQUEST then
      { nt with request_queue_ := Enqueue nt.request_queue_ tag data }
    else if tag = MTYPE_DATA_PUT_REQUEST ∨ tag = MTYPE_DATA_PUT_REQUEST_FINISH then
      { nt with disk_queue_ := nt.disk_queue_ ++ [data] }
    else
      { nt with response_queue_ := fun t s =>
          if t = tag ∧ s = source then nt.response_queue_ t s ++ [data]
          else nt.response_queue_ t s }
  if nt.callbacks_ tag then { nt with invoked := nt.invoked ++ [tag] } else nt

/-- The method `NetworkThread::check_queue(src, type, data)`: the message handed to the
parser (`none` when the method returns false) and the queues afterwards. -/
def NetworkThread.check_queue {Q : Type} (nt : NetworkThread Q) (src : Int) (type : Tag) :
    Option Bytes × NetworkThread Q :=
  match nt.response_queue_ type src with
  | [] => (none, nt)
  | s :: q =>
    (some s, { nt with response_queue_ := fun t r =>
                 if t = type ∧ r = src then q else nt.response_queue_ t r })

/-- The wildcard `MPI::ANY_SOURCE` of the message-passing library, a negative
rank. -/
def ANY_SOURCE : Int := -1

/-- Loop of `NetworkThread::TryRead` over the ranks `i, i+1, ...` (`n` of them). -/
def NetworkThread.TryReadFrom {Q : Type} (nt : NetworkThread Q) (type : Tag) :
    Nat → Nat → Option (Int × Bytes) × NetworkThread Q
  | _, 0 => (none, nt)
  | i, n + 1 =>
    match nt.check_queue i type with
    | (some s, nt1) => (some ((i : Int), s), nt1)
    | (none, _) => NetworkThread.TryReadFrom nt type (i + 1) n

/-- The method `NetworkThread::TryRead(src, type, data, source)` in a world of `size` ranks:
on success the reported source and the message. -/
def NetworkThread.TryRead {Q : Type} (size : Nat) (nt : NetworkThread Q) (src : Int)
    (type : Tag) : Option (Int × Bytes) × NetworkThread Q :=
  if src = ANY_SOURCE then nt.TryReadFrom type 0 size
  else
    match nt.check_queue src type with
    | (some s, nt1) => (some (src, s), nt1)
    | (none, nt1) => (none, nt1)

/-- One step of an interleaving of the I/O loop with a reader. -/
inductive NetEvent where
  | arrive (tag : Tag) (source : Int) (data : Bytes) (now1 now2 : Int)
  | tryRead (src : Int) (type : Tag)
deriving DecidableEq, Repr

/-- Runs an interleaving; returns the final queues and, for every `tryRead` in
order, its tag with what it returned. -/
def NetworkThread.run {Q : Type} (Enqueue : Q → Tag → Bytes → Q) (size : Nat) :
    NetworkThread Q → List NetEvent → NetworkThread Q × List (Tag × Option (Int × Bytes))
  | nt, [] => (nt, [])
  | nt, .arrive tag source data now1 now2 :: evs =>
    NetworkThread.run Enqueue size (nt.NetworkLoop Enqueue tag source data now1 now2) evs
  | nt, .tryRead src type :: evs =>
    let (r, nt1) := nt.TryRead size src type
    let (nt2, rs) := NetworkThread.run Enqueue size nt1 evs
    (nt2, (type, r) :: rs)

/-- A `NetworkThread` as its constructor leaves it: every queue empty. -/
def NetworkThread.init {Q : Type} (q : Q) (callbacks_ : Tag → Bool) : NetworkThread Q :=
  { request_queue_ := q, disk_queue_ := [], response_queue_ := fun _ _ => [],
    network_thread_stats_ := ⟨0, 0, 0⟩, callbacks_ := callbacks_, invoked := [],
    pending_sends_ := [] }

/-- The method `NetworkThread::Send(req)`. -/
def NetworkThread.SendReq {Q : Type} (nt : NetworkThread Q) (req : RPCRequest) :
    NetworkThread Q :=
  { nt with pending_sends_ := nt.pending_sends_ ++ [req] }

/-- The method `NetworkThread::Send(dst, method, msg)`; `msg` is the serialised message. -/
def NetworkThread.Send {Q : Type} (nt : NetworkThread Q) (dst : Int) (method : Tag)
    (msg : Bytes) : NetworkThread Q :=
  nt.SendReq ⟨dst, method, msg⟩

/-- Loop of `NetworkThread::Broadcast`: `n` iterations starting at rank `i`. -/
def NetworkThread.BroadcastFrom {Q : Type} (method : Tag) (msg : Bytes) :
    Nat → Nat → NetworkThread Q → NetworkThread Q
  | _, 0, nt => nt
  | i, n + 1, nt => NetworkThread.BroadcastFrom method msg (i + 1) n (nt.Send i method msg)

/-- The method `NetworkThread::Broadcast(method, msg)` in a world of `size` ranks:
`for (int i = 0; i < size() - 1; ++i) Send(i, method, msg);`. -/
def NetworkThread.Broadcast {Q : Type} (size : Int) (nt : NetworkThread Q) (method : Tag)
    (msg : Bytes) : NetworkThread Q :=
  NetworkThread.BroadcastFrom method msg 0 (size - 1).toNat nt

/-- Payloads that arrived from `source` with `tag`, in arrival order. -/
def arrivals (tag : Tag) (source : Int) : List NetEvent → List Bytes
  | [] => []
  | .arrive t s d _ _ :: evs =>
    if t = tag ∧ s = source then d :: arrivals tag source evs else arrivals tag source evs
  | .tryRead _ _ :: evs => arrivals tag source evs

/-- Payloads returned by the successful reads of `tag` that reported `source`,
in read order. -/
def deliveries (tag : Tag) (source : Int) : List (Tag × Option (Int × Bytes)) → List Bytes
  | [] => []
  | (t, some (s, d)) :: rs =>
    if t = tag ∧ s = source then d :: deliveries tag source rs else deliveries tag source rs
  | (_, none) :: rs => deliveries tag source rs

/-- A request queue that records the `Enqueue` calls it receives, in order. -/
def recordEnqueue (q : List TaggedMessage) (tag : Tag) (data : Bytes) : List TaggedMessage :=
  q ++ [⟨tag, data⟩]

/-- Tags whose messages the I/O loop pushes onto the response queue. -/
def Tag.toResponseQueue (t : Tag) : Bool :=
  !(t = MTYPE_PUT_REQUEST || t = MTYPE_GET_REQUEST || t = MTYPE_DATA_PUT_REQUEST
      || t = MTYPE_DATA_PUT_REQUEST_FINISH)

/-! ## Request queue and dispatcher -/

/-- Modelled from the spec: the class `ASyncRequestQueue`, whose methods are absent
from the sources (only `request_queue.h` declares them): `num_mem_servers_`
per-server FIFOs; `Enqueue` appends to the queue of the shard owner parsed out
of the payload; `NextRequest` round-robins across the queues from `key_index_`
and returns the head of the first non-empty one. -/
structure ASyncRequestQueue where
  num_mem_servers_ : Nat
  key_index_ : Nat
  request_queues_ : List (List TaggedMessage)
deriving DecidableEq, Repr

/-- Constructor `ASyncRequestQueue(ns)`. -/
def ASyncRequestQueue.create (ns : Nat) : ASyncRequestQueue :=
  { num_mem_servers_ := ns, key_index_ := 0, request_queues_ := List.replicate ns [] }

/-- Modelled from the spec: `ASyncRequestQueue::Enqueue(tag, data)`; `owner` parses the
shard owner rank out of the payload. -/
def ASyncRequestQueue.Enqueue (owner : Bytes → Nat) (q : ASyncRequestQueue) (tag : Tag)
    (data : Bytes) : ASyncRequestQueue :=
  let i := owner data
  { q with request_queues_ :=
      q.request_queues_.set i (q.request_queues_.getD i [] ++ [⟨tag, data⟩]) }

/-- Round-robin scan of `NextRequest`: tries `n` queues starting at index `i`. -/
def ASyncRequestQueue.scan (q : ASyncRequestQueue) :
    Nat → Nat → Option (TaggedMessage × ASyncRequestQueue)
  | _, 0 => none
  | i, n + 1 =>
    match q.request_queues_.getD i [] with
    | m :: rest =>
      some (m, { q with key_index_ := (i + 1) % q.num_mem_servers_,
                        request_queues_ := q.request_queues_.set i rest })
    | [] => ASyncRequestQueue.scan q ((i + 1) % q.num_mem_servers_) n

/-- Modelled from the spec: `ASyncRequestQueue::NextRequest(msg)`; `none` when every
queue is empty (the call then blocks). -/
def ASyncRequestQueue.NextRequest (q : ASyncRequestQueue) :
    Option (TaggedMessage × ASyncRequestQueue) :=
  q.scan q.key_index_ q.num_mem_servers_

/-- Number of requests held by the queue. -/
def ASyncRequestQueue.size (q : ASyncRequestQueue) : Nat :=
  (q.request_queues_.map List.length).sum

/-- The typed message the dispatch loop allocates for a tag and fills from the
payload. -/
inductive Message where
  | HashGet (payload : Bytes)
  | TableData (payload : Bytes)
deriving DecidableEq, Repr

/-- The dispatcher's members and the state `σ` its handlers act on. -/
structure RequestDispatcher (σ : Type) where
  table_queue_ : ASyncRequestQueue
  num_outstanding_request_ : Int
  disk_queue_ : List Bytes
  handlerState : σ

/-- The handlers `callbacks_[tag]`. -/
abbrev Callbacks (σ : Type) := Tag → Message → σ → Bool × σ

/-- Constructor `RequestDispatcher::RequestDispatcher()` with `ns` table servers. -/
def RequestDispatcher.create {σ : Type} (ns : Nat) (s0 : σ) : RequestDispatcher σ :=
  { table_queue_ := ASyncRequestQueue.create ns, num_outstanding_request_ := 0,
    disk_queue_ := [], handlerState := s0 }

/-- The method `RequestDispatcher::active()`. -/
def RequestDispatcher.active {σ : Type} (d : RequestDispatcher σ) : Bool :=
  decide (d.num_outstanding_request_ > 0)

/-- The method `RequestDispatcher::Enqueue(tag, data)` (lines 119-122). -/
def RequestDispatcher.Enqueue {σ : Type} (owner : Bytes → Nat) (d : RequestDispatcher σ)
    (tag : Tag) (data : Bytes) : RequestDispatcher σ :=
  { d with table_queue_ := d.table_queue_.Enqueue owner tag data,
           num_outstanding_request_ := d.num_outstanding_request_ + 1 }

/-- The method `RequestDispatcher::Enqueue(tag, data)` of the `HEAD` side (lines 65-74). -/
def RequestDispatcher.Enqueue_HEAD {σ : Type} (owner : Bytes → Nat)
    (d : RequestDispatcher σ) (tag : Tag) (data : Bytes) : RequestDispatcher σ :=
  if tag = MTYPE_PUT_REQUEST ∨ tag = MTYPE_GET_REQUEST ∨ tag = MTYPE_UPDATE_REQUEST then
    { d with table_queue_ := d.table_queue_.Enqueue owner tag data,
             num_outstanding_request_ := d.num_outstanding_request_ + 1 }
  else
    { d with disk_queue_ := d.disk_queue_ ++ [data] }

/-- What one iteration of the dispatch loop did with the request it took. -/
inductive Outcome where
  | completed (m : TaggedMessage)
  | requeued (m : TaggedMessage)
deriving DecidableEq, Repr

/-- One iteration of `RequestDispatcher::table_dispatch_loop` (lines 129-147);
`none` when `NextRequest` has nothing to return and the loop blocks. -/
def RequestDispatcher.table_dispatch_loop {σ : Type} (owner : Bytes → Nat)
    (callbacks_ : Callbacks σ) (d : RequestDispatcher σ) :
    Option (Outcome × RequestDispatcher σ) :=
  match d.table_queue_.NextRequest with
  | none => none
  | some (t_msg, q) =>
    let message := if t_msg.tag = MTYPE_GET_REQUEST then Message.HashGet t_msg.data
                   else Message.TableData t_msg.data
    match callbacks_ t_msg.tag message d.handlerState with
    | (true, s) =>
      some (.completed t_msg,
            { d with table_queue_ := q, handlerState := s,
                     num_outstanding_request_ := d.num_outstanding_request_ - 1 })
    | (false, s) =>
      some (.requeued t_msg,
            { d with table_queue_ := q.Enqueue owner t_msg.tag t_msg.data,
                     handlerState := s })

/-- One iteration of `table_dispatch_loop` of the `HEAD` side (lines 76-101). With
the asynchronous queue `ExtractKey` has no effect on the queue and
`event_complete` is the empty method of `request_queue.h`. -/
def RequestDispatcher.table_dispatch_loop_HEAD {σ : Type} (owner : Bytes → Nat)
    (callbacks_ : Callbacks σ) (d : RequestDispatcher σ) :
    Option (Outcome × RequestDispatcher σ) :=
  match d.table_queue_.NextRequest with
  | none => none
  | some (t_msg, q) =>
    let message := if t_msg.tag = MTYPE_GET_REQUEST then Message.HashGet t_msg.data
                   else Message.TableData t_msg.data
    match callbacks_ t_msg.tag message d.handlerState with
    | (true, s) =>
      let event_complete := fun (q : ASyncRequestQueue) => q
      some (.completed t_msg,
            { d with table_queue_ := event_complete q, handlerState := s,
                     num_outstanding_request_ := d.num_outstanding_request_ - 1 })
    | (false, s) =>
      some (.requeued t_msg,
            { d with table_queue_ := q.Enqueue owner t_msg.tag t_msg.data,
                     handlerState := s })

/-- One step of a run of the dispatcher: a request submitted through `Enqueue`,
or one iteration of the dispatch loop. -/
inductive DispatchEvent where
  | enqueue (tag : Tag) (data : Bytes)
  | iterate
deriving DecidableEq, Repr

/-- Runs the events in order on either side of the source (`head = true` for the
`HEAD` side); returns the final state and the outcome of every iteration that
took a request. An iteration on an empty queue blocks and changes nothing. -/
def RequestDispatcher.run {σ : Type} (head : Bool) (owner : Bytes → Nat)
    (callbacks_ : Callbacks σ) :
    RequestDispatcher σ → List DispatchEvent → RequestDispatcher σ × List Outcome
  | d, [] => (d, [])
  | d, .enqueue tag data :: evs =>
    RequestDispatcher.run head owner callbacks_
      (if head then d.Enqueue_HEAD owner tag data else d.Enqueue owner tag data) evs
  | d, .iterate :: evs =>
    match (if head then d.table_dispatch_loop_HEAD owner callbacks_
           else d.table_dispatch_loop owner callbacks_) with
    | none => RequestDispatcher.run head owner callbacks_ d evs
    | some (o, d1) =>
      let (d2, os) := RequestDispatcher.run head owner callbacks_ d1 evs
      (d2, o :: os)

/-- A shard-owner parser for two table servers: the parity of the payload length. -/
def ownerParity (data : Bytes) : Nat := data.length % 2

/-- Handlers over a call counter that soft-fail on every even-numbered call. -/
def oddHandler : Callbacks Nat := fun _ _ s => (decide (s % 2 = 1), s + 1)

/-- Number of requests submitted through `Enqueue` in a run. -/
def submitted : List DispatchEvent → Nat
  | [] => 0
  | .enqueue _ _ :: evs => submitted evs + 1
  | .iterate :: evs => submitted evs

/-- Number of requests a handler completed (returned true for) in a run. -/
def completions : List Outcome → Nat
  | [] => 0
  | .completed _ :: os => completions os + 1
  | .requeued _ :: os => completions os

/-! ## Layer graph (`Net::topology_sort`) -/

/-- State of the depth-first traversal: the layers whose `visited` entry is true
and the stack, top first. -/
structure SortState (L : Type) where
  visited : List L
  stack : List L
deriving DecidableEq, Repr

/-- The loop `for (layer : ...) { if (visited[layer]) continue; topology_sort_inner(layer, ...); }`
over a list of layers, with the call given as `visit`: the loop over the out
edges inside `topology_sort_inner` and the main loop of `topology_sort`. -/
def visitAll {L : Type} [DecidableEq L] (visit : L → SortState L → Option (SortState L)) :
    List L → SortState L → Option (SortState L)
  | [], st => some st
  | l :: ls, st =>
    if l ∈ st.visited then visitAll visit ls st
    else
      match visit l st with
      | none => none
      | some st1 => visitAll visit ls st1

/-- The function `Net::topology_sort_inner(layer, adjacent_list, visited, stack)` with the
depth of the recursion bounded by `fuel` (`none` when it does not suffice);
`adjacent_list.at(layer)` throws for a layer without an entry (`none`). -/
def topology_sort_inner {L : Type} [DecidableEq L] (adjacent_list : L → Option (List L)) :
    Nat → L → SortState L → Option (SortState L)
  | 0, _, _ => none
  | fuel + 1, layer, st =>
    match adjacent_list layer with
    | none => none
    | some outs =>
      match visitAll (topology_sort_inner adjacent_list fuel) outs
              { st with visited := layer :: st.visited } with
      | none => none
      | some st1 => some { st1 with stack := layer :: st1.stack }

/-- First loop of `Net::topology_sort`: every layer of the list gets an entry in
`adjacent_list`, to which the other side of each of its out edges (`out`) is
appended. -/
def buildAdjacent {L : Type} [DecidableEq L] (out : L → List L) :
    List L → (L → Option (List L)) → (L → Option (List L))
  | [], m => m
  | l :: ls, m =>
    buildAdjacent out ls (fun x => if x = l then some ((m l).getD [] ++ out l) else m x)

/-- The function `Net::topology_sort(layers)`: the sorted list. `input_layers` stays empty, so
the result is the stack popped from the top. Each nested call marks a layer
not yet visited, so a depth of `layers.length` always suffices. -/
def topology_sort {L : Type} [DecidableEq L] (out : L → List L) (layers : List L) :
    Option (List L) :=
  let adjacent_list := buildAdjacent out layers (fun _ => none)
  match visitAll (topology_sort_inner adjacent_list layers.length) layers ⟨[], []⟩ with
  | none => none
  | some st => some st.stack

/-- A list in which every layer precedes the layers its out edges lead to:
each out edge of an element leads into the part of the list after it. -/
def EdgesForward {L : Type} (out : L → List L) : List L → Prop
  | [] => True
  | a :: post => (∀ b ∈ out a, b ∈ post) ∧ EdgesForward out post

/-- Number of layers of `layers` not yet marked in `visited`. -/
def unvisited {L : Type} [DecidableEq L] (layers visited : List L) : Nat :=
  layers.countP (fun x => decide (x ∉ visited))

/-- Out edges of a small acyclic net on layers 0..3: `0 → 1, 0 → 2, 1 → 3, 2 → 3`. -/
def diamondOut (l : Nat) : List Nat :=
  if l = 0 then [1, 2] else if l = 1 then [3] else if l = 2 then [3] else []

/-- Out edges of a net with a cycle on layers 0..2: `0 → 1, 1 → 2, 2 → 0`. -/
def cycleOut (l : Nat) : List Nat :=
  if l = 0 then [1] else if l = 1 then [2] else if l = 2 then [0] else []

/-! ## Model controller (`ModelController::Put / Update / Get`) -/

/-- A `Param` as the model controller uses it: id, content and gradient;
`length()` is the number of elements. -/
structure Param (α : Type) where
  id : Int
  content : List α
  gradient : List α
deriving DecidableEq, Repr

/-- The member `split_size_` as the constructor sets it. -/
def split_size_ : Int := 2

/-- The split computation that `Update`, `Put` and `Get` repeat verbatim
(lines 67-74, 105-112, 139-146): `(splitsize, splitoffset)` for a parameter of
`largestoffset` elements; `none` on a division by zero. -/
def ModelController.split (num_table_servers largestoffset : Int) : Option (Int × Int) :=
  let splitsize := toInt32 (num_table_servers * split_size_)
  if splitsize = 0 then none
  else
    let splitoffset := Int.tdiv largestoffset splitsize
    let splitoffset := if Int.tmod largestoffset splitsize ≠ 0 then toInt32 (splitoffset + 1)
                       else splitoffset
    if splitoffset > 1000000 then some (Int.tdiv largestoffset 1000000 + 1, 1000000)
    else some (splitsize, splitoffset)

/-- The statement `int mykey = paramid*2048+j;`. -/
def mykey (paramid : Int) (j : Nat) : Int := toInt32 (paramid * 2048 + j)

/-- Inner loop of `Put` and `Update`: at most `k` times, while `curoffset` is
below `largestoffset`, appends the element at `curoffset` to the message and
advances `curoffset` (an address past the buffer ends the loop). State:
`(curoffset, mymessage)`. -/
def collect {α : Type} (addr : List α) (largestoffset : Nat) :
    Nat → Nat × List α → Nat × List α
  | 0, st => st
  | k + 1, (curoffset, mymessage) =>
    if curoffset ≥ largestoffset then (curoffset, mymessage)
    else
      match addr[curoffset]? with
      | none => (curoffset, mymessage)
      | some x => collect addr largestoffset k (curoffset + 1, mymessage ++ [x])

/-- Outer loop of `Put` and `Update` for `n` more values of `j`: the table calls
`(mykey, mymessage)` in order. -/
def splitLoop {α : Type} (paramid : Int) (addr : List α) (largestoffset splitoffset : Nat) :
    Nat → Nat → Nat → List (Int × List α)
  | 0, _, _ => []
  | n + 1, j, curoffset =>
    let st := collect addr largestoffset splitoffset (curoffset, [])
    (mykey paramid j, st.2) :: splitLoop paramid addr largestoffset splitoffset n (j + 1) st.1

/-- Body of the loop of `ModelController::Put` for one parameter: the calls
`param_table_->put(mykey, mymessage)` in order. -/
def ModelController.PutParam {α : Type} (num_table_servers : Int) (param : Param α) :
    Option (List (Int × List α)) :=
  match ModelController.split num_table_servers param.content.length with
  | none => none
  | some (splitsize, splitoffset) =>
    some (splitLoop param.id param.content param.content.length splitoffset.toNat
            splitsize.toNat 0 0)

/-- The method `ModelController::Put(params)`: the `put` calls it makes on the parameter
table, in order; none in standalone mode. -/
def ModelController.Put {α : Type} (standalone : Bool) (num_table_servers : Int) :
    List (Param α) → Option (List (Int × List α))
  | [] => some []
  | param :: params =>
    if standalone then some []
    else
      match ModelController.PutParam num_table_servers param,
            ModelController.Put standalone num_table_servers params with
      | some c, some cs => some (c ++ cs)
      | _, _ => none

/-- Body of the non-standalone loop of `ModelController::Update` for one parameter:
the calls `param_table_->update(mykey, mymessage)` in order, the messages being
cut from the gradient. -/
def ModelController.UpdateParam {α : Type} (num_table_servers : Int) (param : Param α) :
    Option (List (Int × List α)) :=
  match ModelController.split num_table_servers param.content.length with
  | none => none
  | some (splitsize, splitoffset) =>
    some (splitLoop param.id param.gradient param.content.length splitoffset.toNat
            splitsize.toNat 0 0)

/-- Modelled from the spec: the parameter table (`core/table.h`, absent from the
sources) as a key-value store: `get(k)` returns what the last `put(k, v)`
stored. -/
abbrev ParamTable (α : Type) := Int → Option (List α)

/-- Modelled from the spec: `put(k, v)` on the parameter table. -/
def ParamTable.put {α : Type} (t : ParamTable α) (k : Int) (v : List α) : ParamTable α :=
  fun x => if x = k then some v else t x

/-- The table after a sequence of `put` calls. -/
def ParamTable.putAll {α : Type} (t : ParamTable α) (calls : List (Int × List α)) :
    ParamTable α :=
  calls.foldl (fun t c => t.put c.1 c.2) t

/-- Inner loop of `Get`: at most `n` times, starting at index `k` of the message,
while `curoffset` is below `largestoffset`, stores `mymessage.data(k)` at
`curoffset` of the content and advances both; `none` when `data(k)` is out of
range. State: `(curoffset, content)`. -/
def fill {α : Type} (mymessage : List α) (largestoffset : Nat) :
    Nat → Nat → Nat × List α → Option (Nat × List α)
  | 0, _, st => some st
  | n + 1, k, (curoffset, content) =>
    if curoffset ≥ largestoffset then some (curoffset, content)
    else
      match mymessage[k]? with
      | none => none
      | some x => fill mymessage largestoffset n (k + 1) (curoffset + 1, content.set curoffset x)

/-- Outer loop of `Get` for `n` more values of `j`: the keys requested so far
and the content, `none` when a `get` finds nothing or a message is too short. -/
def getLoop {α : Type} (table : ParamTable α) (paramid : Int) (largestoffset splitoffset : Nat) :
    Nat → Nat → Nat → List Int × List α → Option (List Int × List α)
  | 0, _, _, st => some st
  | n + 1, j, curoffset, (keys, content) =>
    match table (mykey paramid j) with
    | none => none
    | some mymessage =>
      match fill mymessage largestoffset splitoffset 0 (curoffset, content) with
      | none => none
      | some (cur1, content1) =>
        getLoop table paramid largestoffset splitoffset n (j + 1) cur1
          (keys ++ [mykey paramid j], content1)

/-- Body of the loop of `ModelController::Get` for one parameter: the keys it
requests from the table, in order, and the content of the parameter
afterwards. -/
def ModelController.GetParam {α : Type} (num_table_servers : Int) (table : ParamTable α)
    (param : Param α) : Option (List Int × List α) :=
  match ModelController.split num_table_servers param.content.length with
  | none => none
  | some (splitsize, splitoffset) =>
    getLoop table param.id param.content.length splitoffset.toNat splitsize.toNat 0 0
      ([], param.content)

/-! ## Typed disk table (`TypedDiskTable`) -/

/-- Modelled from the spec: a marshaller object (`Marshal<T>`, absent from the
sources), a pair of functions to bytes and from bytes. The descriptor holds
its marshallers behind `void*` and `put`/`get` cast them, so a marshaller is
taken over one universe `U` of values to which keys and values belong. -/
structure Marshal (U : Type) where
  marshal : U → Bytes
  unmarshal : Bytes → U

/-- The struct `DiskTableDescriptor`. -/
structure DiskTableDescriptor (U : Type) where
  id : Int
  max_size : Int
  name_prefix : String
  fixed_server_id : Int
  key_marshal : Marshal U
  value_marshal : Marshal U

/-- The method `TypedDiskTable::put(k, v)`: the two strings it hands to `put_str`. -/
def TypedDiskTable.put {U : Type} (info : DiskTableDescriptor U) (k v : U) : Bytes × Bytes :=
  let k_str := info.value_marshal.marshal k
  let v_str := info.value_marshal.marshal v
  (k_str, v_str)

/-- The method `TypedDiskTable::get(k, v)`: the key and value it stores through its
arguments, given the two strings `get_str` produced. -/
def TypedDiskTable.get {U : Type} (info : DiskTableDescriptor U) (k_str v_str : Bytes) :
    U × U :=
  (info.value_marshal.unmarshal k_str, info.value_marshal.unmarshal v_str)

/-- A marshaller of `int` values: the four bytes of the value. -/
def plainMarshal : Marshal Int :=
  ⟨int32Bytes, fun b => (bytesToInt32 b).getD 0⟩

/-- Another marshaller that round-trips on `int` values: the four bytes of the
value plus one. -/
def shiftedMarshal : Marshal Int :=
  ⟨fun v => int32Bytes (v + 1), fun b => (bytesToInt32 b).getD 0 - 1⟩

/-- A descriptor as `CreateDiskTable` builds it, with distinct key and value
marshallers. -/
def exampleDescriptor : DiskTableDescriptor Int :=
  { id := 0, max_size := 2560, name_prefix := "unknown", fixed_server_id := -1,
    key_marshal := plainMarshal, value_marshal := shiftedMarshal }

/-! # Theorems -/

/-! ## Machine integers and streams -/

theorem int32Bytes_length (i : Int) : (int32Bytes i).length = 4 := rfl

theorem toInt32_of_inInt32 (i : Int) (h : InInt32 i) : toInt32 i = i := by
  unfold InInt32 at h
  unfold toInt32
  simp only
  split_ifs <;> omega

theorem toInt32_natCast (n : Nat) (h : n < 2147483648) : toInt32 (n : Int) = n :=
  toInt32_of_inInt32 _ ⟨by omega, by omega⟩

theorem bytesToInt32_int32Bytes (i : Int) (h : InInt32 i) :
    bytesToInt32 (int32Bytes i) = some i := by
  unfold InInt32 at h
  simp only [int32Bytes, bytesToInt32, Fin.ofNat, Option.some.injEq]
  unfold toInt32
  simp only
  have e : (((i % 4294967296).toNat : Nat) : Int) = i % 4294967296 :=
    Int.toNat_of_nonneg (Int.emod_nonneg _ (by decide))
  generalize (i % 4294967296).toNat = u at e
  push_cast
  split_ifs <;> omega

theorem Stream.fwrite_end (s : Stream) (data bs : Bytes) (hwr : s.wr = true)
    (hend : s.pos = data.length ∨ s.app = true) :
    s.fwrite data bs = (data ++ bs, { s with pos := data.length + bs.length }) := by
  unfold Stream.fwrite
  rcases hend with h | h
  · by_cases ha : s.app = true <;> simp [hwr, h, ha]
  · simp [hwr, h]

theorem Stream.fseek_end (s : Stream) (data : Bytes) (off : Int) (n : Nat)
    (h : (data.length : Int) + off = n) :
    s.fseek data off .SEEK_END = { s with pos := n } := by
  unfold Stream.fseek
  simp only [h]
  simp

theorem Stream.fread_mid (s : Stream) (a b c : Bytes) (n : Nat) (hrd : s.rd = true)
    (hpos : s.pos = a.length) (hn : n = b.length) :
    s.fread (a ++ b ++ c) n = (b, { s with pos := a.length + b.length }) := by
  unfold Stream.fread
  simp [hrd, hpos, hn]

theorem recordBytes_length (key val : Bytes) (size : Int) :
    (recordBytes key val size).length = key.length + val.length + 12 := by
  simp [recordBytes, int32Bytes_length]
  omega

/-! ## Checkpoint log -/

theorem LogFile.append_gen (f : LogFile) (key val : Bytes) (size : Int)
    (hwr : f.fp_.wr = true) (hend : f.fp_.pos = f.file.length ∨ f.fp_.app = true) :
    f.append key val size =
      { f with file := f.file ++ appendBytes key val size
               fp_ := { f.fp_ with
                        pos := f.file.length + (appendBytes key val size).length } } := by
  obtain ⟨file, ⟨p, rd, wr, app⟩, co, tv⟩ := f
  simp only at hwr hend
  subst hwr
  generalize hK : int32Bytes (toInt32 key.length) = K
  generalize hk : key.take (toInt32 key.length).toNat = k
  generalize hv : val.take (toInt32 val.length).toNat = v
  generalize hT : int32Bytes (toInt32 (toInt32 key.length + toInt32 val.length + 2 * 4)) = T
  have e1 := Stream.fwrite_end ⟨p, rd, true, app⟩ file K rfl hend
  have e2 := Stream.fwrite_end ⟨file.length + K.length, rd, true, app⟩
    (file ++ K) k rfl (Or.inl (by simp only [List.length_append]))
  have e3 := Stream.fwrite_end ⟨(file ++ K).length + k.length, rd, true, app⟩
    (file ++ K ++ k) v rfl (Or.inl (by simp only [List.length_append]))
  have e4 := Stream.fwrite_end ⟨(file ++ K ++ k).length + v.length, rd, true, app⟩
    (file ++ K ++ k ++ v) (int32Bytes size) rfl (Or.inl (by simp only [List.length_append]))
  have e5 := Stream.fwrite_end
    ⟨(file ++ K ++ k ++ v).length + (int32Bytes size).length, rd, true, app⟩
    (file ++ K ++ k ++ v ++ int32Bytes size) T rfl
    (Or.inl (by simp only [List.length_append]))
  simp only at e1 e2 e3 e4 e5
  unfold LogFile.append appendBytes
  simp only [hK, hk, hv, hT, e1, e2, e3, e4, e5]
  simp only [List.append_assoc, List.length_append,
    LogFile.mk.injEq, Stream.mk.injEq, and_true, true_and]
  omega

theorem appendBytes_eq_recordBytes (key val : Bytes) (size : Int)
    (hfit : key.length + val.length + 8 < 2147483648) :
    appendBytes key val size = recordBytes key val size := by
  have hk : toInt32 (key.length : Int) = key.length := toInt32_natCast _ (by omega)
  have hv : toInt32 (val.length : Int) = val.length := toInt32_natCast _ (by omega)
  have ht : toInt32 ((key.length : Int) + val.length + 2 * 4)
      = (key.length : Int) + val.length + 8 := by
    have := toInt32_natCast (key.length + val.length + 8) hfit
    push_cast at this ⊢
    simpa using this
  unfold appendBytes recordBytes
  simp only [hk, hv, ht, Int.toNat_ofNat, List.take_length]

theorem LogFile.append_eq (f : LogFile) (key val : Bytes) (size : Int)
    (hwr : f.fp_.wr = true) (hend : f.fp_.pos = f.file.length ∨ f.fp_.app = true)
    (hfit : key.length + val.length + 8 < 2147483648) :
    f.append key val size =
      { f with file := f.file ++ recordBytes key val size
               fp_ := { f.fp_ with pos := f.file.length + (key.length + val.length + 12) } } := by
  rw [LogFile.append_gen f key val size hwr hend, appendBytes_eq_recordBytes _ _ _ hfit,
    recordBytes_length]

/-- The bytes a run of appends adds to a writable log positioned at end of file. -/
theorem LogFile.appendAll_gen (rs : List LogEntry) : ∀ (f : LogFile),
    f.fp_.wr = true → (f.fp_.pos = f.file.length ∨ f.fp_.app = true) →
    (f.appendAll rs).file
        = f.file ++ (rs.map (fun r => appendBytes r.key r.val r.size)).flatten ∧
    (f.appendAll rs).fp_.wr = true ∧
    ((f.appendAll rs).fp_.pos = (f.appendAll rs).file.length ∨
      (f.appendAll rs).fp_.app = true) ∧
    (f.appendAll rs).current_offset_ = f.current_offset_ := by
  induction rs with
  | nil => intro f hwr hend; simp [LogFile.appendAll, hwr, hend]
  | cons r rs ih =>
    intro f hwr hend
    have e := LogFile.append_gen f r.key r.val r.size hwr hend
    have h := ih (f.append r.key r.val r.size) (by rw [e]; exact hwr)
      (Or.inl (by rw [e]; simp only [List.length_append]))
    simp only [LogFile.appendAll, List.foldl_cons] at h ⊢
    refine ⟨?_, h.2.1, h.2.2.1, ?_⟩
    · rw [h.1, e]; simp
    · rw [h.2.2.2, e]

theorem LogFile.log_create_w (existing : Option Bytes) (sid : Int) (w : LogFile)
    (h : LogFile.create existing "w" sid = some w) :
    w = { file := int32Bytes sid, fp_ := ⟨4, false, true, false⟩,
          current_offset_ := 0, total_value_size := 0 } := by
  have e : fopen existing "w" = some ([], ⟨0, false, true, false⟩) := by
    unfold fopen; rw [if_neg (by decide), if_pos rfl]
  unfold LogFile.create at h
  rw [e] at h
  simp only [if_true] at h
  have e2 : Stream.fwrite ⟨0, false, true, false⟩ [] (int32Bytes sid)
      = (int32Bytes sid, ⟨4, false, true, false⟩) := by
    rw [Stream.fwrite_end _ _ _ rfl (Or.inl rfl)]; simp [int32Bytes_length]
  rw [e2] at h
  exact (Option.some.inj h).symm

theorem LogFile.log_create_r (content : Bytes) (sid : Int) (r : LogFile)
    (h : LogFile.create (some content) "r" sid = some r) :
    r = { file := content, fp_ := ⟨content.length, true, false, false⟩,
          current_offset_ := 0, total_value_size := 0 } := by
  have e : fopen (some content) "r" = some (content, ⟨0, true, false, false⟩) := by
    unfold fopen; rw [if_pos rfl]; rfl
  unfold LogFile.create at h
  rw [e] at h
  simp only [show ¬ ("r" = "w") by decide, if_false] at h
  rw [Stream.fseek_end _ _ 0 content.length (by simp)] at h
  exact (Option.some.inj h).symm

theorem body_take (K k v S : Bytes) (hK : K.length = 4) :
    (K ++ k ++ v ++ S).take 4 = K := by
  rw [List.append_assoc, List.append_assoc]
  exact List.take_left' hK

theorem body_key (K k v S : Bytes) (hK : K.length = 4) :
    ((K ++ k ++ v ++ S).drop 4).take k.length = k := by
  rw [List.append_assoc, List.append_assoc, List.drop_left' hK, List.take_left' rfl]

theorem body_val (K k v S : Bytes) (hK : K.length = 4) :
    ((K ++ k ++ v ++ S).drop (4 + k.length)).take v.length = v := by
  rw [List.append_assoc, List.drop_left' (by simp [hK]), List.take_left' rfl]

theorem body_size (K k v S : Bytes) (hK : K.length = 4) (hS : S.length = 4) :
    ((K ++ k ++ v ++ S).drop (4 + k.length + v.length)).take 4 = S := by
  rw [List.drop_left' (by simp [hK]; omega)]
  rw [← hS, List.take_length]

/-- One backward step over a record that sits right before the part of the file
already scanned. -/
theorem LogFile.previous_entry_step (r : LogFile) (pre suf k v : Bytes) (sz : Int)
    (hrd : r.fp_.rd = true)
    (hfile : r.file = pre ++ recordBytes k v sz ++ suf)
    (hoff : r.current_offset_ = suf.length)
    (hfit : k.length + v.length + 8 < 2147483648) (hsz : InInt32 sz) :
    r.previous_entry =
      some (⟨k, v, sz⟩,
            { r with fp_ := { r.fp_ with pos := pre.length + (k.length + v.length + 8) }
                     current_offset_ := (suf.length + (k.length + v.length + 12) : Nat)
                     total_value_size := r.total_value_size + v.length }) := by
  obtain ⟨file, ⟨p, rd, wr, app⟩, co, tv⟩ := r
  simp only at hrd hfile hoff
  subst hrd hfile hoff
  generalize hK : int32Bytes (k.length : Int) = K
  generalize hS : int32Bytes sz = S
  generalize hT : int32Bytes ((k.length : Int) + v.length + 8) = T
  have lK : K.length = 4 := by rw [← hK]; rfl
  have lS : S.length = 4 := by rw [← hS]; rfl
  have lT : T.length = 4 := by rw [← hT]; rfl
  have dK : bytesToInt32 K = some (k.length : Int) := by
    rw [← hK]; exact bytesToInt32_int32Bytes _ ⟨by omega, by omega⟩
  have dS : bytesToInt32 S = some sz := by rw [← hS]; exact bytesToInt32_int32Bytes _ hsz
  have dT : bytesToInt32 T = some ((k.length : Int) + v.length + 8) := by
    rw [← hT]; exact bytesToInt32_int32Bytes _ ⟨by omega, by omega⟩
  have hrec : pre ++ recordBytes k v sz ++ suf = (pre ++ (K ++ k ++ v ++ S)) ++ T ++ suf := by
    simp [recordBytes, hK, hS, hT]
  have hrec2 : pre ++ recordBytes k v sz ++ suf = pre ++ (K ++ k ++ v ++ S) ++ (T ++ suf) := by
    simp [recordBytes, hK, hS, hT]
  have lbody : (K ++ k ++ v ++ S).length = k.length + v.length + 8 := by
    simp [lK, lS]; omega
  have lfile : (pre ++ recordBytes k v sz ++ suf).length
      = pre.length + (k.length + v.length + 8) + 4 + suf.length := by
    rw [hrec]; simp only [List.length_append, lbody, lT, lK, lS]
  have s1 := Stream.fseek_end ⟨p, true, wr, app⟩ (pre ++ recordBytes k v sz ++ suf)
    (-((suf.length : Int) + 4)) (pre.length + (k.length + v.length + 8))
    (by rw [lfile]; push_cast; ring)
  have r1 := Stream.fread_mid ⟨pre.length + (k.length + v.length + 8), true, wr, app⟩
    (pre ++ (K ++ k ++ v ++ S)) T suf 4 rfl
    (by simp only [List.length_append, lbody]) lT.symm
  have s2 := Stream.fseek_end
    ⟨(pre ++ (K ++ k ++ v ++ S)).length + T.length, true, wr, app⟩
    (pre ++ recordBytes k v sz ++ suf)
    (-((suf.length : Int) + 4 + ((k.length : Int) + v.length + 8))) pre.length
    (by rw [lfile]; push_cast; ring)
  have r2 := Stream.fread_mid ⟨pre.length, true, wr, app⟩
    pre (K ++ k ++ v ++ S) (T ++ suf) (k.length + v.length + 8) rfl rfl lbody.symm
  rw [← hrec] at r1
  rw [← hrec2] at r2
  simp only at s1 r1 s2 r2
  have tn : ((k.length : Int) + v.length + 8).toNat = k.length + v.length + 8 := by omega
  unfold LogFile.previous_entry
  simp only [s1, r1, dT, s2, tn, r2, lbody, Nat.sub_self, List.replicate_zero,
    List.append_nil, body_take K k v S lK, dK]
  have hv : (k.length : Int) + v.length + 8 - 2 * 4 - k.length = v.length := by ring
  simp only [hv, Int.toNat_ofNat, body_key K k v S lK, body_val K k v S lK,
    body_size K k v S lK lS, dS]
  rw [if_neg (by omega), if_neg (by omega)]
  simp only [Option.some.injEq, Prod.mk.injEq, true_and, LogFile.mk.injEq, and_true,
    Stream.mk.injEq]
  push_cast
  omega

theorem recordsBytes_append (rs : List LogEntry) (x : LogEntry) :
    recordsBytes (rs ++ [x]) = recordsBytes rs ++ recordBytes x.key x.val x.size := by
  simp [recordsBytes]

theorem appendBytes_flatten_eq (rs : List LogEntry) (hfit : ∀ x ∈ rs, x.Fits) :
    (rs.map (fun r => appendBytes r.key r.val r.size)).flatten = recordsBytes rs := by
  unfold recordsBytes
  rw [List.map_congr_left (fun x hx => appendBytes_eq_recordBytes _ _ _ (hfit x hx).1)]

/-- Backward scan over the records that sit right before the part of the file
already scanned. -/
theorem LogFile.scanBack_records (rs : List LogEntry) :
    ∀ (r : LogFile) (pre suf : Bytes), r.fp_.rd = true →
      r.file = pre ++ recordsBytes rs ++ suf → r.current_offset_ = suf.length →
      (∀ x ∈ rs, x.Fits) →
      ∃ r', r.scanBack rs.length = some (rs.reverse, r') := by
  induction rs using List.reverseRecOn with
  | nil => intro r pre suf _ _ _ _; exact ⟨r, rfl⟩
  | append_singleton rs x ih =>
    intro r pre suf hrd hfile hoff hfit
    have hx : x.Fits := hfit x (by simp)
    have hfile2 : r.file = (pre ++ recordsBytes rs) ++ recordBytes x.key x.val x.size ++ suf := by
      rw [hfile, recordsBytes_append]; simp
    have hstep := LogFile.previous_entry_step r (pre ++ recordsBytes rs) suf x.key x.val x.size
      hrd hfile2 hoff hx.1 hx.2
    obtain ⟨r', hr'⟩ := ih _ pre (recordBytes x.key x.val x.size ++ suf)
      (show (LogFile.mk r.file { r.fp_ with
          pos := (pre ++ recordsBytes rs).length + (x.key.length + x.val.length + 8) }
          ((suf.length + (x.key.length + x.val.length + 12) : Nat) : Int)
          (r.total_value_size + x.val.length)).fp_.rd = true from hrd)
      (by simp only [hfile2, List.append_assoc])
      (by simp only [List.length_append, recordBytes_length]; push_cast; ring)
      (fun y hy => hfit y (by simp [hy]))
    refine ⟨r', ?_⟩
    rw [List.length_append, List.length_singleton, LogFile.scanBack, hstep]
    simp only [hr', List.reverse_append, List.reverse_singleton, List.singleton_append]

/-- C1: the records appended in order to a freshly created checkpoint log are
returned by successive `previous_entry` calls of a reader of that file in
reverse order, each with its key bytes, value bytes and table size (records
whose lengths and table size are representable in the `int` fields of the
format). -/
theorem C1_reverse_scan (existing : Option Bytes) (sid sid' : Int) (rs : List LogEntry)
    (w r : LogFile) (hfit : ∀ x ∈ rs, x.Fits)
    (hw : LogFile.create existing "w" sid = some w)
    (hr : LogFile.create (some (w.appendAll rs).file) "r" sid' = some r) :
    ∃ r', r.scanBack rs.length = some (rs.reverse, r') := by
  have ew := LogFile.log_create_w existing sid w hw
  have er := LogFile.log_create_r _ sid' r hr
  have hall := LogFile.appendAll_gen rs w (by rw [ew]) (Or.inl (by rw [ew]; rfl))
  rw [appendBytes_flatten_eq rs hfit] at hall
  apply LogFile.scanBack_records rs r w.file [] (by rw [er])
  · rw [er]; simp only [hall.1, List.append_nil]
  · rw [er]; rfl
  · exact hfit

/-- C1 witness: two records on a fresh log of shard 7. -/
theorem C1_reverse_scan_witness :
    ∃ r', (LogFile.mk [7, 0, 0, 0, 2, 0, 0, 0, 1, 2, 3, 5, 0, 0, 0, 11, 0, 0, 0,
                       0, 0, 0, 0, 9, 9, 255, 255, 255, 255, 10, 0, 0, 0]
             ⟨33, true, false, false⟩ 0 0).scanBack 2
      = some ([⟨[], [9, 9], -1⟩, ⟨[1, 2], [3], 5⟩], r') :=
  C1_reverse_scan none 7 0 [⟨[1, 2], [3], 5⟩, ⟨[], [9, 9], -1⟩]
    ⟨[7, 0, 0, 0], ⟨4, false, true, false⟩, 0, 0⟩
    ⟨[7, 0, 0, 0, 2, 0, 0, 0, 1, 2, 3, 5, 0, 0, 0, 11, 0, 0, 0,
      0, 0, 0, 0, 9, 9, 255, 255, 255, 255, 10, 0, 0, 0], ⟨33, true, false, false⟩, 0, 0⟩
    (by decide) (by decide) (by decide)

/-- C2 (amended): on a writable log positioned at end of file, `append` extends
the file by exactly `int32 key_len | key | value | int32 table_size | int32
total_len`, where `total_len` is `key_len + value_len + 8`: the length of the
record without the trailing `total_len` field itself, four less than the
number of bytes the append added (records whose length fits an `int`). -/
theorem C2_append_layout (f : LogFile) (key val : Bytes) (size : Int)
    (hwr : f.fp_.wr = true) (hend : f.fp_.pos = f.file.length ∨ f.fp_.app = true)
    (hfit : key.length + val.length + 8 < 2147483648) :
    (f.append key val size).file
        = f.file ++ (int32Bytes key.length ++ key ++ val ++ int32Bytes size
                      ++ int32Bytes ((key.length : Int) + val.length + 8)) ∧
    bytesToInt32 (int32Bytes ((key.length : Int) + val.length + 8))
        = some ((key.length : Int) + val.length + 8) ∧
    (f.append key val size).file.length
        = f.file.length + (key.length + val.length + 8) + 4 := by
  rw [LogFile.append_eq f key val size hwr hend hfit]
  refine ⟨rfl, bytesToInt32_int32Bytes _ ⟨by omega, by omega⟩, ?_⟩
  simp only [List.length_append, recordBytes_length]
  omega

/-- C2 witness: the record `([1, 2], [3], 5)` appended to a fresh log. -/
theorem C2_append_layout_witness :
    ((LogFile.mk [7, 0, 0, 0] ⟨4, false, true, false⟩ 0 0).append [1, 2] [3] 5).file
        = [7, 0, 0, 0] ++ (int32Bytes 2 ++ [1, 2] ++ [3] ++ int32Bytes 5 ++ int32Bytes 11) ∧
    bytesToInt32 (int32Bytes 11) = some 11 ∧
    ((LogFile.mk [7, 0, 0, 0] ⟨4, false, true, false⟩ 0 0).append [1, 2] [3] 5).file.length
        = 4 + 11 + 4 :=
  C2_append_layout ⟨[7, 0, 0, 0], ⟨4, false, true, false⟩, 0, 0⟩ [1, 2] [3] 5 rfl
    (Or.inl rfl) (by decide)

/-- C2 counterexample: appending `([1, 2], [3], 5)` to the fresh log of shard 7
adds 15 bytes, but the `total_len` field written is 11, not 15. -/
theorem C2_total_len_counterexample :
    LogFile.create none "w" 7 = some ⟨[7, 0, 0, 0], ⟨4, false, true, false⟩, 0, 0⟩ ∧
    ((LogFile.mk [7, 0, 0, 0] ⟨4, false, true, false⟩ 0 0).append [1, 2] [3] 5).file.length
        = 4 + 15 ∧
    ((LogFile.mk [7, 0, 0, 0] ⟨4, false, true, false⟩ 0 0).append [1, 2] [3] 5).file
        = [7, 0, 0, 0] ++ (int32Bytes 2 ++ [1, 2] ++ [3] ++ int32Bytes 5 ++ int32Bytes 11) ∧
    ¬ ((LogFile.mk [7, 0, 0, 0] ⟨4, false, true, false⟩ 0 0).append [1, 2] [3] 5).file
        = [7, 0, 0, 0] ++ (int32Bytes 2 ++ [1, 2] ++ [3] ++ int32Bytes 5 ++ int32Bytes 15) := by
  decide

theorem LogFile.read_latest_table_size_eq (r : LogFile) (pre T : Bytes) (sz : Int)
    (hrd : r.fp_.rd = true) (hfile : r.file = pre ++ int32Bytes sz ++ T)
    (hT : T.length = 4) (hsz : InInt32 sz) :
    r.read_latest_table_size
      = (some sz, { r with fp_ := { r.fp_ with pos := r.file.length } }) := by
  obtain ⟨file, ⟨p, rd, wr, app⟩, co, tv⟩ := r
  simp only at hrd hfile
  subst hrd hfile
  have lfile : (pre ++ int32Bytes sz ++ T).length = pre.length + 8 := by
    simp [hT, int32Bytes_length]
  have s1 := Stream.fseek_end ⟨p, true, wr, app⟩ (pre ++ int32Bytes sz ++ T) (-8) pre.length
    (by rw [lfile]; push_cast; ring)
  have r1 := Stream.fread_mid ⟨pre.length, true, wr, app⟩ pre (int32Bytes sz) T 4 rfl rfl rfl
  have s2 := Stream.fseek_end ⟨pre.length + (int32Bytes sz).length, true, wr, app⟩
    (pre ++ int32Bytes sz ++ T) 0 (pre ++ int32Bytes sz ++ T).length (by simp)
  simp only at s1 r1 s2
  unfold LogFile.read_latest_table_size
  simp only [s1, r1, s2, bytesToInt32_int32Bytes sz hsz]

theorem appendBytes_tail (key val : Bytes) (size : Int) :
    ∃ pre T, appendBytes key val size = pre ++ int32Bytes size ++ T ∧ T.length = 4 :=
  ⟨_, _, rfl, rfl⟩

/-- C3: after at least one append to a freshly created checkpoint log,
`read_latest_table_size` on a reader of the file returns the table size given
to the most recent append and leaves the stream at end of file. -/
theorem C3_latest_table_size (existing : Option Bytes) (sid sid' : Int)
    (rs : List LogEntry) (last : LogEntry) (w r : LogFile) (hsz : InInt32 last.size)
    (hw : LogFile.create existing "w" sid = some w)
    (hr : LogFile.create (some (w.appendAll (rs ++ [last])).file) "r" sid' = some r) :
    (r.read_latest_table_size).1 = some last.size ∧
    (r.read_latest_table_size).2.fp_.pos = (r.read_latest_table_size).2.file.length ∧
    (r.read_latest_table_size).2.file = (w.appendAll (rs ++ [last])).file := by
  have ew := LogFile.log_create_w existing sid w hw
  have er := LogFile.log_create_r _ sid' r hr
  have hall := LogFile.appendAll_gen (rs ++ [last]) w (by rw [ew]) (Or.inl (by rw [ew]; rfl))
  obtain ⟨pre, T, hpre, hT⟩ := appendBytes_tail last.key last.val last.size
  have hfile : r.file
      = (w.file ++ (rs.map (fun r => appendBytes r.key r.val r.size)).flatten ++ pre)
          ++ int32Bytes last.size ++ T := by
    rw [er]
    simp only [hall.1, List.map_append, List.flatten_append, List.map_cons, List.map_nil,
      List.flatten_cons, List.flatten_nil, List.append_nil, hpre, List.append_assoc]
  have h := LogFile.read_latest_table_size_eq r _ T last.size (by rw [er]) hfile hT hsz
  rw [h]
  refine ⟨rfl, rfl, ?_⟩
  rw [er]

/-- C3 witness: sizes 5 and -1 appended in order; the reader reports -1. -/
theorem C3_latest_table_size_witness :
    ((LogFile.mk [7, 0, 0, 0, 2, 0, 0, 0, 1, 2, 3, 5, 0, 0, 0, 11, 0, 0, 0,
                  0, 0, 0, 0, 9, 9, 255, 255, 255, 255, 10, 0, 0, 0]
        ⟨33, true, false, false⟩ 0 0).read_latest_table_size).1 = some (-1) :=
  (C3_latest_table_size none 7 0 [⟨[1, 2], [3], 5⟩] ⟨[], [9, 9], -1⟩
    ⟨[7, 0, 0, 0], ⟨4, false, true, false⟩, 0, 0⟩
    ⟨[7, 0, 0, 0, 2, 0, 0, 0, 1, 2, 3, 5, 0, 0, 0, 11, 0, 0, 0,
      0, 0, 0, 0, 9, 9, 255, 255, 255, 255, 10, 0, 0, 0], ⟨33, true, false, false⟩, 0, 0⟩
    (by decide) (by decide) (by decide)).1

/-! ## Record file -/

@[simp] theorem FileSystem.set_same (fs : FileSystem) (n : String) (c : Option Bytes) :
    (fs.set n c) n = c := by
  simp [FileSystem.set]

theorem FileSystem.set_other (fs : FileSystem) (n m : String) (c : Option Bytes)
    (h : m ≠ n) : (fs.set n c) m = fs m := by
  simp [FileSystem.set, h]

@[simp] theorem FileSystem.set_set (fs : FileSystem) (n : String) (c d : Option Bytes) :
    (fs.set n c).set n d = fs.set n d := by
  funext m
  by_cases h : m = n <;> simp [FileSystem.set, h]

theorem FileSystem.set_self (fs : FileSystem) (n : String) (c : Option Bytes)
    (h : fs n = c) : fs.set n c = fs := by
  funext m
  by_cases hm : m = n
  · subst hm; simp [FileSystem.set, h]
  · simp [FileSystem.set, hm]

theorem chunkBytes_length (c : Bytes) : (chunkBytes c).length = 4 + c.length := by
  simp [chunkBytes, int32Bytes_length]

theorem chunksBytes_cons (c : Bytes) (cs : List Bytes) :
    chunksBytes (c :: cs) = chunkBytes c ++ chunksBytes cs := by
  simp [chunksBytes]

theorem chunksBytes_append (cs ds : List Bytes) :
    chunksBytes (cs ++ ds) = chunksBytes cs ++ chunksBytes ds := by
  simp [chunksBytes]

theorem LocalFile.write_end (fs : FileSystem) (lf : LocalFile) (d bs : Bytes)
    (hwr : lf.s.wr = true) (hfs : fs lf.path = some d)
    (hend : lf.s.pos = d.length ∨ lf.s.app = true) :
    lf.write fs bs = (fs.set lf.path (some (d ++ bs)),
                      { lf with s := { lf.s with pos := d.length + bs.length } }) := by
  unfold LocalFile.write
  rw [if_pos hwr, hfs, Option.getD_some, Stream.fwrite_end _ _ _ hwr hend]

theorem RecordFile.writeChunk_end (fs : FileSystem) (rf : RecordFile) (lf : LocalFile)
    (d c : Bytes) (hfp : rf.fp = some lf)
    (hwr : lf.s.wr = true) (hfs : fs lf.path = some d)
    (hend : lf.s.pos = d.length ∨ lf.s.app = true) :
    rf.writeChunk fs c = some (fs.set lf.path (some (d ++ chunkBytes c)),
      { rf with fp := some { lf with s := { lf.s with
                               pos := d.length + (chunkBytes c).length } } }) := by
  have e1 := LocalFile.write_end fs lf d (int32Bytes (toInt32 c.length)) hwr hfs hend
  have e2 := LocalFile.write_end (fs.set lf.path (some (d ++ int32Bytes (toInt32 c.length))))
    { lf with s := { lf.s with pos := d.length + (int32Bytes (toInt32 c.length)).length } }
    (d ++ int32Bytes (toInt32 c.length)) c hwr (by simp)
    (Or.inl (by simp only [List.length_append]))
  simp only at e2
  unfold RecordFile.writeChunk
  rw [hfp]
  simp only [e1, e2, FileSystem.set_set, chunkBytes, List.append_assoc, List.length_append,
    Nat.add_assoc]

/-- Chunks written in order to a writable staging file positioned at its end. -/
theorem RecordFile.writeChunks_end (cs : List Bytes) :
    ∀ (fs : FileSystem) (rf : RecordFile) (lf : LocalFile) (d : Bytes),
      rf.fp = some lf → lf.s.wr = true → fs lf.path = some d →
      (lf.s.pos = d.length ∨ lf.s.app = true) →
      ∃ p, rf.writeChunks fs cs = some (fs.set lf.path (some (d ++ chunksBytes cs)),
        { rf with fp := some { lf with s := { lf.s with pos := p } } }) := by
  induction cs with
  | nil =>
    intro fs rf lf d hfp hwr hfs hend
    refine ⟨lf.s.pos, ?_⟩
    simp only [RecordFile.writeChunks, chunksBytes, List.map_nil, List.flatten_nil,
      List.append_nil]
    rw [FileSystem.set_self fs _ _ hfs]
    congr 2
    obtain ⟨a, b, c2, d2⟩ := rf
    simp only at hfp
    subst hfp
    rfl
  | cons c cs ih =>
    intro fs rf lf d hfp hwr hfs hend
    have e := RecordFile.writeChunk_end fs rf lf d c hfp hwr hfs hend
    obtain ⟨p, hp⟩ := ih (fs.set lf.path (some (d ++ chunkBytes c)))
      { rf with fp := some { lf with s := { lf.s with
                               pos := d.length + (chunkBytes c).length } } }
      { lf with s := { lf.s with pos := d.length + (chunkBytes c).length } }
      (d ++ chunkBytes c) rfl hwr (by simp) (Or.inl (by simp only [List.length_append]))
    refine ⟨p, ?_⟩
    simp only [RecordFile.writeChunks, e, hp, FileSystem.set_set, chunksBytes_cons,
      List.append_assoc]

theorem LocalFile.read_mid (fs : FileSystem) (lf : LocalFile) (a b c : Bytes) (n : Nat)
    (hrd : lf.s.rd = true) (hfs : fs lf.path = some (a ++ b ++ c))
    (hpos : lf.s.pos = a.length) (hn : n = b.length) :
    lf.read fs n = (b, { lf with s := { lf.s with pos := a.length + b.length } }) := by
  unfold LocalFile.read
  rw [hfs, Option.getD_some, Stream.fread_mid _ a b c n hrd hpos hn]

theorem LocalFile.read_eof (fs : FileSystem) (lf : LocalFile) (a : Bytes) (n : Nat)
    (hfs : fs lf.path = some a) (hpos : lf.s.pos = a.length) :
    lf.read fs n = ([], lf) := by
  obtain ⟨path, ⟨p, rd, wr, app⟩⟩ := lf
  simp only at hfs hpos
  subst hpos
  unfold LocalFile.read Stream.fread
  simp only [hfs, Option.getD_some]
  cases rd <;> simp

/-- A read of the chunk that starts at the reader's position. -/
theorem RecordFile.readChunk_at (fs : FileSystem) (rf : RecordFile) (lf : LocalFile)
    (a c b : Bytes) (hfp : rf.fp = some lf) (hrd : lf.s.rd = true)
    (hfs : fs lf.path = some (a ++ chunkBytes c ++ b)) (hpos : lf.s.pos = a.length)
    (hfit : c.length < 2147483648) :
    rf.readChunk fs = some (true, c,
      { rf with fp := some { lf with s := { lf.s with
                               pos := a.length + (chunkBytes c).length } } }) := by
  have hl : toInt32 (c.length : Int) = c.length := toInt32_natCast _ hfit
  have hfs1 : fs lf.path = some (a ++ int32Bytes (c.length : Int) ++ (c ++ b)) := by
    rw [hfs]; simp [chunkBytes, hl]
  have hfs2 : fs lf.path = some ((a ++ int32Bytes (c.length : Int)) ++ c ++ b) := by
    rw [hfs]; simp [chunkBytes, hl]
  have e1 := LocalFile.read_mid fs lf a (int32Bytes (c.length : Int)) (c ++ b) 4 hrd hfs1 hpos rfl
  have e2 := LocalFile.read_mid fs
    { lf with s := { lf.s with pos := a.length + (int32Bytes (c.length : Int)).length } }
    (a ++ int32Bytes (c.length : Int)) c b c.length hrd hfs2
    (by simp only [List.length_append]) rfl
  simp only at e2
  unfold RecordFile.readChunk
  rw [hfp]
  simp only [e1, bytesToInt32_int32Bytes (c.length : Int) ⟨by omega, by omega⟩,
    Int.toNat_ofNat, e2, Nat.sub_self, List.replicate_zero, List.append_nil]
  rw [if_neg (by omega)]
  simp only [chunkBytes, hl, List.length_append, int32Bytes_length, Nat.add_assoc]

/-- A read at end of file. -/
theorem RecordFile.readChunk_eof (fs : FileSystem) (rf : RecordFile) (lf : LocalFile)
    (a : Bytes) (hfp : rf.fp = some lf)
    (hfs : fs lf.path = some a) (hpos : lf.s.pos = a.length) :
    rf.readChunk fs = some (false, [], rf) := by
  unfold RecordFile.readChunk
  rw [hfp]
  simp only [LocalFile.read_eof fs lf a 4 hfs hpos, bytesToInt32]
  obtain ⟨a, b, c2, d2⟩ := rf
  simp only at hfp
  subst hfp
  rfl

/-- Reading back every chunk of a file, then hitting end of file. -/
theorem RecordFile.readChunks_all (fs : FileSystem) (cs : List Bytes) :
    ∀ (rf : RecordFile) (lf : LocalFile) (a : Bytes),
      rf.fp = some lf → lf.s.rd = true → fs lf.path = some (a ++ chunksBytes cs) →
      lf.s.pos = a.length → (∀ c ∈ cs, c.length < 2147483648) →
      ∃ rf', rf.readChunks fs (cs.length + 1)
        = some (cs.map (fun c => (true, c)) ++ [(false, [])], rf') := by
  induction cs with
  | nil =>
    intro rf lf a hfp _ hfs hpos _
    refine ⟨rf, ?_⟩
    have e := RecordFile.readChunk_eof fs rf lf a hfp
      (by rw [hfs]; simp [chunksBytes]) hpos
    simp [RecordFile.readChunks, e]
  | cons c cs ih =>
    intro rf lf a hfp hrd hfs hpos hfit
    have e := RecordFile.readChunk_at fs rf lf a c (chunksBytes cs) hfp hrd
      (by rw [hfs, chunksBytes_cons, List.append_assoc]) hpos (hfit c (by simp))
    obtain ⟨rf', h'⟩ := ih
      { rf with fp := some { lf with s := { lf.s with
                               pos := a.length + (chunkBytes c).length } } }
      { lf with s := { lf.s with pos := a.length + (chunkBytes c).length } }
      (a ++ chunkBytes c) rfl hrd
      (by rw [hfs, chunksBytes_cons, List.append_assoc])
      (by simp only [List.length_append]) (fun x hx => hfit x (by simp [hx]))
    refine ⟨rf', ?_⟩
    rw [List.length_cons, RecordFile.readChunks, e]
    simp only [h', List.map_cons, List.cons_append]

theorem tmp_ne (P : String) : P ++ ".tmp" ≠ P := by
  intro h
  have := congrArg String.length h
  simp [String.length_append] at this
  revert this
  decide

theorem RecordFile.rec_create_w (fs : FileSystem) (P : String) (compression : Int)
    (hc : compression ≠ LZO) :
    RecordFile.create fs P "w" compression
      = some (fs.set (P ++ ".tmp") (some []),
              ⟨P, "w", some ⟨P ++ ".tmp", ⟨0, false, true, false⟩⟩, []⟩) := by
  have e : fopen (fs (P ++ ".tmp")) "w" = some ([], ⟨0, false, true, false⟩) := by
    unfold fopen; rw [if_neg (by decide), if_pos rfl]
  unfold RecordFile.create LocalFile.create
  rw [if_neg (by decide)]
  simp only [e, if_neg hc]

theorem RecordFile.rec_create_a (fs : FileSystem) (P : String) (compression : Int)
    (hc : compression ≠ LZO) :
    RecordFile.create fs P "a" compression
      = some (fs.set (P ++ ".tmp") (some ((fs (P ++ ".tmp")).getD [])),
              ⟨P, "a", some ⟨P ++ ".tmp", ⟨0, false, true, true⟩⟩, []⟩) := by
  have e : fopen (fs (P ++ ".tmp")) "a"
      = some ((fs (P ++ ".tmp")).getD [], ⟨0, false, true, true⟩) := by
    unfold fopen; rw [if_neg (by decide), if_neg (by decide), if_pos rfl]
  unfold RecordFile.create LocalFile.create
  rw [if_neg (by decide)]
  simp only [e, if_neg hc]

theorem RecordFile.rec_create_r (fs : FileSystem) (P : String) (compression : Int)
    (fs1 : FileSystem) (rf : RecordFile)
    (h : RecordFile.create fs P "r" compression = some (fs1, rf)) :
    ∃ d, fs P = some d ∧ fs1 = fs ∧
      rf = ⟨P, "r", if compression = LZO then none
                    else some ⟨P, ⟨0, true, false, false⟩⟩, []⟩ := by
  unfold RecordFile.create LocalFile.create fopen at h
  simp only [if_true] at h
  cases hd : fs P with
  | none => rw [hd] at h; simp at h
  | some d =>
    rw [hd] at h
    simp only [Option.map_some', Option.some.injEq, Prod.mk.injEq] at h
    refine ⟨d, rfl, ?_, h.2.symm⟩
    rw [← h.1, ← hd]
    exact FileSystem.set_self fs P _ rfl

/-- C4: chunks written in order with `writeChunk` (each shorter than 2^31
bytes, as every serialised message is) and read back from the start of the
resulting file with `readChunk` come back in order, each read returning true,
and the read after the last returns false. -/
theorem C4_chunk_roundtrip (fs : FileSystem) (P : String) (cs : List Bytes)
    (hfit : ∀ c ∈ cs, c.length < 2147483648) :
    ∃ fs1 wf fs2 wf2 fs3 fs4 rf rf',
      RecordFile.create fs P "w" 0 = some (fs1, wf) ∧
      wf.writeChunks fs1 cs = some (fs2, wf2) ∧
      wf2.close fs2 = some fs3 ∧
      RecordFile.create fs3 P "r" 0 = some (fs4, rf) ∧
      rf.readChunks fs4 (cs.length + 1)
        = some (cs.map (fun c => (true, c)) ++ [(false, [])], rf') := by
  have hc : (0 : Int) ≠ LZO := by decide
  have e1 := RecordFile.rec_create_w fs P 0 hc
  obtain ⟨p, e2⟩ := RecordFile.writeChunks_end cs (fs.set (P ++ ".tmp") (some []))
    ⟨P, "w", some ⟨P ++ ".tmp", ⟨0, false, true, false⟩⟩, []⟩
    ⟨P ++ ".tmp", ⟨0, false, true, false⟩⟩ [] rfl rfl (by simp) (Or.inl rfl)
  simp only [FileSystem.set_set, List.nil_append] at e2
  have e3 : RecordFile.close (fs.set (P ++ ".tmp") (some (chunksBytes cs)))
      ⟨P, "w", some ⟨P ++ ".tmp", ⟨p, false, true, false⟩⟩, []⟩
      = some (((fs.set (P ++ ".tmp") (some (chunksBytes cs))).set (P ++ ".tmp") none).set P
          (some (chunksBytes cs))) := by
    unfold RecordFile.close File.Move
    simp only [ne_eq, show ¬ ("w" = "r") by decide, not_false_eq_true, if_true,
      FileSystem.set_same]
  have e4 : RecordFile.create
      (((fs.set (P ++ ".tmp") (some (chunksBytes cs))).set (P ++ ".tmp") none).set P
          (some (chunksBytes cs))) P "r" 0
      = some ((((fs.set (P ++ ".tmp") (some (chunksBytes cs))).set (P ++ ".tmp") none).set P
          (some (chunksBytes cs))), ⟨P, "r", some ⟨P, ⟨0, true, false, false⟩⟩, []⟩) := by
    unfold RecordFile.create LocalFile.create fopen
    simp only [if_true, FileSystem.set_same, Option.map_some', if_neg hc,
      FileSystem.set_set]
  obtain ⟨rf', e5⟩ := RecordFile.readChunks_all
    (((fs.set (P ++ ".tmp") (some (chunksBytes cs))).set (P ++ ".tmp") none).set P
          (some (chunksBytes cs))) cs
    ⟨P, "r", some ⟨P, ⟨0, true, false, false⟩⟩, []⟩ ⟨P, ⟨0, true, false, false⟩⟩ [] rfl rfl
    (by simp) rfl hfit
  exact ⟨_, _, _, _, _, _, _, rf', e1, e2, e3, e4, e5⟩

/-- C4 witness: the chunks `[1, 2]`, `[]`, `[3]` written to `x` and read back. -/
theorem C4_chunk_roundtrip_witness :
    ∃ fs1 wf fs2 wf2 fs3 fs4 rf rf',
      RecordFile.create emptyFs "x" "w" 0 = some (fs1, wf) ∧
      wf.writeChunks fs1 [[1, 2], [], [3]] = some (fs2, wf2) ∧
      wf2.close fs2 = some fs3 ∧
      RecordFile.create fs3 "x" "r" 0 = some (fs4, rf) ∧
      rf.readChunks fs4 4
        = some ([(true, [1, 2]), (true, []), (true, [3]), (false, [])], rf') :=
  C4_chunk_roundtrip emptyFs "x" [[1, 2], [], [3]] (by decide)

theorem RecordFile.close_staged (fs : FileSystem) (rf : RecordFile) (lf : LocalFile)
    (d : Bytes) (hfp : rf.fp = some lf) (hmode : rf.mode_ ≠ "r")
    (hfs : fs (rf.path_ ++ ".tmp") = some d) :
    rf.close fs = some ((fs.set (rf.path_ ++ ".tmp") none).set rf.path_ (some d)) := by
  unfold RecordFile.close File.Move
  rw [hfp]
  simp only [hmode, ne_eq, not_false_eq_true, if_true, hfs]

theorem RecordFile.readOnly_writeChunk (fs fs' : FileSystem) (rf rf' : RecordFile) (d : Bytes)
    (hro : rf.ReadOnly) (h : rf.writeChunk fs d = some (fs', rf')) :
    fs' = fs ∧ rf'.ReadOnly := by
  unfold RecordFile.writeChunk at h
  cases hfp : rf.fp with
  | none => rw [hfp] at h; simp at h
  | some lf =>
    rw [hfp] at h
    have hwr := hro.2 lf hfp
    simp only [LocalFile.write, hwr, Bool.false_eq_true, if_false, Option.some.injEq,
      Prod.mk.injEq] at h
    refine ⟨h.1.symm, ?_⟩
    rw [← h.2]
    exact ⟨hro.1, fun lf' hlf' => by simp only [Option.some.injEq] at hlf'; rw [← hlf']; exact hwr⟩

theorem RecordFile.readOnly_close (fs : FileSystem) (rf : RecordFile) (hro : rf.ReadOnly) :
    rf.close fs = some fs := by
  unfold RecordFile.close
  cases rf.fp with
  | none => rfl
  | some lf => simp [hro.1]

theorem Stream.fread_wr (s : Stream) (d : Bytes) (n : Nat) :
    (s.fread d n).2.wr = s.wr := by
  unfold Stream.fread
  split <;> rfl

theorem LocalFile.read_wr (fs : FileSystem) (lf : LocalFile) (n : Nat) :
    (lf.read fs n).2.s.wr = lf.s.wr := by
  unfold LocalFile.read
  exact Stream.fread_wr _ _ _

theorem RecordFile.readOnly_readChunk (fs : FileSystem) (rf rf' : RecordFile) (ok : Bool)
    (b : Bytes) (hro : rf.ReadOnly) (h : rf.readChunk fs = some (ok, b, rf')) :
    rf'.ReadOnly := by
  unfold RecordFile.readChunk at h
  cases hfp : rf.fp with
  | none => rw [hfp] at h; simp at h
  | some lf =>
    rw [hfp] at h
    have hwr := hro.2 lf hfp
    have hwr1 : (lf.read fs 4).2.s.wr = false := by rw [LocalFile.read_wr]; exact hwr
    simp only at h
    split at h
    · simp only [Option.some.injEq, Prod.mk.injEq] at h
      rw [← h.2.2]
      exact ⟨hro.1, fun lf' hlf' => by
        simp only [Option.some.injEq] at hlf'; rw [← hlf']; exact hwr1⟩
    · split at h
      · simp at h
      · simp only [Option.some.injEq, Prod.mk.injEq] at h
        rw [← h.2.2]
        refine ⟨hro.1, fun lf' hlf' => ?_⟩
        simp only [Option.some.injEq] at hlf'
        rw [← hlf', LocalFile.read_wr]
        exact hwr1

theorem RecordFile.readOnly_readChunks (fs : FileSystem) (n : Nat) :
    ∀ (rf rf' : RecordFile) (rs : List (Bool × Bytes)), rf.ReadOnly →
      rf.readChunks fs n = some (rs, rf') → rf'.ReadOnly := by
  induction n with
  | zero =>
    intro rf rf' rs hro h
    simp only [RecordFile.readChunks, Option.some.injEq, Prod.mk.injEq] at h
    rw [← h.2]; exact hro
  | succ n ih =>
    intro rf rf' rs hro h
    unfold RecordFile.readChunks at h
    cases h1 : rf.readChunk fs with
    | none => rw [h1] at h; simp at h
    | some r =>
      obtain ⟨ok, b, rf1⟩ := r
      rw [h1] at h
      simp only at h
      cases h2 : RecordFile.readChunks fs n rf1 with
      | none => rw [h2] at h; simp at h
      | some q =>
        obtain ⟨rs2, rf2⟩ := q
        rw [h2] at h
        simp only [Option.some.injEq, Prod.mk.injEq] at h
        rw [← h.2]
        exact ih rf1 rf2 rs2 (RecordFile.readOnly_readChunk fs rf rf1 ok b hro h1) h2

/-- A writer on a staging file that holds `d0` when opened: no write touches a
file other than the staging file, and closing publishes `d0` followed by the
chunks. -/
theorem RecordFile.staging (fs : FileSystem) (P mode : String) (app : Bool) (d0 : Bytes)
    (cs : List Bytes) (hmode : mode ≠ "r") (hd0 : d0 = [] ∨ app = true) :
    (∀ k, k ≤ cs.length → ∃ fsk wfk,
        RecordFile.writeChunks (fs.set (P ++ ".tmp") (some d0))
          ⟨P, mode, some ⟨P ++ ".tmp", ⟨0, false, true, app⟩⟩, []⟩ (cs.take k)
          = some (fsk, wfk) ∧
        fsk P = fs P ∧ ∀ n, n ≠ P ++ ".tmp" → fsk n = fs n) ∧
    ∃ fs2 wf2 fs3,
      RecordFile.writeChunks (fs.set (P ++ ".tmp") (some d0))
        ⟨P, mode, some ⟨P ++ ".tmp", ⟨0, false, true, app⟩⟩, []⟩ cs = some (fs2, wf2) ∧
      wf2.close fs2 = some fs3 ∧ fs3 P = some (d0 ++ chunksBytes cs) ∧
      fs3 (P ++ ".tmp") = none ∧ ∀ n, n ≠ P → n ≠ P ++ ".tmp" → fs3 n = fs n := by
  have key : ∀ ds : List Bytes, ∃ p,
      RecordFile.writeChunks (fs.set (P ++ ".tmp") (some d0))
        ⟨P, mode, some ⟨P ++ ".tmp", ⟨0, false, true, app⟩⟩, []⟩ ds
        = some (fs.set (P ++ ".tmp") (some (d0 ++ chunksBytes ds)),
                ⟨P, mode, some ⟨P ++ ".tmp", ⟨p, false, true, app⟩⟩, []⟩) := by
    intro ds
    obtain ⟨p, e⟩ := RecordFile.writeChunks_end ds (fs.set (P ++ ".tmp") (some d0))
      ⟨P, mode, some ⟨P ++ ".tmp", ⟨0, false, true, app⟩⟩, []⟩
      ⟨P ++ ".tmp", ⟨0, false, true, app⟩⟩ d0 rfl rfl (by simp)
      (by rcases hd0 with h | h
          · left; rw [h]; rfl
          · right; exact h)
    simp only [FileSystem.set_set] at e
    exact ⟨p, e⟩
  constructor
  · intro k _
    obtain ⟨p, e⟩ := key (cs.take k)
    refine ⟨_, _, e, ?_, ?_⟩
    · exact FileSystem.set_other _ _ _ _ (tmp_ne P).symm
    · intro n hn
      exact FileSystem.set_other _ _ _ _ hn
  · obtain ⟨p, e⟩ := key cs
    have ec := RecordFile.close_staged (fs.set (P ++ ".tmp") (some (d0 ++ chunksBytes cs)))
      ⟨P, mode, some ⟨P ++ ".tmp", ⟨p, false, true, app⟩⟩, []⟩ _ (d0 ++ chunksBytes cs)
      rfl hmode (by simp)
    refine ⟨_, _, _, e, ec, by simp, ?_, ?_⟩
    · simp only
      rw [FileSystem.set_other _ _ _ _ (tmp_ne P)]
      simp
    · intro n hn1 hn2
      simp only
      rw [FileSystem.set_other _ _ _ _ hn1, FileSystem.set_other _ _ _ _ hn2,
        FileSystem.set_other _ _ _ _ hn2]

/-- C9 (amended): a `RecordFile` opened without compression on path `P` in mode
`"w"` or `"a"` writes only to `P.tmp`: after every write `P` and every file
other than `P.tmp` are as before; when it is closed `P` holds what `P.tmp` held
once opened (nothing in mode `"w"`, its previous content in mode `"a"`)
followed by exactly the chunks written, in order, `P.tmp` no longer exists and
no other file changed; so `P` holds exactly the chunks in mode `"w"` or when
`P.tmp` did not exist. A `RecordFile` opened in mode `"r"` leaves the file
system unchanged when opened, on `writeChunk` after any number of reads, and
when closed. -/
theorem C9_staging_frame (fs : FileSystem) (P mode : String) (compression : Int)
    (cs : List Bytes) (hc : compression ≠ LZO) (hmode : mode = "w" ∨ mode = "a") :
    (∃ fs1 wf, RecordFile.create fs P mode compression = some (fs1, wf) ∧
      fs1 P = fs P ∧
      (∀ k, k ≤ cs.length → ∃ fsk wfk, wf.writeChunks fs1 (cs.take k) = some (fsk, wfk) ∧
        fsk P = fs P ∧ ∀ n, n ≠ P ++ ".tmp" → fsk n = fs n) ∧
      ∃ fs2 wf2 fs3, wf.writeChunks fs1 cs = some (fs2, wf2) ∧
        wf2.close fs2 = some fs3 ∧
        fs3 P = some ((if mode = "w" then [] else (fs (P ++ ".tmp")).getD [])
                        ++ chunksBytes cs) ∧
        (mode = "w" ∨ fs (P ++ ".tmp") = none → fs3 P = some (chunksBytes cs)) ∧
        fs3 (P ++ ".tmp") = none ∧ ∀ n, n ≠ P → n ≠ P ++ ".tmp" → fs3 n = fs n) ∧
    (∀ (fsr : FileSystem) (rf : RecordFile),
      RecordFile.create fs P "r" compression = some (fsr, rf) →
      fsr = fs ∧
      ∀ (n : Nat) (rs : List (Bool × Bytes)) (rf' : RecordFile),
        rf.readChunks fs n = some (rs, rf') →
        rf'.close fs = some fs ∧
        ∀ (d : Bytes) (fs' : FileSystem) (rf'' : RecordFile),
          rf'.writeChunk fs d = some (fs', rf'') → fs' = fs ∧ rf''.close fs' = some fs) := by
  constructor
  · rcases hmode with h | h
    · subst h
      obtain ⟨h1, fs2, wf2, fs3, h2, h3, h4, h5, h6⟩ :=
        RecordFile.staging fs P "w" false [] cs (by decide) (Or.inl rfl)
      refine ⟨_, _, RecordFile.rec_create_w fs P compression hc,
        FileSystem.set_other _ _ _ _ (tmp_ne P).symm, h1, fs2, wf2, fs3, h2, h3, ?_, ?_,
        h5, h6⟩
      · rw [h4]; rfl
      · intro _; rw [h4]; rfl
    · subst h
      obtain ⟨h1, fs2, wf2, fs3, h2, h3, h4, h5, h6⟩ :=
        RecordFile.staging fs P "a" true ((fs (P ++ ".tmp")).getD []) cs (by decide)
          (Or.inr rfl)
      refine ⟨_, _, RecordFile.rec_create_a fs P compression hc,
        FileSystem.set_other _ _ _ _ (tmp_ne P).symm, h1, fs2, wf2, fs3, h2, h3, ?_, ?_,
        h5, h6⟩
      · rw [h4, if_neg (by decide)]
      · intro hh
        rcases hh with hh | hh
        · exact absurd hh (by decide)
        · rw [h4, hh]; rfl
  · intro fsr rf hcreate
    obtain ⟨d, _, hfsr, hrf⟩ := RecordFile.rec_create_r fs P compression fsr rf hcreate
    have hro : rf.ReadOnly := by
      rw [hrf]
      refine ⟨rfl, fun lf hlf => ?_⟩
      simp only at hlf
      split at hlf
      · simp at hlf
      · simp only [Option.some.injEq] at hlf
        rw [← hlf]
    refine ⟨hfsr, fun n rs rf' hread => ?_⟩
    have hro' := RecordFile.readOnly_readChunks fs n rf rf' rs hro hread
    refine ⟨RecordFile.readOnly_close fs rf' hro', fun d fs' rf'' hw => ?_⟩
    obtain ⟨e, hro''⟩ := RecordFile.readOnly_writeChunk fs fs' rf' rf'' d hro' hw
    exact ⟨e, by rw [e]; exact RecordFile.readOnly_close fs rf'' hro''⟩

/-- C9 witness: two chunks written to `x` in mode `"w"` while a file `x` exists,
which can also be opened for reading. -/
theorem C9_staging_frame_witness :
    ((∃ fs1 wf, RecordFile.create dataFs "x" "w" 0 = some (fs1, wf) ∧
      fs1 "x" = dataFs "x" ∧
      (∀ k, k ≤ [[1, 2], ([] : Bytes)].length → ∃ fsk wfk,
        wf.writeChunks fs1 ([[1, 2], ([] : Bytes)].take k) = some (fsk, wfk) ∧
        fsk "x" = dataFs "x" ∧ ∀ n, n ≠ "x" ++ ".tmp" → fsk n = dataFs n) ∧
      ∃ fs2 wf2 fs3, wf.writeChunks fs1 [[1, 2], ([] : Bytes)] = some (fs2, wf2) ∧
        wf2.close fs2 = some fs3 ∧
        fs3 "x" = some ((if "w" = "w" then [] else (dataFs ("x" ++ ".tmp")).getD [])
                          ++ chunksBytes [[1, 2], ([] : Bytes)]) ∧
        ("w" = "w" ∨ dataFs ("x" ++ ".tmp") = none →
          fs3 "x" = some (chunksBytes [[1, 2], ([] : Bytes)])) ∧
        fs3 ("x" ++ ".tmp") = none ∧ ∀ n, n ≠ "x" → n ≠ "x" ++ ".tmp" → fs3 n = dataFs n) ∧
    (∀ (fsr : FileSystem) (rf : RecordFile),
      RecordFile.create dataFs "x" "r" 0 = some (fsr, rf) →
      fsr = dataFs ∧
      ∀ (n : Nat) (rs : List (Bool × Bytes)) (rf' : RecordFile),
        rf.readChunks dataFs n = some (rs, rf') →
        rf'.close dataFs = some dataFs ∧
        ∀ (d : Bytes) (fs' : FileSystem) (rf'' : RecordFile),
          rf'.writeChunk dataFs d = some (fs', rf'') →
          fs' = dataFs ∧ rf''.close fs' = some dataFs)) ∧
    (∃ fsr rf rf', RecordFile.create dataFs "x" "r" 0 = some (fsr, rf) ∧
      rf.readChunks dataFs 1 = some ([(true, [7])], rf') ∧
      rf'.writeChunk dataFs [5] = some (dataFs, rf')) :=
  ⟨C9_staging_frame dataFs "x" "w" 0 [[1, 2], []] (by decide) (Or.inl rfl),
   _, _, _, rfl, rfl, rfl⟩

/-- C9 counterexample: with a stale `x.tmp` holding the byte 9, a `RecordFile`
opened on `x` in the non-read mode `"a"` that writes the chunk `[1]` and is
closed leaves `x` holding the stale byte followed by the chunk, not exactly
the chunk written. -/
theorem C9_stale_staging_counterexample :
    ∃ fs1 wf fs2 wf2 fs3,
      RecordFile.create staleFs "x" "a" 0 = some (fs1, wf) ∧
      wf.writeChunks fs1 [[1]] = some (fs2, wf2) ∧
      wf2.close fs2 = some fs3 ∧
      fs3 "x" = some ([9] ++ chunksBytes [[1]]) ∧
      fs3 "x" ≠ some (chunksBytes [[1]]) :=
  ⟨_, _, _, _, _, rfl, rfl, rfl, by decide, by decide⟩

theorem RecordFile.read_null_at (fs : FileSystem) (rf : RecordFile) (lf : LocalFile)
    (a c b : Bytes) (hfp : rf.fp = some lf) (hrd : lf.s.rd = true)
    (hfs : fs lf.path = some (a ++ chunkBytes c ++ b)) (hpos : lf.s.pos = a.length)
    (hfit : c.length < 2147483648) :
    rf.read fs (none : Option (Bytes → Option Unit)) = some (true, none,
      { rf with fp := some { lf with s := { lf.s with
                               pos := a.length + (chunkBytes c).length } }
                buf_ := c }) := by
  unfold RecordFile.read
  rw [RecordFile.readChunk_at fs rf lf a c b hfp hrd hfs hpos hfit]

theorem RecordFile.read_null_eof (fs : FileSystem) (rf : RecordFile) (lf : LocalFile)
    (a : Bytes) (hfp : rf.fp = some lf)
    (hfs : fs lf.path = some a) (hpos : lf.s.pos = a.length) :
    rf.read fs (none : Option (Bytes → Option Unit))
      = some (false, none, { rf with buf_ := [] }) := by
  unfold RecordFile.read
  rw [RecordFile.readChunk_eof fs rf lf a hfp hfs hpos]

/-- The seek loop over the chunks that follow the reader's position. -/
theorem RecordFile.seekLoop_rest (fs : FileSystem) (pos : Nat) (rest : List Bytes) :
    ∀ (a : Bytes) (rf : RecordFile) (lf : LocalFile) (fuel : Nat),
      rf.fp = some lf → lf.s.rd = true → fs lf.path = some (a ++ chunksBytes rest) →
      lf.s.pos = a.length → (∀ c ∈ rest, c.length < 2147483648) → rest.length < fuel →
      ∃ j rf' lf', RecordFile.seekLoop fs pos fuel rf = some rf' ∧ rf'.fp = some lf' ∧
        j ≤ rest.length ∧
        lf'.tell = a.length + (chunksBytes (rest.take j)).length ∧
        (pos ≤ a.length + (chunksBytes (rest.take j)).length ∨ j = rest.length) ∧
        ∀ k, k < j → a.length + (chunksBytes (rest.take k)).length < pos := by
  induction rest with
  | nil =>
    intro a rf lf fuel hfp _ hfs hpos _ hfuel
    obtain ⟨fuel, rfl⟩ : ∃ f, fuel = f + 1 := ⟨fuel - 1, by simp at hfuel; omega⟩
    have hfs' : fs lf.path = some a := by rw [hfs]; simp [chunksBytes]
    unfold RecordFile.seekLoop
    rw [hfp]
    simp only [LocalFile.tell, hpos]
    by_cases h : a.length < pos
    · rw [if_pos h, RecordFile.read_null_eof fs rf lf a hfp hfs' hpos]
      exact ⟨0, _, lf, rfl, hfp, le_refl _, by simp [chunksBytes, hpos, LocalFile.tell],
        Or.inr rfl, fun k hk => absurd hk (Nat.not_lt_zero k)⟩
    · rw [if_neg h]
      exact ⟨0, _, lf, rfl, hfp, le_refl _, by simp [chunksBytes, hpos, LocalFile.tell],
        Or.inl (by simp [chunksBytes]; omega), fun k hk => absurd hk (Nat.not_lt_zero k)⟩
  | cons c rest ih =>
    intro a rf lf fuel hfp hrd hfs hpos hfit hfuel
    obtain ⟨fuel, rfl⟩ : ∃ f, fuel = f + 1 := ⟨fuel - 1, by simp at hfuel; omega⟩
    by_cases h : a.length < pos
    · have e := RecordFile.read_null_at fs rf lf a c (chunksBytes rest) hfp hrd
        (by rw [hfs, chunksBytes_cons, List.append_assoc]) hpos (hfit c (by simp))
      obtain ⟨j, rf', lf', h1, h2, h3, h4, h5, h6⟩ := ih (a ++ chunkBytes c)
        { rf with fp := some { lf with s := { lf.s with
                                 pos := a.length + (chunkBytes c).length } }
                  buf_ := c }
        { lf with s := { lf.s with pos := a.length + (chunkBytes c).length } } fuel
        rfl hrd (by rw [hfs, chunksBytes_cons, List.append_assoc])
        (by simp only [List.length_append]) (fun x hx => hfit x (by simp [hx]))
        (by simp at hfuel; omega)
      refine ⟨j + 1, rf', lf', ?_, h2, by simp; omega, ?_, ?_, ?_⟩
      · unfold RecordFile.seekLoop
        rw [hfp]
        simp only [LocalFile.tell, hpos, if_pos h, e]
        exact h1
      · rw [h4]; simp only [List.take_succ_cons, chunksBytes_cons, List.length_append]; omega
      · rcases h5 with h5 | h5
        · left
          simp only [List.take_succ_cons, chunksBytes_cons, List.length_append] at h5 ⊢
          omega
        · right; simp [h5]
      · intro k hk
        cases k with
        | zero => simpa [chunksBytes] using h
        | succ k =>
          have := h6 k (by omega)
          simp only [List.take_succ_cons, chunksBytes_cons, List.length_append] at this ⊢
          omega
    · refine ⟨0, rf, lf, ?_, hfp, Nat.zero_le _, by simp [chunksBytes, hpos, LocalFile.tell],
        Or.inl (by simp [chunksBytes]; omega), fun k hk => absurd hk (Nat.not_lt_zero k)⟩
      unfold RecordFile.seekLoop
      rw [hfp]
      simp only [LocalFile.tell, hpos, if_neg h]

theorem chunksBytes_length_ge (cs : List Bytes) : cs.length ≤ (chunksBytes cs).length := by
  induction cs with
  | nil => simp
  | cons c cs ih =>
    rw [chunksBytes_cons, List.length_append, chunkBytes_length, List.length_cons]
    omega

theorem boundary_add (cs : List Bytes) (i j : Nat) :
    boundary cs (i + j)
      = (chunksBytes (cs.take i)).length + (chunksBytes ((cs.drop i).take j)).length := by
  unfold boundary
  rw [List.take_add, chunksBytes_append, List.length_append]

/-- C10: on a file that is a sequence of well-formed chunks, with the reader at
the `i`-th chunk boundary, `seek(pos)` returns and leaves the offset at a chunk
boundary `j` at or after the start that meets or exceeds `pos` or is end of
file, every boundary from the start up to `j` being below `pos`; when the
starting offset already meets or exceeds `pos` the offset is unchanged. -/
theorem C10_seek_boundary (fs : FileSystem) (rf : RecordFile) (lf : LocalFile)
    (cs : List Bytes) (i pos : Nat)
    (hfp : rf.fp = some lf) (hrd : lf.s.rd = true)
    (hfs : fs lf.path = some (chunksBytes cs))
    (hfit : ∀ c ∈ cs, c.length < 2147483648)
    (hi : i ≤ cs.length) (hpos : lf.tell = boundary cs i) :
    ∃ j rf' lf', rf.seek fs pos = some rf' ∧ rf'.fp = some lf' ∧
      i ≤ j ∧ j ≤ cs.length ∧ lf'.tell = boundary cs j ∧
      (pos ≤ boundary cs j ∨ j = cs.length) ∧
      (∀ k, i ≤ k → k < j → boundary cs k < pos) ∧
      (pos ≤ lf.tell → lf'.tell = lf.tell) := by
  have hsplit : chunksBytes cs = chunksBytes (cs.take i) ++ chunksBytes (cs.drop i) := by
    rw [← chunksBytes_append, List.take_append_drop]
  have hlen : (cs.drop i).length < (chunksBytes cs).length + 2 := by
    have h1 := chunksBytes_length_ge (cs.drop i)
    have h2 : (chunksBytes (cs.drop i)).length ≤ (chunksBytes cs).length := by
      rw [hsplit, List.length_append]; omega
    omega
  obtain ⟨j, rf', lf', h1, h2, h3, h4, h5, h6⟩ :=
    RecordFile.seekLoop_rest fs pos (cs.drop i) (chunksBytes (cs.take i)) rf lf
      ((chunksBytes cs).length + 2) hfp hrd (by rw [hfs, hsplit]) hpos
      (fun c hc => hfit c (List.mem_of_mem_drop hc)) hlen
  have hseek : rf.seek fs pos = some rf' := by
    unfold RecordFile.seek
    rw [hfp]
    simp only [Option.some_bind, hfs, Option.getD_some]
    exact h1
  have hdl : (cs.drop i).length = cs.length - i := List.length_drop i cs
  have hb : ∀ k, boundary cs (i + k)
      = (chunksBytes (cs.take i)).length + (chunksBytes ((cs.drop i).take k)).length :=
    fun k => boundary_add cs i k
  refine ⟨i + j, rf', lf', hseek, h2, Nat.le_add_right _ _, by omega, ?_, ?_, ?_, ?_⟩
  · rw [h4, hb]
  · rcases h5 with h5 | h5
    · left; rw [hb]; exact h5
    · right; omega
  · intro k hk1 hk2
    obtain ⟨k', rfl⟩ : ∃ k', k = i + k' := ⟨k - i, by omega⟩
    rw [hb]
    exact h6 k' (by omega)
  · intro hle
    rw [h4, hpos]
    cases j with
    | zero => simp [boundary, chunksBytes]
    | succ j =>
      have := h6 0 (Nat.succ_pos j)
      simp only [List.take_zero, chunksBytes, List.map_nil, List.flatten_nil,
        List.length_nil, Nat.add_zero] at this
      rw [hpos] at hle
      unfold boundary at hle
      simp only [chunksBytes] at hle
      omega

/-- C10 witness: on the chunks `[7]`, `[]`, `[1, 2]` a reader at offset 0 seeks
to 6 and lands on the boundary 9. -/
theorem C10_seek_boundary_witness :
    ∃ j rf' lf',
      RecordFile.seek (fun n => if n = "x" then some (chunksBytes [[7], [], [1, 2]]) else none)
        ⟨"x", "r", some ⟨"x", ⟨0, true, false, false⟩⟩, []⟩ 6 = some rf' ∧
      rf'.fp = some lf' ∧
      0 ≤ j ∧ j ≤ [[7], [], [1, 2]].length ∧ lf'.tell = boundary [[7], [], [1, 2]] j ∧
      (6 ≤ boundary [[7], [], [1, 2]] j ∨ j = [[7], [], [1, 2]].length) ∧
      (∀ k, 0 ≤ k → k < j → boundary [[7], [], [1, 2]] k < 6) ∧
      (6 ≤ LocalFile.tell ⟨"x", ⟨0, true, false, false⟩⟩ →
        lf'.tell = LocalFile.tell ⟨"x", ⟨0, true, false, false⟩⟩) :=
  C10_seek_boundary (fun n => if n = "x" then some (chunksBytes [[7], [], [1, 2]]) else none)
    ⟨"x", "r", some ⟨"x", ⟨0, true, false, false⟩⟩, []⟩ ⟨"x", ⟨0, true, false, false⟩⟩
    [[7], [], [1, 2]] 0 6 rfl rfl rfl (by decide) (by decide) rfl

/-! ## Transport -/

/-- C5 (amended): a received message whose tag is `PUT_REQUEST` or `GET_REQUEST`
is handed, tag and payload, to the request queue's `Enqueue`, and neither the
response queues nor the disk queue change. -/
theorem C5_request_routing {Q : Type} (Enqueue : Q → Tag → Bytes → Q)
    (nt : NetworkThread Q) (tag : Tag) (source : Int) (data : Bytes) (now1 now2 : Int)
    (htag : tag = MTYPE_PUT_REQUEST ∨ tag = MTYPE_GET_REQUEST) :
    (nt.NetworkLoop Enqueue tag source data now1 now2).request_queue_
        = Enqueue nt.request_queue_ tag data ∧
    (nt.NetworkLoop Enqueue tag source data now1 now2).response_queue_
        = nt.response_queue_ ∧
    (nt.NetworkLoop Enqueue tag source data now1 now2).disk_queue_ = nt.disk_queue_ := by
  unfold NetworkThread.NetworkLoop
  simp only [htag, if_true]
  split <;> exact ⟨rfl, rfl, rfl⟩

/-- C5 witness: a `GET_REQUEST` from rank 1 on empty queues. -/
theorem C5_request_routing_witness :
    ((NetworkThread.init ([] : List TaggedMessage) (fun _ => false)).NetworkLoop
        recordEnqueue MTYPE_GET_REQUEST 1 [5] 0 0).request_queue_
        = recordEnqueue [] MTYPE_GET_REQUEST [5] ∧
    ((NetworkThread.init ([] : List TaggedMessage) (fun _ => false)).NetworkLoop
        recordEnqueue MTYPE_GET_REQUEST 1 [5] 0 0).response_queue_
        = (NetworkThread.init ([] : List TaggedMessage) (fun _ => false)).response_queue_ ∧
    ((NetworkThread.init ([] : List TaggedMessage) (fun _ => false)).NetworkLoop
        recordEnqueue MTYPE_GET_REQUEST 1 [5] 0 0).disk_queue_
        = (NetworkThread.init ([] : List TaggedMessage) (fun _ => false)).disk_queue_ :=
  C5_request_routing recordEnqueue (NetworkThread.init [] (fun _ => false))
    MTYPE_GET_REQUEST 1 [5] 0 0 (Or.inr rfl)

/-- C5 counterexample: an `UPDATE_REQUEST` from rank 1 is not enqueued on the
request queue; it is pushed onto the response queue of its tag and source. -/
theorem C5_update_request_counterexample :
    ((NetworkThread.init ([] : List TaggedMessage) (fun _ => false)).NetworkLoop
        recordEnqueue MTYPE_UPDATE_REQUEST 1 [5] 0 0).request_queue_ = [] ∧
    ((NetworkThread.init ([] : List TaggedMessage) (fun _ => false)).NetworkLoop
        recordEnqueue MTYPE_UPDATE_REQUEST 1 [5] 0 0).response_queue_
        MTYPE_UPDATE_REQUEST 1 = [[5]] ∧
    Tag.isTableRequest MTYPE_UPDATE_REQUEST = true := by
  decide

theorem NetworkThread.NetworkLoop_response {Q : Type} (Enqueue : Q → Tag → Bytes → Q)
    (nt : NetworkThread Q) (t : Tag) (s : Int) (d : Bytes) (now1 now2 : Int)
    (tag : Tag) (source : Int) :
    (nt.NetworkLoop Enqueue t s d now1 now2).response_queue_ tag source
      = if t = tag ∧ s = source ∧ t.toResponseQueue = true
        then nt.response_queue_ tag source ++ [d] else nt.response_queue_ tag source := by
  unfold NetworkThread.NetworkLoop
  by_cases h1 : t = MTYPE_PUT_REQUEST ∨ t = MTYPE_GET_REQUEST
  · have h2 : t.toResponseQueue = false := by
      rcases h1 with h | h <;> subst h <;> rfl
    simp only [h1, if_true, h2, Bool.false_eq_true, and_false, if_false]
    split <;> rfl
  · by_cases h3 : t = MTYPE_DATA_PUT_REQUEST ∨ t = MTYPE_DATA_PUT_REQUEST_FINISH
    · have h2 : t.toResponseQueue = false := by
        rcases h3 with h | h <;> subst h <;> rfl
      simp only [h1, h3, if_true, if_false, h2, Bool.false_eq_true, and_false]
      split <;> rfl
    · have h2 : t.toResponseQueue = true := by
        simp only [not_or] at h1 h3
        simp [Tag.toResponseQueue, h1.1, h1.2, h3.1, h3.2]
      simp only [h1, h3, if_false, h2, and_true]
      by_cases h4 : tag = t ∧ source = s
      · obtain ⟨rfl, rfl⟩ := h4
        split <;> simp
      · have h5 : ¬ (t = tag ∧ s = source) := fun h => h4 ⟨h.1.symm, h.2.symm⟩
        split <;> simp [h4, h5]

/-- What a `check_queue` does: nothing on an empty queue, otherwise it pops the
head of that one queue. -/
theorem NetworkThread.check_queue_spec {Q : Type} (nt : NetworkThread Q) (src : Int)
    (type : Tag) :
    (nt.check_queue src type = (none, nt) ∧ nt.response_queue_ type src = []) ∨
    ∃ d tail, nt.response_queue_ type src = d :: tail ∧
      nt.check_queue src type = (some d, { nt with response_queue_ := fun t r =>
        if t = type ∧ r = src then tail else nt.response_queue_ t r }) := by
  unfold NetworkThread.check_queue
  cases h : nt.response_queue_ type src with
  | nil => left; exact ⟨rfl, rfl⟩
  | cons d tail => right; exact ⟨d, tail, rfl, rfl⟩

theorem NetworkThread.TryReadFrom_spec {Q : Type} (nt : NetworkThread Q) (type : Tag)
    (n : Nat) : ∀ i : Nat,
    nt.TryReadFrom type i n = (none, nt) ∨
    ∃ (s : Int) (d : Bytes) (tail : List Bytes), nt.response_queue_ type s = d :: tail ∧
      nt.TryReadFrom type i n = (some (s, d), { nt with response_queue_ := fun t r =>
        if t = type ∧ r = s then tail else nt.response_queue_ t r }) := by
  induction n with
  | zero => intro i; left; rfl
  | succ n ih =>
    intro i
    unfold NetworkThread.TryReadFrom
    rcases NetworkThread.check_queue_spec nt i type with ⟨h, _⟩ | ⟨d, tail, hq, h⟩
    · rw [h]; exact ih (i + 1)
    · right; rw [h]; exact ⟨i, d, tail, hq, rfl⟩

theorem NetworkThread.TryRead_spec {Q : Type} (size : Nat) (nt : NetworkThread Q)
    (src : Int) (type : Tag) :
    nt.TryRead size src type = (none, nt) ∨
    ∃ (s : Int) (d : Bytes) (tail : List Bytes), nt.response_queue_ type s = d :: tail ∧
      nt.TryRead size src type = (some (s, d), { nt with response_queue_ := fun t r =>
        if t = type ∧ r = s then tail else nt.response_queue_ t r }) := by
  unfold NetworkThread.TryRead
  split
  · exact NetworkThread.TryReadFrom_spec nt type size 0
  · rcases NetworkThread.check_queue_spec nt src type with ⟨h, _⟩ | ⟨d, tail, hq, h⟩
    · left; rw [h]
    · right; rw [h]; exact ⟨src, d, tail, hq, rfl⟩

/-- Invariant behind the FIFO property: what the reads of `(tag, source)` return
is a prefix of what the queue holds followed by what will still arrive. -/
theorem NetworkThread.run_prefix {Q : Type} (Enqueue : Q → Tag → Bytes → Q) (size : Nat)
    (tag : Tag) (source : Int) (evs : List NetEvent) : ∀ nt : NetworkThread Q,
    deliveries tag source (NetworkThread.run Enqueue size nt evs).2
      <+: nt.response_queue_ tag source
            ++ (if tag.toResponseQueue = true then arrivals tag source evs else []) := by
  induction evs with
  | nil => intro nt; simp [NetworkThread.run, deliveries]
  | cons ev evs ih =>
    intro nt
    cases ev with
    | arrive t s d now1 now2 =>
      have h := ih (nt.NetworkLoop Enqueue t s d now1 now2)
      rw [NetworkThread.NetworkLoop_response] at h
      simp only [NetworkThread.run, arrivals]
      by_cases hc : t = tag ∧ s = source
      · obtain ⟨rfl, rfl⟩ := hc
        by_cases hr : t.toResponseQueue = true
        · simpa [hr] using h
        · simpa [hr] using h
      · have hc' : ¬ (t = tag ∧ s = source ∧ t.toResponseQueue = true) :=
          fun hh => hc ⟨hh.1, hh.2.1⟩
        simpa [hc, hc'] using h
    | tryRead src type =>
      rcases NetworkThread.TryRead_spec size nt src type with h | ⟨s, d, tail, hq, h⟩
      · have := ih nt
        simp only [NetworkThread.run, h, deliveries, arrivals]
        exact this
      · have := ih { nt with response_queue_ := fun t r =>
          if t = type ∧ r = s then tail else nt.response_queue_ t r }
        simp only [NetworkThread.run, h, deliveries, arrivals]
        by_cases hc : type = tag ∧ s = source
        · obtain ⟨rfl, rfl⟩ := hc
          simp only [and_self, if_true] at this ⊢
          rw [hq, List.cons_append]
          exact (List.prefix_cons_inj d).mpr this
        · have hc' : ¬ (tag = type ∧ source = s) := fun hh => hc ⟨hh.1.symm, hh.2.symm⟩
          simp only [hc, hc', if_false] at this ⊢
          exact this

/-- C6: in every interleaving of message arrivals and reads starting from empty
queues, the payloads returned by the successful reads of a tag that report a
given source form a prefix of the payloads that arrived from that source with
that tag, in arrival order. -/
theorem C6_fifo_per_source_tag {Q : Type} (Enqueue : Q → Tag → Bytes → Q) (size : Nat)
    (q : Q) (callbacks_ : Tag → Bool) (evs : List NetEvent) (tag : Tag) (source : Int) :
    deliveries tag source
        (NetworkThread.run Enqueue size (NetworkThread.init q callbacks_) evs).2
      <+: arrivals tag source evs := by
  have h := NetworkThread.run_prefix Enqueue size tag source evs
    (NetworkThread.init q callbacks_)
  simp only [NetworkThread.init, List.nil_append] at h
  split at h
  · exact h
  · exact h.trans (List.nil_prefix)

/-! ## Request dispatcher -/

theorem sum_length_set (l : List (List TaggedMessage)) : ∀ (i : Nat) (x : List TaggedMessage),
    i < l.length →
    ((l.set i x).map List.length).sum + (l.getD i []).length
      = (l.map List.length).sum + x.length := by
  induction l with
  | nil => intro i x h; simp at h
  | cons a l ih =>
    intro i x h
    cases i with
    | zero => simp; omega
    | succ i =>
      have := ih i x (by simpa using h)
      simp only [List.set_cons_succ, List.map_cons, List.sum_cons, List.getD_cons_succ]
      omega

theorem ASyncRequestQueue.size_create (ns : Nat) :
    (ASyncRequestQueue.create ns).size = 0 ∧
    (ASyncRequestQueue.create ns).request_queues_.length = ns := by
  simp [ASyncRequestQueue.create, ASyncRequestQueue.size]

theorem ASyncRequestQueue.Enqueue_size (owner : Bytes → Nat) (q : ASyncRequestQueue)
    (tag : Tag) (data : Bytes) (h : owner data < q.request_queues_.length) :
    (q.Enqueue owner tag data).size = q.size + 1 ∧
    (q.Enqueue owner tag data).request_queues_.length = q.request_queues_.length := by
  have := sum_length_set q.request_queues_ (owner data)
    (q.request_queues_.getD (owner data) [] ++ [⟨tag, data⟩]) h
  simp only [ASyncRequestQueue.Enqueue, ASyncRequestQueue.size, List.length_set,
    List.length_append, List.length_singleton] at this ⊢
  exact ⟨by omega, trivial⟩

theorem ASyncRequestQueue.scan_spec (q : ASyncRequestQueue) (n : Nat) :
    ∀ (i : Nat) (m : TaggedMessage) (q' : ASyncRequestQueue),
      q.scan i n = some (m, q') →
      ∃ j rest, q.request_queues_.getD j [] = m :: rest ∧
        q'.request_queues_ = q.request_queues_.set j rest ∧
        q'.num_mem_servers_ = q.num_mem_servers_ := by
  induction n with
  | zero => intro i m q' h; simp [ASyncRequestQueue.scan] at h
  | succ n ih =>
    intro i m q' h
    unfold ASyncRequestQueue.scan at h
    cases hq : q.request_queues_.getD i [] with
    | nil => rw [hq] at h; exact ih _ m q' h
    | cons m' rest =>
      rw [hq] at h
      simp only [Option.some.injEq, Prod.mk.injEq] at h
      obtain ⟨rfl, rfl⟩ := h
      exact ⟨i, rest, hq, rfl, rfl⟩

theorem ASyncRequestQueue.NextRequest_size (q : ASyncRequestQueue) (m : TaggedMessage)
    (q' : ASyncRequestQueue) (h : q.NextRequest = some (m, q')) :
    q'.size + 1 = q.size ∧ q'.request_queues_.length = q.request_queues_.length := by
  obtain ⟨j, rest, hj, hq', _⟩ := ASyncRequestQueue.scan_spec q _ _ m q' h
  have hlt : j < q.request_queues_.length := by
    by_contra hge
    rw [List.getD_eq_default _ _ (by omega)] at hj
    exact List.noConfusion hj
  have := sum_length_set q.request_queues_ j rest hlt
  simp only [ASyncRequestQueue.size, hq', hj, List.length_cons, List.length_set] at this ⊢
  exact ⟨by omega, trivial⟩

theorem RequestDispatcher.loop_HEAD_eq {σ : Type} (owner : Bytes → Nat)
    (callbacks_ : Callbacks σ) (d : RequestDispatcher σ) :
    d.table_dispatch_loop_HEAD owner callbacks_ = d.table_dispatch_loop owner callbacks_ := rfl

theorem RequestDispatcher.Enqueue_HEAD_table {σ : Type} (owner : Bytes → Nat)
    (d : RequestDispatcher σ) (tag : Tag) (data : Bytes) (h : tag.isTableRequest = true) :
    d.Enqueue_HEAD owner tag data = d.Enqueue owner tag data := by
  unfold RequestDispatcher.Enqueue_HEAD RequestDispatcher.Enqueue
  have : tag = MTYPE_PUT_REQUEST ∨ tag = MTYPE_GET_REQUEST ∨ tag = MTYPE_UPDATE_REQUEST := by
    simpa [Tag.isTableRequest, or_assoc] using h
  rw [if_pos this]

/-- What one iteration does once `NextRequest` has returned a request. -/
theorem RequestDispatcher.loop_spec {σ : Type} (owner : Bytes → Nat)
    (callbacks_ : Callbacks σ) (d : RequestDispatcher σ) (m : TaggedMessage)
    (q : ASyncRequestQueue) (h : d.table_queue_.NextRequest = some (m, q)) :
    (∃ d', d.table_dispatch_loop owner callbacks_ = some (.completed m, d') ∧
      (callbacks_ m.tag (if m.tag = MTYPE_GET_REQUEST then Message.HashGet m.data
                          else Message.TableData m.data) d.handlerState).1 = true ∧
      d'.table_queue_ = q ∧
      d'.num_outstanding_request_ = d.num_outstanding_request_ - 1 ∧
      d'.disk_queue_ = d.disk_queue_) ∨
    (∃ d', d.table_dispatch_loop owner callbacks_ = some (.requeued m, d') ∧
      (callbacks_ m.tag (if m.tag = MTYPE_GET_REQUEST then Message.HashGet m.data
                          else Message.TableData m.data) d.handlerState).1 = false ∧
      d'.table_queue_ = q.Enqueue owner m.tag m.data ∧
      d'.num_outstanding_request_ = d.num_outstanding_request_ ∧
      d'.disk_queue_ = d.disk_queue_) := by
  unfold RequestDispatcher.table_dispatch_loop
  rw [h]
  simp only
  rcases hc : callbacks_ m.tag (if m.tag = MTYPE_GET_REQUEST then Message.HashGet m.data
      else Message.TableData m.data) d.handlerState with ⟨b, s⟩
  cases b
  · right; exact ⟨_, rfl, rfl, rfl, rfl, rfl⟩
  · left; exact ⟨_, rfl, rfl, rfl, rfl, rfl⟩

/-- Invariant of a run: the counter equals the number of requests the queue
holds, and it moves by the submissions minus the completions. -/
theorem RequestDispatcher.run_inv {σ : Type} (head : Bool) (owner : Bytes → Nat)
    (callbacks_ : Callbacks σ) (ns : Nat) (hown : ∀ data, owner data < ns)
    (evs : List DispatchEvent) : ∀ d : RequestDispatcher σ,
    (∀ t data, DispatchEvent.enqueue t data ∈ evs → t.isTableRequest = true) →
    d.table_queue_.request_queues_.length = ns →
    d.num_outstanding_request_ = d.table_queue_.size →
    (RequestDispatcher.run head owner callbacks_ d evs).1.num_outstanding_request_
      = (RequestDispatcher.run head owner callbacks_ d evs).1.table_queue_.size ∧
    (RequestDispatcher.run head owner callbacks_ d evs).1.table_queue_.request_queues_.length
      = ns ∧
    (RequestDispatcher.run head owner callbacks_ d evs).1.num_outstanding_request_
      = d.num_outstanding_request_ + submitted evs
        - completions (RequestDispatcher.run head owner callbacks_ d evs).2 := by
  induction evs with
  | nil => intro d _ hl hn; simp [RequestDispatcher.run, submitted, completions, hl, hn]
  | cons ev evs ih =>
    intro d htab hl hn
    have htab' : ∀ t data, DispatchEvent.enqueue t data ∈ evs → t.isTableRequest = true :=
      fun t data hm => htab t data (List.mem_cons_of_mem _ hm)
    cases ev with
    | enqueue tag data =>
      have ht := htab tag data (List.mem_cons_self _ _)
      have he : (if head then d.Enqueue_HEAD owner tag data else d.Enqueue owner tag data)
          = d.Enqueue owner tag data := by
        cases head
        · rfl
        · exact RequestDispatcher.Enqueue_HEAD_table owner d tag data ht
      have hs := ASyncRequestQueue.Enqueue_size owner d.table_queue_ tag data
        (by rw [hl]; exact hown data)
      have := ih (d.Enqueue owner tag data) htab'
        (by simp only [RequestDispatcher.Enqueue]; rw [hs.2, hl])
        (by simp only [RequestDispatcher.Enqueue]; rw [hs.1, hn]; push_cast; rfl)
      simp only [RequestDispatcher.run, he, submitted]
      refine ⟨this.1, this.2.1, ?_⟩
      rw [this.2.2]
      simp only [RequestDispatcher.Enqueue]
      push_cast
      ring
    | iterate =>
      have hloop : (if head then d.table_dispatch_loop_HEAD owner callbacks_
          else d.table_dispatch_loop owner callbacks_)
          = d.table_dispatch_loop owner callbacks_ := by
        cases head <;> rfl
      simp only [RequestDispatcher.run, hloop, submitted]
      cases hnext : d.table_queue_.NextRequest with
      | none =>
        have : d.table_dispatch_loop owner callbacks_ = none := by
          unfold RequestDispatcher.table_dispatch_loop; rw [hnext]
        rw [this]
        exact ih d htab' hl hn
      | some r =>
        obtain ⟨m, q⟩ := r
        have hq := ASyncRequestQueue.NextRequest_size d.table_queue_ m q hnext
        rcases RequestDispatcher.loop_spec owner callbacks_ d m q hnext with
          ⟨d', e, _, h1, h2, _⟩ | ⟨d', e, _, h1, h2, _⟩
        · have := ih d' htab' (by rw [h1, hq.2, hl])
            (by rw [h2, h1, hn]; have := hq.1; omega)
          rw [e]
          simp only [completions]
          refine ⟨this.1, this.2.1, ?_⟩
          rw [this.2.2, h2]
          push_cast
          ring
        · have hs := ASyncRequestQueue.Enqueue_size owner q m.tag m.data
            (by rw [hq.2, hl]; exact hown _)
          have := ih d' htab' (by rw [h1, hs.2, hq.2, hl])
            (by rw [h2, h1, hs.1, hn]; have := hq.1; omega)
          rw [e]
          simp only [completions]
          refine ⟨this.1, this.2.1, ?_⟩
          rw [this.2.2, h2]

/-- C7: in every state reached from the initial dispatcher by `Enqueue` of table
requests and iterations of the dispatch loop (either side of the source),
`num_outstanding_request_` is the number of requests submitted minus the
number a handler completed, which is the number of requests the queue holds;
`active()` is true exactly when some submitted request is not yet completed;
and an iteration that soft-fails leaves the counter unchanged. -/
theorem C7_outstanding_count {σ : Type} (head : Bool) (owner : Bytes → Nat)
    (callbacks_ : Callbacks σ) (ns : Nat) (s0 : σ) (evs : List DispatchEvent)
    (hown : ∀ data, owner data < ns)
    (htab : ∀ t data, DispatchEvent.enqueue t data ∈ evs → t.isTableRequest = true) :
    (RequestDispatcher.run head owner callbacks_ (RequestDispatcher.create ns s0) evs).1.num_outstanding_request_
      = (submitted evs : Int)
        - completions (RequestDispatcher.run head owner callbacks_
            (RequestDispatcher.create ns s0) evs).2 ∧
    completions (RequestDispatcher.run head owner callbacks_
        (RequestDispatcher.create ns s0) evs).2 ≤ submitted evs ∧
    (RequestDispatcher.run head owner callbacks_ (RequestDispatcher.create ns s0) evs).1.num_outstanding_request_
      = (RequestDispatcher.run head owner callbacks_
          (RequestDispatcher.create ns s0) evs).1.table_queue_.size ∧
    ((RequestDispatcher.run head owner callbacks_
        (RequestDispatcher.create ns s0) evs).1.active = true ↔
      completions (RequestDispatcher.run head owner callbacks_
        (RequestDispatcher.create ns s0) evs).2 < submitted evs) ∧
    (∀ m d', (if head then
          (RequestDispatcher.run head owner callbacks_
            (RequestDispatcher.create ns s0) evs).1.table_dispatch_loop_HEAD owner callbacks_
        else
          (RequestDispatcher.run head owner callbacks_
            (RequestDispatcher.create ns s0) evs).1.table_dispatch_loop owner callbacks_)
        = some (.requeued m, d') →
      d'.num_outstanding_request_
        = (RequestDispatcher.run head owner callbacks_
            (RequestDispatcher.create ns s0) evs).1.num_outstanding_request_) := by
  have hc := ASyncRequestQueue.size_create ns
  have h := RequestDispatcher.run_inv head owner callbacks_ ns hown evs
    (RequestDispatcher.create ns s0) htab
    (by simp only [RequestDispatcher.create]; exact hc.2)
    (by simp only [RequestDispatcher.create]; rw [hc.1]; rfl)
  generalize RequestDispatcher.run head owner callbacks_ (RequestDispatcher.create ns s0) evs
    = r at h ⊢
  obtain ⟨h1, _, h3⟩ := h
  have h3' : r.1.num_outstanding_request_ = (submitted evs : Int) - completions r.2 := by
    rw [h3]; simp [RequestDispatcher.create]
  refine ⟨h3', by omega, h1, ?_, ?_⟩
  · unfold RequestDispatcher.active
    simp only [decide_eq_true_eq]
    omega
  · intro m d' hstep
    have hloop : (if head then r.1.table_dispatch_loop_HEAD owner callbacks_
        else r.1.table_dispatch_loop owner callbacks_)
        = r.1.table_dispatch_loop owner callbacks_ := by
      cases head <;> rfl
    rw [hloop] at hstep
    unfold RequestDispatcher.table_dispatch_loop at hstep
    cases hnext : r.1.table_queue_.NextRequest with
    | none => rw [hnext] at hstep; simp at hstep
    | some x =>
      obtain ⟨m', q⟩ := x
      rw [hnext] at hstep
      simp only at hstep
      split at hstep
      · simp at hstep
      · simp only [Option.some.injEq, Prod.mk.injEq] at hstep
        rw [← hstep.2]

/-- C7 witness: two table requests, then four iterations (two soft-fail, two
complete) on two table servers. -/
theorem C7_outstanding_count_witness :
    (RequestDispatcher.run false ownerParity oddHandler (RequestDispatcher.create 2 0)
        [.enqueue MTYPE_PUT_REQUEST [1], .enqueue MTYPE_GET_REQUEST [],
         .iterate, .iterate, .iterate, .iterate]).1.num_outstanding_request_
      = (submitted [.enqueue MTYPE_PUT_REQUEST [1], .enqueue MTYPE_GET_REQUEST [],
                    .iterate, .iterate, .iterate, .iterate] : Int)
        - completions (RequestDispatcher.run false ownerParity oddHandler
            (RequestDispatcher.create 2 0)
            [.enqueue MTYPE_PUT_REQUEST [1], .enqueue MTYPE_GET_REQUEST [],
             .iterate, .iterate, .iterate, .iterate]).2 ∧
    completions (RequestDispatcher.run false ownerParity oddHandler
        (RequestDispatcher.create 2 0)
        [.enqueue MTYPE_PUT_REQUEST [1], .enqueue MTYPE_GET_REQUEST [],
         .iterate, .iterate, .iterate, .iterate]).2 = 2 :=
  ⟨(C7_outstanding_count false ownerParity oddHandler 2 0
      [.enqueue MTYPE_PUT_REQUEST [1], .enqueue MTYPE_GET_REQUEST [],
       .iterate, .iterate, .iterate, .iterate]
      (fun data => Nat.mod_lt _ (by decide))
      (by
        intro t data h
        simp only [List.mem_cons, DispatchEvent.enqueue.injEq, List.mem_singleton,
          reduceCtorEq, or_false, List.not_mem_nil] at h
        rcases h with ⟨rfl, _⟩ | ⟨rfl, _⟩ <;> rfl)).1,
   by decide⟩

/-- C8: in one iteration of the dispatch loop (either side of the source) on the
request `(tag, payload)` that `NextRequest` returns: when the handler returns
false the same tag and payload are appended to the tail of the owner's FIFO of
the request queue, every other FIFO is as `NextRequest` left it, and the
counter is unchanged; when it returns true the counter decreases by one and
the queue is as `NextRequest` left it, the request not being re-enqueued. -/
theorem C8_dispatch_iteration {σ : Type} (head : Bool) (owner : Bytes → Nat)
    (callbacks_ : Callbacks σ) (d : RequestDispatcher σ) (m : TaggedMessage)
    (q : ASyncRequestQueue)
    (hnext : d.table_queue_.NextRequest = some (m, q))
    (hown : owner m.data < q.request_queues_.length) :
    ((callbacks_ m.tag (if m.tag = MTYPE_GET_REQUEST then Message.HashGet m.data
                        else Message.TableData m.data) d.handlerState).1 = false ∧
      ∃ d', (if head then d.table_dispatch_loop_HEAD owner callbacks_
             else d.table_dispatch_loop owner callbacks_) = some (.requeued m, d') ∧
        d'.table_queue_ = q.Enqueue owner m.tag m.data ∧
        d'.table_queue_.request_queues_.getD (owner m.data) []
          = q.request_queues_.getD (owner m.data) [] ++ [⟨m.tag, m.data⟩] ∧
        (∀ i, i ≠ owner m.data →
          d'.table_queue_.request_queues_.getD i [] = q.request_queues_.getD i []) ∧
        d'.num_outstanding_request_ = d.num_outstanding_request_) ∨
    ((callbacks_ m.tag (if m.tag = MTYPE_GET_REQUEST then Message.HashGet m.data
                        else Message.TableData m.data) d.handlerState).1 = true ∧
      ∃ d', (if head then d.table_dispatch_loop_HEAD owner callbacks_
             else d.table_dispatch_loop owner callbacks_) = some (.completed m, d') ∧
        d'.table_queue_ = q ∧
        d'.num_outstanding_request_ = d.num_outstanding_request_ - 1) := by
  have hloop : (if head then d.table_dispatch_loop_HEAD owner callbacks_
      else d.table_dispatch_loop owner callbacks_)
      = d.table_dispatch_loop owner callbacks_ := by
    cases head <;> rfl
  rw [hloop]
  rcases RequestDispatcher.loop_spec owner callbacks_ d m q hnext with
    ⟨d', e, hb, h1, h2, _⟩ | ⟨d', e, hb, h1, h2, _⟩
  · right; exact ⟨hb, d', e, h1, h2⟩
  · left
    refine ⟨hb, d', e, h1, ?_, ?_, h2⟩
    · rw [h1]
      simp only [ASyncRequestQueue.Enqueue]
      rw [List.getD_eq_getElem _ _ (by rw [List.length_set]; exact hown)]
      simp
    · intro i hi
      rw [h1]
      simp only [ASyncRequestQueue.Enqueue]
      by_cases hlt : i < q.request_queues_.length
      · rw [List.getD_eq_getElem _ _ (by rw [List.length_set]; exact hlt),
          List.getD_eq_getElem _ _ hlt, List.getElem_set_ne (Ne.symm hi)]
      · rw [List.getD_eq_default _ _ (by rw [List.length_set]; omega),
          List.getD_eq_default _ _ (by omega)]

/-- C8 witness: a `GET_REQUEST` is taken from the queue and soft-fails. -/
theorem C8_dispatch_iteration_witness :
    ((oddHandler MTYPE_GET_REQUEST
        (if MTYPE_GET_REQUEST = MTYPE_GET_REQUEST then Message.HashGet [] else Message.TableData [])
        0).1 = false ∧
      ∃ d', RequestDispatcher.table_dispatch_loop ownerParity oddHandler
          ((RequestDispatcher.create 2 (0 : Nat)).Enqueue ownerParity MTYPE_GET_REQUEST [])
          = some (.requeued ⟨MTYPE_GET_REQUEST, []⟩, d') ∧
        d'.table_queue_.request_queues_ = [[⟨MTYPE_GET_REQUEST, []⟩], []] ∧
        d'.num_outstanding_request_ = 1) ∧
    (RequestDispatcher.create 2 (0 : Nat)).num_outstanding_request_ = 0 := by
  have h := C8_dispatch_iteration false ownerParity oddHandler
    ((RequestDispatcher.create 2 (0 : Nat)).Enqueue ownerParity MTYPE_GET_REQUEST [])
    ⟨MTYPE_GET_REQUEST, []⟩ ⟨2, 1, [[], []]⟩ (by decide) (by decide)
  refine ⟨?_, rfl⟩
  rcases h with ⟨hb, d', e, h1, _, _, h2⟩ | ⟨hb, _⟩
  · exact ⟨hb, d', e, by rw [h1]; decide, by rw [h2]; decide⟩
  · exact absurd hb (by decide)

/-! ## Record file: single reads -/

/-- C11: with the reader at end of file, `read` with a null message (hence
`readChunk`) returns false and leaves an empty buffer; with a complete chunk
`int32 len | len bytes` at the reader's position it returns true, yields
exactly those bytes and advances the position by `4 + len`. -/
theorem C11_read_chunk (fs : FileSystem) (rf : RecordFile) (lf : LocalFile)
    (hfp : rf.fp = some lf) :
    (∀ a : Bytes, fs lf.path = some a → lf.tell = a.length →
      rf.readChunk fs = some (false, [], rf) ∧
      rf.read fs (none : Option (Bytes → Option Unit))
        = some (false, none, { rf with buf_ := [] })) ∧
    (∀ (a payload b : Bytes) (len : Int), lf.s.rd = true →
      fs lf.path = some (a ++ int32Bytes len ++ payload ++ b) → lf.tell = a.length →
      (payload.length : Int) = len → InInt32 len →
      ∃ rf' lf', rf.readChunk fs = some (true, payload, rf') ∧
        rf.read fs (none : Option (Bytes → Option Unit))
          = some (true, none, { rf' with buf_ := payload }) ∧
        rf'.fp = some lf' ∧ lf'.tell = lf.tell + 4 + payload.length) := by
  constructor
  · intro a hfs hpos
    exact ⟨RecordFile.readChunk_eof fs rf lf a hfp hfs hpos,
      RecordFile.read_null_eof fs rf lf a hfp hfs hpos⟩
  · intro a payload b len hrd hfs hpos hlen hin
    have hfit : payload.length < 2147483648 := by
      have := hin.2
      omega
    have hfs' : fs lf.path = some (a ++ chunkBytes payload ++ b) := by
      rw [hfs, chunkBytes, toInt32_natCast _ hfit, hlen]
      simp only [List.append_assoc]
    refine ⟨_, _, RecordFile.readChunk_at fs rf lf a payload b hfp hrd hfs' hpos hfit,
      RecordFile.read_null_at fs rf lf a payload b hfp hrd hfs' hpos hfit, rfl, ?_⟩
    simp only [LocalFile.tell] at hpos ⊢
    rw [chunkBytes_length, hpos]
    omega

/-- C11 witness: a reader of `x` (chunks `[7]` and `[]`) at offset 0. -/
theorem C11_read_chunk_witness :
    (∀ a : Bytes, dataFs "x" = some a → LocalFile.tell ⟨"x", ⟨0, true, false, false⟩⟩ = a.length →
      RecordFile.readChunk dataFs ⟨"x", "r", some ⟨"x", ⟨0, true, false, false⟩⟩, []⟩
        = some (false, [], ⟨"x", "r", some ⟨"x", ⟨0, true, false, false⟩⟩, []⟩) ∧
      RecordFile.read dataFs ⟨"x", "r", some ⟨"x", ⟨0, true, false, false⟩⟩, []⟩
          (none : Option (Bytes → Option Unit))
        = some (false, none, ⟨"x", "r", some ⟨"x", ⟨0, true, false, false⟩⟩, []⟩)) ∧
    (∃ rf' lf', RecordFile.readChunk dataFs
          ⟨"x", "r", some ⟨"x", ⟨0, true, false, false⟩⟩, []⟩ = some (true, [7], rf') ∧
        RecordFile.read dataFs ⟨"x", "r", some ⟨"x", ⟨0, true, false, false⟩⟩, []⟩
            (none : Option (Bytes → Option Unit))
          = some (true, none, { rf' with buf_ := [7] }) ∧
        rf'.fp = some lf' ∧
        lf'.tell = LocalFile.tell ⟨"x", ⟨0, true, false, false⟩⟩ + 4 + [(7 : Byte)].length) ∧
    RecordFile.readChunk dataFs ⟨"x", "r", some ⟨"x", ⟨9, true, false, false⟩⟩, []⟩
      = some (false, [], ⟨"x", "r", some ⟨"x", ⟨9, true, false, false⟩⟩, []⟩) :=
  ⟨(C11_read_chunk dataFs ⟨"x", "r", some ⟨"x", ⟨0, true, false, false⟩⟩, []⟩
      ⟨"x", ⟨0, true, false, false⟩⟩ rfl).1,
   (C11_read_chunk dataFs ⟨"x", "r", some ⟨"x", ⟨0, true, false, false⟩⟩, []⟩
      ⟨"x", ⟨0, true, false, false⟩⟩ rfl).2 [] [7] [0, 0, 0, 0] 1 rfl rfl rfl rfl
      (by decide),
   (C11_read_chunk dataFs ⟨"x", "r", some ⟨"x", ⟨9, true, false, false⟩⟩, []⟩
      ⟨"x", ⟨9, true, false, false⟩⟩ rfl).1 [1, 0, 0, 0, 7, 0, 0, 0, 0] rfl rfl |>.1⟩

/-! ## Checkpoint log: header -/

theorem Stream.fseek_set (s : Stream) (data : Bytes) (n : Nat) :
    s.fseek data n .SEEK_SET = { s with pos := n } := by
  unfold Stream.fseek
  simp

/-- C12: a checkpoint log created in write mode with shard id `s` holds the
four-byte image of `s`; after any run of appends, and after each of them, the
first four bytes of the file are still that image; and `read_shard_id` on a
reader of the file returns `s`. -/
theorem C12_shard_header (existing : Option Bytes) (sid sid' : Int) (rs : List LogEntry)
    (w r : LogFile) (hsid : InInt32 sid)
    (hw : LogFile.create existing "w" sid = some w)
    (hr : LogFile.create (some (w.appendAll rs).file) "r" sid' = some r) :
    w.file = int32Bytes sid ∧
    (∀ k, k ≤ rs.length → (w.appendAll (rs.take k)).file.take 4 = int32Bytes sid) ∧
    (w.appendAll rs).file.take 4 = int32Bytes sid ∧
    (r.read_shard_id).1 = some sid := by
  have ew := LogFile.log_create_w existing sid w hw
  have er := LogFile.log_create_r _ sid' r hr
  have hfile : w.file = int32Bytes sid := by rw [ew]
  have hpre : ∀ qs : List LogEntry, (w.appendAll qs).file.take 4 = int32Bytes sid := by
    intro qs
    have h := (LogFile.appendAll_gen qs w (by rw [ew]) (Or.inl (by rw [ew]; rfl))).1
    rw [h, hfile]
    exact List.take_left' (int32Bytes_length sid)
  refine ⟨hfile, fun k _ => hpre (rs.take k), hpre rs, ?_⟩
  have h := (LogFile.appendAll_gen rs w (by rw [ew]) (Or.inl (by rw [ew]; rfl))).1
  rw [hfile] at h
  rw [h] at er
  rw [er]
  unfold LogFile.read_shard_id
  have s1 := Stream.fseek_set
    ⟨(int32Bytes sid ++ (rs.map (fun r => appendBytes r.key r.val r.size)).flatten).length,
      true, false, false⟩
    (int32Bytes sid ++ (rs.map (fun r => appendBytes r.key r.val r.size)).flatten) 0
  have r1 := Stream.fread_mid ⟨0, true, false, false⟩ [] (int32Bytes sid)
    ((rs.map (fun r => appendBytes r.key r.val r.size)).flatten) 4 rfl rfl rfl
  simp only [Nat.cast_zero, List.nil_append] at s1 r1
  simp only [s1, r1, bytesToInt32_int32Bytes sid hsid]

/-- C12 witness: shard 7, two records. -/
theorem C12_shard_header_witness :
    (LogFile.mk [7, 0, 0, 0] ⟨4, false, true, false⟩ 0 0).file = int32Bytes 7 ∧
    ((LogFile.mk [7, 0, 0, 0, 2, 0, 0, 0, 1, 2, 3, 5, 0, 0, 0, 11, 0, 0, 0,
                  0, 0, 0, 0, 9, 9, 255, 255, 255, 255, 10, 0, 0, 0]
        ⟨33, true, false, false⟩ 0 0).read_shard_id).1 = some 7 :=
  ⟨(C12_shard_header none 7 0 [⟨[1, 2], [3], 5⟩, ⟨[], [9, 9], -1⟩]
      ⟨[7, 0, 0, 0], ⟨4, false, true, false⟩, 0, 0⟩
      ⟨[7, 0, 0, 0, 2, 0, 0, 0, 1, 2, 3, 5, 0, 0, 0, 11, 0, 0, 0,
        0, 0, 0, 0, 9, 9, 255, 255, 255, 255, 10, 0, 0, 0], ⟨33, true, false, false⟩, 0, 0⟩
      (by decide) (by decide) (by decide)).1,
   (C12_shard_header none 7 0 [⟨[1, 2], [3], 5⟩, ⟨[], [9, 9], -1⟩]
      ⟨[7, 0, 0, 0], ⟨4, false, true, false⟩, 0, 0⟩
      ⟨[7, 0, 0, 0, 2, 0, 0, 0, 1, 2, 3, 5, 0, 0, 0, 11, 0, 0, 0,
        0, 0, 0, 0, 9, 9, 255, 255, 255, 255, 10, 0, 0, 0], ⟨33, true, false, false⟩, 0, 0⟩
      (by decide) (by decide) (by decide)).2.2.2⟩

/-! ## Transport: broadcast, wildcard reads, routing -/

theorem NetworkThread.BroadcastFrom_spec {Q : Type} (method : Tag) (msg : Bytes) (n : Nat) :
    ∀ (i : Nat) (nt : NetworkThread Q),
      NetworkThread.BroadcastFrom method msg i n nt
        = { nt with pending_sends_ := nt.pending_sends_
              ++ (List.range' i n).map (fun (r : Nat) => (⟨(r : Int), method, msg⟩ : RPCRequest)) } := by
  induction n with
  | zero => intro i nt; simp [NetworkThread.BroadcastFrom]
  | succ n ih =>
    intro i nt
    rw [NetworkThread.BroadcastFrom, ih]
    simp [NetworkThread.Send, NetworkThread.SendReq, List.range'_succ]

/-- C13: in a world of `W` ranks `Broadcast` submits, after the sends already
pending, exactly one send of the tag and message to each of the ranks
`0 .. W-2` in increasing order: `W - 1` sends, none of them to rank `W - 1`,
and no other member changes. -/
theorem C13_broadcast_sends {Q : Type} (W : Nat) (nt : NetworkThread Q) (method : Tag)
    (msg : Bytes) :
    (nt.Broadcast W method msg).pending_sends_
      = nt.pending_sends_
          ++ (List.range (W - 1)).map (fun (r : Nat) => (⟨(r : Int), method, msg⟩ : RPCRequest)) ∧
    ((List.range (W - 1)).map (fun (r : Nat) => (⟨(r : Int), method, msg⟩ : RPCRequest))).length
      = W - 1 ∧
    (∀ req ∈ (List.range (W - 1)).map (fun (r : Nat) => (⟨(r : Int), method, msg⟩ : RPCRequest)),
      0 ≤ req.target ∧ req.target < (W : Int) - 1) ∧
    (nt.Broadcast W method msg).response_queue_ = nt.response_queue_ ∧
    (nt.Broadcast W method msg).disk_queue_ = nt.disk_queue_ ∧
    (nt.Broadcast W method msg).request_queue_ = nt.request_queue_ := by
  have hn : ((W : Int) - 1).toNat = W - 1 := by omega
  unfold NetworkThread.Broadcast
  rw [hn, NetworkThread.BroadcastFrom_spec, ← List.range_eq_range']
  refine ⟨rfl, by simp, ?_, rfl, rfl, rfl⟩
  intro req hreq
  simp only [List.mem_map, List.mem_range] at hreq
  obtain ⟨r, hr, rfl⟩ := hreq
  simp only
  omega

/-- What the loop of a wildcard read does over the ranks `i .. i+n-1`. -/
theorem NetworkThread.TryReadFrom_lowest {Q : Type} (nt : NetworkThread Q) (type : Tag)
    (n : Nat) : ∀ i : Nat,
    ((∀ r : Nat, i ≤ r → r < i + n → nt.response_queue_ type r = []) ∧
      nt.TryReadFrom type i n = (none, nt)) ∨
    ∃ (r : Nat) (d : Bytes) (tail : List Bytes), i ≤ r ∧ r < i + n ∧
      (∀ r' : Nat, i ≤ r' → r' < r → nt.response_queue_ type r' = []) ∧
      nt.response_queue_ type r = d :: tail ∧
      nt.TryReadFrom type i n = (some ((r : Int), d), { nt with response_queue_ := fun t x =>
        if t = type ∧ x = (r : Int) then tail else nt.response_queue_ t x }) := by
  induction n with
  | zero =>
    intro i
    left
    exact ⟨fun r h1 h2 => absurd h2 (by omega), rfl⟩
  | succ n ih =>
    intro i
    unfold NetworkThread.TryReadFrom
    rcases NetworkThread.check_queue_spec nt i type with ⟨h, hq⟩ | ⟨d, tail, hq, h⟩
    · rw [h]
      rcases ih (i + 1) with ⟨hall, hres⟩ | ⟨r, d, tail, h1, h2, h3, h4, h5⟩
      · left
        refine ⟨fun r hr1 hr2 => ?_, hres⟩
        by_cases hri : r = i
        · subst hri; exact hq
        · exact hall r (by omega) (by omega)
      · right
        refine ⟨r, d, tail, by omega, by omega, fun r' hr1 hr2 => ?_, h4, h5⟩
        by_cases hri : r' = i
        · subst hri; exact hq
        · exact h3 r' (by omega) hr2
    · right
      rw [h]
      exact ⟨i, d, tail, le_refl _, by omega, fun r' hr1 hr2 => absurd hr2 (by omega), hq, rfl⟩

/-- C14: in a world of `size` ranks, `TryRead` with source `ANY_SOURCE` succeeds
exactly when the response queue of the tag is non-empty for some rank below
`size`; on success it pops the head of the queue of the lowest such rank,
reports that rank and leaves every other queue as it was; on failure nothing
changes. -/
theorem C14_tryread_any {Q : Type} (size : Nat) (nt : NetworkThread Q) (type : Tag) :
    (((nt.TryRead size ANY_SOURCE type).1.isSome = true) ↔
      ∃ r : Nat, r < size ∧ nt.response_queue_ type r ≠ []) ∧
    ((nt.TryRead size ANY_SOURCE type).1 = none →
      (nt.TryRead size ANY_SOURCE type).2 = nt) ∧
    (∀ (s : Int) (d : Bytes), (nt.TryRead size ANY_SOURCE type).1 = some (s, d) →
      ∃ (r : Nat) (tail : List Bytes), s = (r : Int) ∧ r < size ∧
        (∀ r' : Nat, r' < r → nt.response_queue_ type r' = []) ∧
        nt.response_queue_ type r = d :: tail ∧
        (nt.TryRead size ANY_SOURCE type).2
          = { nt with response_queue_ := fun t x =>
                if t = type ∧ x = (r : Int) then tail else nt.response_queue_ t x }) := by
  have hT : nt.TryRead size ANY_SOURCE type = nt.TryReadFrom type 0 size := by
    unfold NetworkThread.TryRead
    rw [if_pos rfl]
  rw [hT]
  rcases NetworkThread.TryReadFrom_lowest nt type size 0 with
    ⟨hall, hres⟩ | ⟨r, d, tail, _, h2, h3, h4, h5⟩
  · rw [hres]
    refine ⟨⟨fun h => by simp at h, fun ⟨r, hr, hne⟩ => ?_⟩, fun _ => rfl,
      fun s d h => by simp at h⟩
    exact absurd (hall r (Nat.zero_le _) (by omega)) hne
  · rw [h5]
    refine ⟨⟨fun _ => ⟨r, by omega, by rw [h4]; simp⟩, fun _ => rfl⟩,
      fun h => by simp at h, fun s d' h => ?_⟩
    simp only [Option.some.injEq, Prod.mk.injEq] at h
    obtain ⟨rfl, rfl⟩ := h
    exact ⟨r, tail, rfl, by omega, fun r' hr' => h3 r' (Nat.zero_le _) hr', h4, rfl⟩

/-- C15: the routing step appends the received payload to the tail of exactly
one queue and leaves the others as they were: the owner's FIFO of the request
queue for `PUT_REQUEST` and `GET_REQUEST`, the disk queue for the two bulk
data tags, and the response queue of the tag and source for every other tag. -/
theorem C15_routing_exactly_one (owner : Bytes → Nat)
    (nt : NetworkThread ASyncRequestQueue) (tag : Tag) (source : Int) (data : Bytes)
    (now1 now2 : Int) :
    ((tag = MTYPE_PUT_REQUEST ∨ tag = MTYPE_GET_REQUEST) →
      (owner data < nt.request_queue_.request_queues_.length →
        (nt.NetworkLoop (ASyncRequestQueue.Enqueue owner) tag source data now1
            now2).request_queue_.request_queues_.getD (owner data) []
          = nt.request_queue_.request_queues_.getD (owner data) [] ++ [⟨tag, data⟩]) ∧
      (∀ i, i ≠ owner data →
        (nt.NetworkLoop (ASyncRequestQueue.Enqueue owner) tag source data now1
            now2).request_queue_.request_queues_.getD i []
          = nt.request_queue_.request_queues_.getD i []) ∧
      (nt.NetworkLoop (ASyncRequestQueue.Enqueue owner) tag source data now1 now2).disk_queue_
        = nt.disk_queue_ ∧
      (nt.NetworkLoop (ASyncRequestQueue.Enqueue owner) tag source data now1
          now2).response_queue_ = nt.response_queue_) ∧
    ((tag = MTYPE_DATA_PUT_REQUEST ∨ tag = MTYPE_DATA_PUT_REQUEST_FINISH) →
      (nt.NetworkLoop (ASyncRequestQueue.Enqueue owner) tag source data now1 now2).disk_queue_
        = nt.disk_queue_ ++ [data] ∧
      (nt.NetworkLoop (ASyncRequestQueue.Enqueue owner) tag source data now1
          now2).request_queue_ = nt.request_queue_ ∧
      (nt.NetworkLoop (ASyncRequestQueue.Enqueue owner) tag source data now1
          now2).response_queue_ = nt.response_queue_) ∧
    (tag.toResponseQueue = true →
      (nt.NetworkLoop (ASyncRequestQueue.Enqueue owner) tag source data now1
          now2).response_queue_ tag source = nt.response_queue_ tag source ++ [data] ∧
      (∀ t s, ¬ (t = tag ∧ s = source) →
        (nt.NetworkLoop (ASyncRequestQueue.Enqueue owner) tag source data now1
            now2).response_queue_ t s = nt.response_queue_ t s) ∧
      (nt.NetworkLoop (ASyncRequestQueue.Enqueue owner) tag source data now1
          now2).request_queue_ = nt.request_queue_ ∧
      (nt.NetworkLoop (ASyncRequestQueue.Enqueue owner) tag source data now1 now2).disk_queue_
        = nt.disk_queue_) ∧
    ((tag = MTYPE_PUT_REQUEST ∨ tag = MTYPE_GET_REQUEST) ∨
      (tag = MTYPE_DATA_PUT_REQUEST ∨ tag = MTYPE_DATA_PUT_REQUEST_FINISH) ∨
      tag.toResponseQueue = true) := by
  refine ⟨fun h => ?_, fun h => ?_, fun h => ?_, ?_⟩
  · have e : (nt.NetworkLoop (ASyncRequestQueue.Enqueue owner) tag source data now1
        now2).request_queue_ = nt.request_queue_.Enqueue owner tag data ∧
        (nt.NetworkLoop (ASyncRequestQueue.Enqueue owner) tag source data now1
          now2).response_queue_ = nt.response_queue_ ∧
        (nt.NetworkLoop (ASyncRequestQueue.Enqueue owner) tag source data now1
          now2).disk_queue_ = nt.disk_queue_ := by
      unfold NetworkThread.NetworkLoop
      simp only [h, if_true]
      split <;> exact ⟨rfl, rfl, rfl⟩
    refine ⟨fun hown => ?_, fun i hi => ?_, e.2.2, e.2.1⟩
    · rw [e.1]
      simp only [ASyncRequestQueue.Enqueue]
      rw [List.getD_eq_getElem _ _ (by rw [List.length_set]; exact hown)]
      simp
    · rw [e.1]
      simp only [ASyncRequestQueue.Enqueue]
      by_cases hlt : i < nt.request_queue_.request_queues_.length
      · rw [List.getD_eq_getElem _ _ (by rw [List.length_set]; exact hlt),
          List.getD_eq_getElem _ _ hlt, List.getElem_set_ne (Ne.symm hi)]
      · rw [List.getD_eq_default _ _ (by rw [List.length_set]; omega),
          List.getD_eq_default _ _ (by omega)]
  · have h1 : ¬ (tag = MTYPE_PUT_REQUEST ∨ tag = MTYPE_GET_REQUEST) := by
      rcases h with h | h <;> subst h <;> decide
    unfold NetworkThread.NetworkLoop
    simp only [h1, h, if_true, if_false]
    split <;> exact ⟨rfl, rfl, rfl⟩
  · have h1 : ¬ (tag = MTYPE_PUT_REQUEST ∨ tag = MTYPE_GET_REQUEST) := by
      intro hh; rcases hh with hh | hh <;> subst hh <;> exact absurd h (by decide)
    have h2 : ¬ (tag = MTYPE_DATA_PUT_REQUEST ∨ tag = MTYPE_DATA_PUT_REQUEST_FINISH) := by
      intro hh; rcases hh with hh | hh <;> subst hh <;> exact absurd h (by decide)
    refine ⟨?_, fun t s hts => ?_, ?_, ?_⟩
    · rw [NetworkThread.NetworkLoop_response]; simp [h]
    · rw [NetworkThread.NetworkLoop_response]
      rw [if_neg (fun hh => hts ⟨hh.1.symm, hh.2.1.symm⟩)]
    · unfold NetworkThread.NetworkLoop
      simp only [h1, h2, if_false]
      split <;> rfl
    · unfold NetworkThread.NetworkLoop
      simp only [h1, h2, if_false]
      split <;> rfl
  · cases tag <;> simp [Tag.toResponseQueue]

/-! ## Typed disk table -/

/-- C20 (code at the failing input): with the key marshaller `plainMarshal` and
the value marshaller `shiftedMarshal`, `put(5, 7)` hands `put_str` the key
serialised with the value marshaller, not with the key marshaller; decoding
that key string with the key marshaller gives 6, while `get`, which also uses
the value marshaller for the key, gives back `(5, 7)`. -/
theorem C20_put_key_uses_value_marshaller :
    (TypedDiskTable.put exampleDescriptor 5 7).1
      = exampleDescriptor.value_marshal.marshal 5 ∧
    (TypedDiskTable.put exampleDescriptor 5 7).1
      ≠ exampleDescriptor.key_marshal.marshal 5 ∧
    (TypedDiskTable.put exampleDescriptor 5 7).2
      = exampleDescriptor.value_marshal.marshal 7 ∧
    exampleDescriptor.key_marshal.unmarshal (TypedDiskTable.put exampleDescriptor 5 7).1 = 6 ∧
    exampleDescriptor.key_marshal.unmarshal (exampleDescriptor.key_marshal.marshal 5) = 5 ∧
    exampleDescriptor.value_marshal.unmarshal (exampleDescriptor.value_marshal.marshal 7) = 7 ∧
    TypedDiskTable.get exampleDescriptor (TypedDiskTable.put exampleDescriptor 5 7).1
      (TypedDiskTable.put exampleDescriptor 5 7).2 = (5, 7) := by
  decide

/-! ## Model controller -/

theorem collect_spec {α : Type} (addr : List α) (k : Nat) :
    ∀ (cur : Nat) (msg : List α),
      collect addr addr.length k (cur, msg)
        = (cur + min k (addr.length - cur), msg ++ (addr.drop cur).take k) := by
  induction k with
  | zero => intro cur msg; simp [collect]
  | succ k ih =>
    intro cur msg
    unfold collect
    by_cases h : cur ≥ addr.length
    · rw [if_pos h]
      have h0 : addr.length - cur = 0 := by omega
      simp [h0, List.drop_eq_nil_of_le h]
    · rw [if_neg h]
      have hlt : cur < addr.length := by omega
      rw [List.getElem?_eq_getElem hlt]
      simp only
      rw [ih]
      have hd : addr.drop cur = addr[cur] :: addr.drop (cur + 1) := List.drop_eq_getElem_cons hlt
      rw [hd, List.take_succ_cons]
      simp only [List.append_assoc, List.singleton_append, Prod.mk.injEq, and_true]
      omega

theorem splitLoop_keys {α : Type} (paramid : Int) (addr : List α) (L O n : Nat) :
    ∀ (j cur : Nat),
      (splitLoop paramid addr L O n j cur).map Prod.fst
        = (List.range' j n).map (mykey paramid) := by
  induction n with
  | zero => intro j cur; rfl
  | succ n ih =>
    intro j cur
    simp only [splitLoop, List.map_cons, List.range'_succ, ih]

theorem splitLoop_concat {α : Type} (paramid : Int) (addr : List α) (O n : Nat) :
    ∀ (j cur : Nat),
      ((splitLoop paramid addr addr.length O n j cur).map Prod.snd).flatten
        = (addr.drop cur).take (n * O) := by
  induction n with
  | zero => intro j cur; simp [splitLoop]
  | succ n ih =>
    intro j cur
    simp only [splitLoop, List.map_cons, List.flatten_cons, collect_spec, List.nil_append, ih]
    by_cases h : O ≤ addr.length - cur
    · rw [Nat.min_eq_left h, Nat.succ_mul, Nat.add_comm (n * O) O, List.take_add,
        List.drop_drop]
    · have hlen : (addr.drop cur).length ≤ O := by rw [List.length_drop]; omega
      have h1 : min O (addr.length - cur) = addr.length - cur := by omega
      have hlen2 : (addr.drop cur).length ≤ (n + 1) * O := by
        rw [Nat.succ_mul]; omega
      have hnil : addr.drop (cur + (addr.length - cur)) = [] :=
        List.drop_eq_nil_of_le (by omega)
      rw [h1, List.take_of_length_le hlen, List.take_of_length_le hlen2, hnil]
      simp

theorem split_spec (ns L : Nat) (hns : 1 ≤ ns) (hns2 : 2 * ns < 2147483648)
    (hL : L < 2147483648) :
    ∃ S O : Nat, ModelController.split ns L = some ((S : Int), (O : Int)) ∧
      0 < S ∧ S < 2147483648 ∧ L ≤ S * O ∧
      (S = 2 * ns ∨ (O = 1000000 ∧ S = L / 1000000 + 1)) := by
  have hS : toInt32 ((ns : Int) * split_size_) = ((2 * ns : Nat) : Int) := by
    have e : (ns : Int) * split_size_ = ((2 * ns : Nat) : Int) := by
      simp only [split_size_]; push_cast; ring
    rw [e]
    exact toInt32_natCast (2 * ns) hns2
  have hq : Int.tdiv (L : Int) ((2 * ns : Nat) : Int) = ((L / (2 * ns) : Nat) : Int) :=
    (Int.ofNat_tdiv L (2 * ns)).symm
  have hr : Int.tmod (L : Int) ((2 * ns : Nat) : Int) = ((L % (2 * ns) : Nat) : Int) :=
    (Int.ofNat_tmod L (2 * ns)).symm
  have hq2 : Int.tdiv (L : Int) 1000000 = ((L / 1000000 : Nat) : Int) :=
    (Int.ofNat_tdiv L 1000000).symm
  have hqle : L / (2 * ns) ≤ L / 2 := Nat.div_le_div_left (by omega) (by decide)
  have hdm := Nat.div_add_mod L (2 * ns)
  have hml : L % (2 * ns) < 2 * ns := Nat.mod_lt _ (by omega)
  have hinc : toInt32 (((L / (2 * ns) : Nat) : Int) + 1) = ((L / (2 * ns) + 1 : Nat) : Int) := by
    have := toInt32_natCast (L / (2 * ns) + 1) (by omega)
    rw [← this]; push_cast; rfl
  unfold ModelController.split
  simp only [hS, hq, hr, hq2, hinc]
  rw [if_neg (by omega)]
  by_cases hmod : L % (2 * ns) = 0
  · have hz : ¬ (((L % (2 * ns) : Nat) : Int) ≠ 0) := by simp [hmod]
    simp only [hz, if_false]
    by_cases hbig : ((L / (2 * ns) : Nat) : Int) > 1000000
    · rw [if_pos hbig]
      refine ⟨L / 1000000 + 1, 1000000, by push_cast; rfl, by omega, by omega, ?_, Or.inr ⟨rfl, rfl⟩⟩
      have := Nat.lt_div_mul_add (a := L) (b := 1000000) (by decide)
      rw [Nat.add_mul]; omega
    · rw [if_neg hbig]
      refine ⟨2 * ns, L / (2 * ns), rfl, by omega, hns2, ?_, Or.inl rfl⟩
      rw [hmod] at hdm; omega
  · have hz : (((L % (2 * ns) : Nat) : Int) ≠ 0) := by
      intro h; exact hmod (by exact_mod_cast h)
    rw [if_pos hz]
    by_cases hbig : ((L / (2 * ns) + 1 : Nat) : Int) > 1000000
    · rw [if_pos hbig]
      refine ⟨L / 1000000 + 1, 1000000, by push_cast; rfl, by omega, by omega, ?_, Or.inr ⟨rfl, rfl⟩⟩
      have := Nat.lt_div_mul_add (a := L) (b := 1000000) (by decide)
      rw [Nat.add_mul]; omega
    · rw [if_neg hbig]
      refine ⟨2 * ns, L / (2 * ns) + 1, rfl, by omega, hns2, ?_, Or.inl rfl⟩
      rw [Nat.mul_add]; omega

theorem mykey_inj (paramid : Int) (j1 j2 : Nat) (h1 : j1 < 4294967296) (h2 : j2 < 4294967296)
    (h : mykey paramid j1 = mykey paramid j2) : j1 = j2 := by
  unfold mykey toInt32 at h
  simp only at h
  split_ifs at h <;> omega

theorem ParamTable.putAll_other {α : Type} (calls : List (Int × List α)) :
    ∀ (t : ParamTable α) (k : Int), k ∉ calls.map Prod.fst → (t.putAll calls) k = t k := by
  induction calls with
  | nil => intro t k _; rfl
  | cons c calls ih =>
    intro t k hk
    simp only [List.map_cons, List.mem_cons, not_or] at hk
    simp only [ParamTable.putAll, List.foldl_cons] at ih ⊢
    rw [ih _ k hk.2]
    simp [ParamTable.put, hk.1]

theorem ParamTable.putAll_lookup {α : Type} (calls : List (Int × List α)) :
    ∀ (t : ParamTable α), (calls.map Prod.fst).Nodup →
      ∀ k v, (k, v) ∈ calls → (t.putAll calls) k = some v := by
  induction calls with
  | nil => intro t _ k v h; simp at h
  | cons c calls ih =>
    intro t hnd k v hmem
    simp only [List.map_cons, List.nodup_cons] at hnd
    rcases List.mem_cons.mp hmem with h | h
    · subst h
      have := ParamTable.putAll_other calls (t.put k v) k hnd.1
      simp only [ParamTable.putAll, List.foldl_cons] at this ⊢
      rw [this]
      simp [ParamTable.put]
    · have := ih (t.put c.1 c.2) hnd.2 k v h
      simp only [ParamTable.putAll, List.foldl_cons] at this ⊢
      exact this

theorem fill_spec {α : Type} (msg content : List α) (L : Nat) (hcl : content.length = L)
    (n : Nat) : ∀ (k cur : Nat) (buf : List α), buf.length = L →
    (∀ i, i < n → cur + i < L → msg[k + i]? = content[cur + i]?) →
    ∃ c', fill msg L n k (cur, buf) = some (cur + min n (L - cur), c') ∧ c'.length = L ∧
      ∀ i, c'[i]? = if cur ≤ i ∧ i < cur + min n (L - cur) then content[i]? else buf[i]? := by
  induction n with
  | zero =>
    intro k cur buf hc _
    exact ⟨buf, by simp [fill], hc, fun i => by
      rw [if_neg (by omega)]⟩
  | succ n ih =>
    intro k cur buf hc hm
    unfold fill
    by_cases h : cur ≥ L
    · rw [if_pos h]
      have h0 : L - cur = 0 := by omega
      exact ⟨buf, by simp [h0], hc, fun i => by
        rw [if_neg (by omega)]⟩
    · rw [if_neg h]
      have hlt : cur < L := by omega
      have h0 := hm 0 (Nat.succ_pos n) (by omega)
      simp only [Nat.add_zero] at h0
      rw [h0, List.getElem?_eq_getElem (by omega : cur < content.length)]
      simp only
      obtain ⟨c', e, hl, hget⟩ := ih (k + 1) (cur + 1) (buf.set cur content[cur])
        (by rw [List.length_set]; exact hc)
        (fun i hi hci => by
          have := hm (i + 1) (by omega) (by omega)
          rw [show k + 1 + i = k + (i + 1) by omega, show cur + 1 + i = cur + (i + 1) by omega]
          exact this)
      refine ⟨c', ?_, hl, fun i => ?_⟩
      · rw [e]
        congr 2
        omega
      · rw [hget i]
        by_cases hi : i = cur
        · subst hi
          have h1 : ¬ (i + 1 ≤ i ∧ i < i + 1 + min n (L - (i + 1))) := by omega
          have h2 : i ≤ i ∧ i < i + min (n + 1) (L - i) := by omega
          rw [if_neg h1, if_pos h2, List.getElem?_set]
          simp only [if_true]
          rw [if_pos (by omega), List.getElem?_eq_getElem (by omega : i < content.length)]
        · rw [List.getElem?_set, if_neg (Ne.symm hi)]
          by_cases hin : cur + 1 ≤ i ∧ i < cur + 1 + min n (L - (cur + 1))
          · rw [if_pos hin, if_pos (by omega)]
          · rw [if_neg hin, if_neg (by omega)]

theorem getLoop_spec {α : Type} (table : ParamTable α) (paramid : Int) (content : List α)
    (O n : Nat) : ∀ (j cur : Nat) (keys : List Int) (buf : List α),
    buf.length = content.length →
    (∀ k v, (k, v) ∈ splitLoop paramid content content.length O n j cur → table k = some v) →
    ∃ c', getLoop table paramid content.length O n j cur (keys, buf)
        = some (keys ++ (List.range' j n).map (mykey paramid), c') ∧
      c'.length = content.length ∧
      ∀ i, c'[i]? = if cur ≤ i ∧ i < cur + n * O then content[i]? else buf[i]? := by
  induction n with
  | zero =>
    intro j cur keys buf hb _
    exact ⟨buf, by simp [getLoop], hb, fun i => by rw [if_neg (by omega)]⟩
  | succ n ih =>
    intro j cur keys buf hb htab
    have hmsg : (collect content content.length O (cur, [])) =
        (cur + min O (content.length - cur), (content.drop cur).take O) := by
      rw [collect_spec]; simp
    have hsl : splitLoop paramid content content.length O (n + 1) j cur
        = (mykey paramid j, (content.drop cur).take O)
            :: splitLoop paramid content content.length O n (j + 1)
                 (cur + min O (content.length - cur)) := by
      simp only [splitLoop, hmsg]
    rw [hsl] at htab
    have ht := htab (mykey paramid j) ((content.drop cur).take O) (List.mem_cons_self _ _)
    obtain ⟨c1, e1, hl1, hg1⟩ := fill_spec ((content.drop cur).take O) content content.length
      rfl O 0 cur buf hb (fun i hi _ => by
        rw [Nat.zero_add, List.getElem?_take, if_pos hi, List.getElem?_drop])
    obtain ⟨c2, e2, hl2, hg2⟩ := ih (j + 1) (cur + min O (content.length - cur))
      (keys ++ [mykey paramid j]) c1 hl1
      (fun k v hkv => htab k v (List.mem_cons_of_mem _ hkv))
    refine ⟨c2, ?_, hl2, fun i => ?_⟩
    · unfold getLoop
      simp only [ht, e1, e2, List.range'_succ, List.map_cons, List.append_assoc,
        List.singleton_append]
    · rw [hg2 i, hg1 i]
      by_cases hi : i < content.length
      · rw [Nat.succ_mul]
        by_cases hA : cur ≤ i ∧ i < cur + (n * O + O)
        · rw [if_pos hA]
          by_cases hB : cur + min O (content.length - cur) ≤ i ∧
              i < cur + min O (content.length - cur) + n * O
          · rw [if_pos hB]
          · rw [if_neg hB, if_pos (by omega)]
        · rw [if_neg hA, if_neg (by omega), if_neg (by omega)]
      · have hcn : content[i]? = none := List.getElem?_eq_none (by omega)
        have hbn : buf[i]? = none := List.getElem?_eq_none (by omega)
        simp only [hcn, hbn, ite_self]

theorem mykey_nodup (paramid : Int) (S : Nat) (hS : S < 2147483648) :
    ((List.range' 0 S).map (mykey paramid)).Nodup := by
  apply List.Nodup.map_on
  · intro a ha b hb hab
    rw [List.mem_range'_1] at ha hb
    exact mykey_inj paramid a b (by omega) (by omega) hab
  · exact List.nodup_range' 0 S

theorem ModelController.PutParam_eq {α : Type} (ns : Int) (param : Param α) (S O : Nat)
    (h : ModelController.split ns param.content.length = some ((S : Int), (O : Int))) :
    ModelController.PutParam ns param
      = some (splitLoop param.id param.content param.content.length O S 0 0) := by
  unfold ModelController.PutParam
  rw [h]
  rfl

theorem ModelController.GetParam_eq {α : Type} (ns : Int) (table : ParamTable α)
    (param : Param α) (S O : Nat)
    (h : ModelController.split ns param.content.length = some ((S : Int), (O : Int))) :
    ModelController.GetParam ns table param
      = getLoop table param.id param.content.length O S 0 0 ([], param.content) := by
  unfold ModelController.GetParam
  rw [h]
  rfl

/-- C18: for a parameter of `L` elements (an `int`) and `ns >= 1` table servers
(`2 * ns` an `int`), the messages `Put` stores under the keys
`paramid*2048 + j`, `j = 0 .. splitsize-1`, concatenated in the order of `j`,
are the parameter's content, and `Get` on a key-value table that received those
`put` calls, for a parameter of the same id and length, requests the same
keys and restores the content exactly. -/
theorem C18_put_get_roundtrip {α : Type} (ns : Nat) (param param' : Param α)
    (t : ParamTable α) (hns : 1 ≤ ns) (hns2 : 2 * ns < 2147483648)
    (hL : param.content.length < 2147483648)
    (hid : param'.id = param.id) (hlen : param'.content.length = param.content.length) :
    ∃ (S O : Nat) (calls : List (Int × List α)),
      ModelController.split ns param.content.length = some ((S : Int), (O : Int)) ∧
      ModelController.PutParam ns param = some calls ∧
      ModelController.Put false ns [param] = some calls ∧
      calls.map Prod.fst = (List.range S).map (mykey param.id) ∧
      (calls.map Prod.snd).flatten = param.content ∧
      ModelController.GetParam ns (t.putAll calls) param'
        = some ((List.range S).map (mykey param.id), param.content) := by
  obtain ⟨S, O, hsplit, hS0, hS, hSO, _⟩ := split_spec ns param.content.length hns hns2 hL
  have hput : ModelController.PutParam ns param
      = some (splitLoop param.id param.content param.content.length O S 0 0) :=
    ModelController.PutParam_eq ns param S O hsplit
  have hkeys := splitLoop_keys param.id param.content param.content.length O S 0 0
  have hcat := splitLoop_concat param.id param.content O S 0 0
  rw [List.drop_zero, List.take_of_length_le hSO] at hcat
  have hnd : ((splitLoop param.id param.content param.content.length O S 0 0).map
      Prod.fst).Nodup := by
    rw [hkeys]; exact mykey_nodup param.id S hS
  obtain ⟨c', e, hl, hg⟩ := getLoop_spec
    (t.putAll (splitLoop param.id param.content param.content.length O S 0 0))
    param.id param.content O S 0 0 [] param'.content hlen
    (fun k v hkv => ParamTable.putAll_lookup _ t hnd k v hkv)
  have hc' : c' = param.content := by
    apply List.ext_getElem?
    intro i
    rw [hg i]
    by_cases hi : i < param.content.length
    · rw [if_pos (by omega)]
    · have hcn : param.content[i]? = none := List.getElem?_eq_none (by omega)
      have hbn : param'.content[i]? = none := List.getElem?_eq_none (by omega)
      simp only [hcn, hbn, ite_self]
  refine ⟨S, O, _, hsplit, hput, ?_, ?_, hcat, ?_⟩
  · have hnil : ModelController.Put false (ns : Int) ([] : List (Param α)) = some [] := rfl
    rw [ModelController.Put, if_neg (by decide), hput, hnil]
    simp only [List.append_nil]
  · rw [hkeys, List.range_eq_range']
  · rw [ModelController.GetParam_eq ns _ param' S O (by rw [hlen]; exact hsplit), hlen, hid,
      e, hc', List.nil_append, List.range_eq_range']

/-- C18 witness: five elements, two table servers, parameter id 3. -/
theorem C18_put_get_roundtrip_witness :
    ∃ (S O : Nat) (calls : List (Int × List Nat)),
      ModelController.split (2 : Nat) (Param.mk 3 [10, 11, 12, 13, 14] []).content.length
        = some ((S : Int), (O : Int)) ∧
      ModelController.PutParam (2 : Nat) (Param.mk 3 [10, 11, 12, 13, 14] []) = some calls ∧
      ModelController.Put false (2 : Nat) [Param.mk 3 [10, 11, 12, 13, 14] []] = some calls ∧
      calls.map Prod.fst = (List.range S).map (mykey (Param.mk 3 [10, 11, 12, 13, 14] []).id) ∧
      (calls.map Prod.snd).flatten = (Param.mk 3 [10, 11, 12, 13, 14] []).content ∧
      ModelController.GetParam (2 : Nat) (ParamTable.putAll (fun _ => none) calls)
          (Param.mk 3 [0, 0, 0, 0, 0] [])
        = some ((List.range S).map (mykey (Param.mk 3 [10, 11, 12, 13, 14] []).id),
                (Param.mk 3 [10, 11, 12, 13, 14] []).content) :=
  C18_put_get_roundtrip 2 ⟨3, [10, 11, 12, 13, 14], []⟩ ⟨3, [0, 0, 0, 0, 0], []⟩
    (fun _ => none) (by decide) (by decide) (by decide) rfl rfl

theorem ModelController.UpdateParam_eq {α : Type} (ns : Int) (param : Param α) (S O : Nat)
    (h : ModelController.split ns param.content.length = some ((S : Int), (O : Int))) :
    ModelController.UpdateParam ns param
      = some (splitLoop param.id param.gradient param.content.length O S 0 0) := by
  unfold ModelController.UpdateParam
  rw [h]
  rfl

theorem getLoop_keys {α : Type} (table : ParamTable α) (paramid : Int) (L O n : Nat) :
    ∀ (j cur : Nat) (keys : List Int) (buf : List α) (r : List Int × List α),
      getLoop table paramid L O n j cur (keys, buf) = some r →
      r.1 = keys ++ (List.range' j n).map (mykey paramid) := by
  induction n with
  | zero =>
    intro j cur keys buf r h
    simp only [getLoop, Option.some.injEq] at h
    rw [← h]; simp
  | succ n ih =>
    intro j cur keys buf r h
    unfold getLoop at h
    cases ht : table (mykey paramid j) with
    | none => rw [ht] at h; simp at h
    | some msg =>
      rw [ht] at h
      simp only at h
      cases hf : fill msg L O 0 (cur, buf) with
      | none => rw [hf] at h; simp at h
      | some st =>
        obtain ⟨cur1, buf1⟩ := st
        rw [hf] at h
        simp only at h
        rw [ih (j + 1) cur1 _ buf1 r h]
        simp [List.range'_succ]

theorem mykey_disjoint (id1 id2 : Int) (j1 j2 : Nat) (hne : id1 ≠ id2)
    (h1 : -1048576 ≤ id1 ∧ id1 ≤ 1048575) (h2 : -1048576 ≤ id2 ∧ id2 ≤ 1048575)
    (hj1 : j1 < 2048) (hj2 : j2 < 2048) : mykey id1 j1 ≠ mykey id2 j2 := by
  intro h
  unfold mykey toInt32 at h
  simp only at h
  split_ifs at h <;> omega

/-- C19 (amended): for two parameters with distinct ids, both ids between
`-2^20` and `2^20 - 1` (so that `paramid*2048 + j` does not overflow) and both
split sizes at most 2048 (the bound the code checks), `Put`, `Update` and `Get`
use for each parameter exactly the keys `paramid*2048 + j`, `j = 0 ..
splitsize-1`, and the keys of the two parameters are disjoint. -/
theorem C19_keys_disjoint {α : Type} (ns : Int) (p1 p2 : Param α) (S1 O1 S2 O2 : Nat)
    (hs1 : ModelController.split ns p1.content.length = some ((S1 : Int), (O1 : Int)))
    (hs2 : ModelController.split ns p2.content.length = some ((S2 : Int), (O2 : Int)))
    (hS1 : S1 ≤ 2048) (hS2 : S2 ≤ 2048) (hne : p1.id ≠ p2.id)
    (hid1 : -1048576 ≤ p1.id ∧ p1.id ≤ 1048575)
    (hid2 : -1048576 ≤ p2.id ∧ p2.id ≤ 1048575) :
    (∀ p S O, (p = p1 ∧ S = S1 ∧ O = O1) ∨ (p = p2 ∧ S = S2 ∧ O = O2) →
      (∃ calls, ModelController.PutParam ns p = some calls ∧
        calls.map Prod.fst = (List.range S).map (mykey p.id)) ∧
      (∃ calls, ModelController.UpdateParam ns p = some calls ∧
        calls.map Prod.fst = (List.range S).map (mykey p.id)) ∧
      (∀ (table : ParamTable α) (r : List Int × List α),
        ModelController.GetParam ns table p = some r →
        r.1 = (List.range S).map (mykey p.id))) ∧
    (∀ k, k ∈ (List.range S1).map (mykey p1.id) → k ∉ (List.range S2).map (mykey p2.id)) := by
  constructor
  · intro p S O hp
    have hs : ModelController.split ns p.content.length = some ((S : Int), (O : Int)) := by
      rcases hp with ⟨rfl, rfl, rfl⟩ | ⟨rfl, rfl, rfl⟩
      · exact hs1
      · exact hs2
    refine ⟨⟨_, ModelController.PutParam_eq ns p S O hs, ?_⟩,
      ⟨_, ModelController.UpdateParam_eq ns p S O hs, ?_⟩, fun table r hr => ?_⟩
    · rw [splitLoop_keys, List.range_eq_range']
    · rw [splitLoop_keys, List.range_eq_range']
    · rw [ModelController.GetParam_eq ns table p S O hs] at hr
      rw [getLoop_keys table p.id _ O S 0 0 [] p.content r hr, List.nil_append,
        List.range_eq_range']
  · intro k hk1 hk2
    simp only [List.mem_map, List.mem_range] at hk1 hk2
    obtain ⟨j1, hj1, rfl⟩ := hk1
    obtain ⟨j2, hj2, h⟩ := hk2
    exact mykey_disjoint p1.id p2.id j1 j2 hne hid1 hid2 (by omega) (by omega) h.symm

/-- C19 witness: parameters 3 and 4 of five and two elements on two table
servers; parameter 3 is put under its four keys, and its first key 6144 is not
a key of parameter 4. -/
theorem C19_keys_disjoint_witness :
    (∃ calls, ModelController.PutParam 2 (Param.mk 3 [10, 11, 12, 13, 14] ([] : List Nat))
        = some calls ∧
      calls.map Prod.fst
        = (List.range 4).map (mykey (Param.mk 3 [10, 11, 12, 13, 14] ([] : List Nat)).id)) ∧
    (6144 : Int) ∉ (List.range 4).map (mykey (Param.mk 4 [20, 21] ([] : List Nat)).id) :=
  ⟨((C19_keys_disjoint 2 ⟨3, [10, 11, 12, 13, 14], []⟩ ⟨4, [20, 21], []⟩ 4 2 4 1
      (by decide) (by decide) (by decide) (by decide) (by decide) (by decide) (by decide)).1
      ⟨3, [10, 11, 12, 13, 14], []⟩ 4 2 (Or.inl ⟨rfl, rfl, rfl⟩)).1,
    (C19_keys_disjoint 2 ⟨3, [10, 11, 12, 13, 14], []⟩ ⟨4, [20, 21], []⟩ 4 2 4 1
      (by decide) (by decide) (by decide) (by decide) (by decide) (by decide) (by decide)).2
      6144 (by decide)⟩

/-- C19 counterexample: with 1025 table servers the split size is 2050, and the
key 2048 is used both for parameter 0 (as `0*2048 + 2048`) and for parameter 1
(as `1*2048 + 0`). -/
theorem C19_key_collision_counterexample :
    ModelController.split 1025 (Param.mk 0 [7] ([] : List Nat)).content.length
      = some (2050, 1) ∧
    ∃ c0 c1, ModelController.PutParam 1025 (Param.mk 0 [7] ([] : List Nat)) = some c0 ∧
      ModelController.PutParam 1025 (Param.mk 1 [7] ([] : List Nat)) = some c1 ∧
      (2048 : Int) ∈ c0.map Prod.fst ∧ (2048 : Int) ∈ c1.map Prod.fst := by
  have hs : ModelController.split 1025 (Param.mk 0 [7] ([] : List Nat)).content.length
      = some (((2050 : Nat) : Int), ((1 : Nat) : Int)) := by decide
  refine ⟨hs, _, _, ModelController.PutParam_eq 1025 ⟨0, [7], []⟩ 2050 1 hs,
    ModelController.PutParam_eq 1025 ⟨1, [7], []⟩ 2050 1 hs, ?_, ?_⟩
  · rw [splitLoop_keys]
    exact List.mem_map.mpr ⟨2048, List.mem_range'_1.mpr ⟨by omega, by omega⟩, by decide⟩
  · rw [splitLoop_keys]
    exact List.mem_map.mpr ⟨0, List.mem_range'_1.mpr ⟨by omega, by omega⟩, by decide⟩

/-! ## Layer graph -/

theorem buildAdjacent_spec {L : Type} [DecidableEq L] (out : L → List L) (layers : List L) :
    ∀ (m : L → Option (List L)), layers.Nodup → (∀ x ∈ layers, m x = none) →
      ∀ l, buildAdjacent out layers m l = if l ∈ layers then some (out l) else m l := by
  induction layers with
  | nil => intro m _ _ l; simp [buildAdjacent]
  | cons a layers ih =>
    intro m hnd hm l
    rw [List.nodup_cons] at hnd
    rw [buildAdjacent, ih _ hnd.2 (fun x hx => by
      have hxa : x ≠ a := fun h => hnd.1 (h ▸ hx)
      simp only [hxa, if_false]
      exact hm x (List.mem_cons_of_mem _ hx))]
    by_cases hl : l ∈ layers
    · simp [hl]
    · by_cases hla : l = a
      · subst hla
        simp [hl, hm l (List.mem_cons_self _ _)]
      · simp [hl, hla]

theorem countP_lt_of_witness {L : Type} (p q : L → Bool) (l : L) :
    ∀ (U : List L), (∀ x ∈ U, p x = true → q x = true) → l ∈ U → q l = true → p l = false →
      U.countP p < U.countP q := by
  intro U
  induction U with
  | nil => intro _ h; simp at h
  | cons a U ih =>
    intro hpq hl hq hp
    have hmono : U.countP p ≤ U.countP q :=
      List.countP_mono_left (fun x hx => hpq x (List.mem_cons_of_mem _ hx))
    rcases List.mem_cons.mp hl with h | h
    · subst h
      rw [List.countP_cons_of_pos _ _ hq, List.countP_cons_of_neg _ _ (by simp [hp])]
      omega
    · have := ih (fun x hx => hpq x (List.mem_cons_of_mem _ hx)) h hq hp
      by_cases hpa : p a = true
      · rw [List.countP_cons_of_pos _ _ hpa,
          List.countP_cons_of_pos _ _ (hpq a (List.mem_cons_self _ _) hpa)]
        omega
      · rw [List.countP_cons_of_neg _ _ hpa]
        by_cases hqa : q a = true
        · rw [List.countP_cons_of_pos _ _ hqa]; omega
        · rw [List.countP_cons_of_neg _ _ hqa]; exact this

theorem unvisited_mono {L : Type} [DecidableEq L] (U vis vis' : List L)
    (h : ∀ x, x ∈ vis → x ∈ vis') : unvisited U vis' ≤ unvisited U vis := by
  unfold unvisited
  apply List.countP_mono_left
  intro x _ hx
  simp only [decide_eq_true_eq] at hx ⊢
  exact fun hh => hx (h x hh)

theorem unvisited_cons_lt {L : Type} [DecidableEq L] (U vis : List L) (l : L)
    (hl : l ∈ U) (hv : l ∉ vis) : unvisited U (l :: vis) < unvisited U vis := by
  unfold unvisited
  apply countP_lt_of_witness _ _ l U
  · intro x _ hx
    simp only [decide_eq_true_eq, List.mem_cons, not_or] at hx ⊢
    exact hx.2
  · exact hl
  · simpa using hv
  · simp

/-- The loop over a list of layers returns when every call it makes does, and
pushes each newly visited layer exactly once. -/
theorem visitAll_total {L : Type} [DecidableEq L] (U : List L)
    (visit : L → SortState L → Option (SortState L)) (fuel : Nat)
    (hvisit : ∀ l st, l ∈ U → l ∉ st.visited → unvisited U st.visited ≤ fuel →
      ∃ new vis', visit l st = some ⟨vis', new ++ st.stack⟩ ∧
        (∀ x, x ∈ vis' ↔ x ∈ new ∨ x ∈ st.visited) ∧ new.Nodup ∧
        (∀ x ∈ new, x ∈ U ∧ x ∉ st.visited) ∧ l ∈ new)
    (ls : List L) :
    ∀ st : SortState L, (∀ b ∈ ls, b ∈ U) → unvisited U st.visited ≤ fuel →
      ∃ new vis', visitAll visit ls st = some ⟨vis', new ++ st.stack⟩ ∧
        (∀ x, x ∈ vis' ↔ x ∈ new ∨ x ∈ st.visited) ∧ new.Nodup ∧
        (∀ x ∈ new, x ∈ U ∧ x ∉ st.visited) ∧ (∀ b ∈ ls, b ∈ vis') := by
  induction ls with
  | nil =>
    intro st _ _
    exact ⟨[], st.visited, rfl, fun x => by simp, List.nodup_nil, fun x hx => by simp at hx,
      fun b hb => by simp at hb⟩
  | cons b ls ih =>
    intro st hU hfuel
    have hUls : ∀ x ∈ ls, x ∈ U := fun x hx => hU x (List.mem_cons_of_mem _ hx)
    by_cases hb : b ∈ st.visited
    · obtain ⟨new, vis', e, hv, hnd, hnew, hall⟩ := ih st hUls hfuel
      refine ⟨new, vis', ?_, hv, hnd, hnew, fun x hx => ?_⟩
      · rw [visitAll, if_pos hb, e]
      · rcases List.mem_cons.mp hx with h | h
        · subst h; exact (hv x).mpr (Or.inr hb)
        · exact hall x h
    · obtain ⟨new1, vis1, e1, hv1, hnd1, hnew1, hb1⟩ :=
        hvisit b st (hU b (List.mem_cons_self _ _)) hb hfuel
      have hmono : unvisited U vis1 ≤ fuel :=
        le_trans (unvisited_mono U st.visited vis1 (fun x hx => (hv1 x).mpr (Or.inr hx))) hfuel
      obtain ⟨new2, vis2, e2, hv2, hnd2, hnew2, hall2⟩ :=
        ih ⟨vis1, new1 ++ st.stack⟩ hUls hmono
      refine ⟨new2 ++ new1, vis2, ?_, fun x => ?_, ?_, fun x hx => ?_, fun x hx => ?_⟩
      · rw [visitAll, if_neg hb, e1]
        simp only [e2, List.append_assoc]
      · rw [hv2 x]
        simp only [hv1 x, List.mem_append]
        tauto
      · rw [List.nodup_append]
        refine ⟨hnd2, hnd1, fun x hx2 hx1 => ?_⟩
        exact (hnew2 x hx2).2 ((hv1 x).mpr (Or.inl hx1))
      · rcases List.mem_append.mp hx with h | h
        · exact ⟨(hnew2 x h).1, fun hh => (hnew2 x h).2 ((hv1 x).mpr (Or.inr hh))⟩
        · exact hnew1 x h
      · rcases List.mem_cons.mp hx with h | h
        · subst h
          exact (hv2 x).mpr (Or.inr ((hv1 x).mpr (Or.inl hb1)))
        · exact hall2 x h

/-- The recursive visit returns within a depth equal to the number of layers
not yet visited. -/
theorem topology_sort_inner_total {L : Type} [DecidableEq L] (U : List L) (out : L → List L)
    (adj : L → Option (List L)) (hadj : ∀ l ∈ U, adj l = some (out l))
    (hclosed : ∀ a ∈ U, ∀ b ∈ out a, b ∈ U) (fuel : Nat) :
    ∀ l st, l ∈ U → l ∉ st.visited → unvisited U st.visited ≤ fuel →
      ∃ new vis', topology_sort_inner adj fuel l st = some ⟨vis', new ++ st.stack⟩ ∧
        (∀ x, x ∈ vis' ↔ x ∈ new ∨ x ∈ st.visited) ∧ new.Nodup ∧
        (∀ x ∈ new, x ∈ U ∧ x ∉ st.visited) ∧ l ∈ new := by
  induction fuel with
  | zero =>
    intro l st hl hv hf
    have := unvisited_cons_lt U st.visited l hl hv
    omega
  | succ fuel ih =>
    intro l st hl hv hf
    have hlt := unvisited_cons_lt U st.visited l hl hv
    obtain ⟨new, vis', e, hvis, hnd, hnew, _⟩ :=
      visitAll_total U (topology_sort_inner adj fuel) fuel ih (out l)
        ⟨l :: st.visited, st.stack⟩ (hclosed l hl) (by simp only; omega)
    refine ⟨l :: new, vis', ?_, fun x => ?_, ?_, fun x hx => ?_, List.mem_cons_self _ _⟩
    · rw [topology_sort_inner, hadj l hl]
      simp only [e, List.cons_append]
    · rw [hvis x]
      simp only [List.mem_cons]
      tauto
    · rw [List.nodup_cons]
      exact ⟨fun h => (hnew l h).2 (List.mem_cons_self _ _), hnd⟩
    · rcases List.mem_cons.mp hx with h | h
      · subst h; exact ⟨hl, hv⟩
      · exact ⟨(hnew x h).1, fun hh => (hnew x h).2 (List.mem_cons_of_mem _ hh)⟩

/-- C17: for a list of distinct layers closed under out edges, with or without
cycles, `topology_sort` returns, and its result is a permutation of the list:
every layer exactly once. -/
theorem C17_sort_is_permutation {L : Type} [DecidableEq L] (out : L → List L)
    (layers : List L) (hnd : layers.Nodup)
    (hclosed : ∀ a ∈ layers, ∀ b ∈ out a, b ∈ layers) :
    ∃ sorted, topology_sort out layers = some sorted ∧ sorted.Perm layers ∧ sorted.Nodup := by
  have hadj : ∀ l ∈ layers, buildAdjacent out layers (fun _ => none) l = some (out l) := by
    intro l hl
    rw [buildAdjacent_spec out layers _ hnd (fun _ _ => rfl), if_pos hl]
  have hlen : unvisited layers ([] : List L) ≤ layers.length := by
    unfold unvisited
    exact List.countP_le_length _
  obtain ⟨new, vis', e, hvis, hnew_nd, hnew, hall⟩ :=
    visitAll_total layers (topology_sort_inner (buildAdjacent out layers (fun _ => none))
        layers.length) layers.length
      (topology_sort_inner_total layers out _ hadj hclosed layers.length)
      layers ⟨[], []⟩ (fun b hb => hb) hlen
  simp only [List.append_nil] at e
  refine ⟨new, ?_, ?_, hnew_nd⟩
  · unfold topology_sort
    simp only [e]
  · rw [List.perm_ext_iff_of_nodup hnew_nd hnd]
    intro a
    constructor
    · exact fun h => (hnew a h).1
    · intro h
      have := (hvis a).mp (hall a h)
      simpa using this

/-- C17 witness: a net whose out edges form a cycle. -/
theorem C17_sort_is_permutation_witness :
    ∃ sorted, topology_sort cycleOut [2, 1, 0] = some sorted ∧ sorted.Perm [2, 1, 0] ∧
      sorted.Nodup :=
  C17_sort_is_permutation cycleOut [2, 1, 0] (by decide) (by decide)

/-- The loop over a list of layers keeps the stack ordered, provided every call
it makes does; `path` holds the layers whose visit is in progress. -/
theorem visitAll_forward {L : Type} [DecidableEq L] (out : L → List L)
    (visit : L → SortState L → Option (SortState L)) (path : List L)
    (hvisit : ∀ l st st', visit l st = some st' →
      (∀ x, x ∈ st.visited ↔ x ∈ st.stack ∨ x ∈ path) →
      (∀ p ∈ path, Relation.TransGen (fun x y => y ∈ out x) p l) →
      EdgesForward out st.stack →
      EdgesForward out st'.stack ∧ (∀ x, x ∈ st'.visited ↔ x ∈ st'.stack ∨ x ∈ path) ∧
        (∀ x ∈ st.visited, x ∈ st'.visited) ∧ l ∈ st'.visited)
    (ls : List L) :
    ∀ st st', visitAll visit ls st = some st' →
      (∀ x, x ∈ st.visited ↔ x ∈ st.stack ∨ x ∈ path) →
      (∀ b ∈ ls, ∀ p ∈ path, Relation.TransGen (fun x y => y ∈ out x) p b) →
      EdgesForward out st.stack →
      EdgesForward out st'.stack ∧ (∀ x, x ∈ st'.visited ↔ x ∈ st'.stack ∨ x ∈ path) ∧
        (∀ x ∈ st.visited, x ∈ st'.visited) ∧ (∀ b ∈ ls, b ∈ st'.visited) := by
  induction ls with
  | nil =>
    intro st st' h hv _ hs
    simp only [visitAll, Option.some.injEq] at h
    subst h
    exact ⟨hs, hv, fun x hx => hx, fun b hb => by simp at hb⟩
  | cons b ls ih =>
    intro st st' h hv hp hs
    have hpls : ∀ x ∈ ls, ∀ p ∈ path, Relation.TransGen (fun x y => y ∈ out x) p x :=
      fun x hx => hp x (List.mem_cons_of_mem _ hx)
    rw [visitAll] at h
    by_cases hb : b ∈ st.visited
    · rw [if_pos hb] at h
      obtain ⟨h1, h2, h3, h4⟩ := ih st st' h hv hpls hs
      refine ⟨h1, h2, h3, fun x hx => ?_⟩
      rcases List.mem_cons.mp hx with hh | hh
      · subst hh; exact h3 x hb
      · exact h4 x hh
    · rw [if_neg hb] at h
      cases hvb : visit b st with
      | none => rw [hvb] at h; simp at h
      | some st1 =>
        rw [hvb] at h
        simp only at h
        obtain ⟨g1, g2, g3, g4⟩ := hvisit b st st1 hvb hv (hp b (List.mem_cons_self _ _)) hs
        obtain ⟨h1, h2, h3, h4⟩ := ih st1 st' h g2 hpls g1
        refine ⟨h1, h2, fun x hx => h3 x (g3 x hx), fun x hx => ?_⟩
        rcases List.mem_cons.mp hx with hh | hh
        · subst hh; exact h3 x g4
        · exact h4 x hh

/-- On an acyclic graph the recursive visit keeps the stack ordered. -/
theorem topology_sort_inner_forward {L : Type} [DecidableEq L] (U : List L) (out : L → List L)
    (adj : L → Option (List L)) (hadj : ∀ l outs, adj l = some outs → l ∈ U ∧ outs = out l)
    (hacyc : ∀ a ∈ U, ¬ Relation.TransGen (fun x y => y ∈ out x) a a) (fuel : Nat) :
    ∀ (path : List L) (l : L) (st st' : SortState L),
      topology_sort_inner adj fuel l st = some st' →
      (∀ x, x ∈ st.visited ↔ x ∈ st.stack ∨ x ∈ path) →
      (∀ p ∈ path, Relation.TransGen (fun x y => y ∈ out x) p l) →
      EdgesForward out st.stack →
      EdgesForward out st'.stack ∧ (∀ x, x ∈ st'.visited ↔ x ∈ st'.stack ∨ x ∈ path) ∧
        (∀ x ∈ st.visited, x ∈ st'.visited) ∧ l ∈ st'.visited := by
  induction fuel with
  | zero => intro path l st st' h; simp [topology_sort_inner] at h
  | succ fuel ih =>
    intro path l st st' h hv hp hs
    rw [topology_sort_inner] at h
    cases ha : adj l with
    | none => rw [ha] at h; simp at h
    | some outs =>
      rw [ha] at h
      simp only at h
      obtain ⟨hlU, houts⟩ := hadj l outs ha
      subst houts
      cases hva : visitAll (topology_sort_inner adj fuel) (out l)
          { st with visited := l :: st.visited } with
      | none => rw [hva] at h; simp at h
      | some st1 =>
        rw [hva] at h
        simp only [Option.some.injEq] at h
        subst h
        obtain ⟨h1, h2, h3, h4⟩ := visitAll_forward out (topology_sort_inner adj fuel)
          (l :: path) (ih (l :: path)) (out l) _ st1 hva
          (fun x => by
            simp only [List.mem_cons]
            rw [hv x]
            tauto)
          (fun b hb p hpm => by
            rcases List.mem_cons.mp hpm with hh | hh
            · subst hh; exact Relation.TransGen.single hb
            · exact Relation.TransGen.tail (hp p hh) hb)
          hs
        refine ⟨⟨fun b hb => ?_, h1⟩, fun x => ?_, fun x hx => ?_, ?_⟩
        · have hbv := (h2 b).mp (h4 b hb)
          rcases hbv with hbs | hbp
          · exact hbs
          · exfalso
            rcases List.mem_cons.mp hbp with hh | hh
            · subst hh
              exact hacyc b hlU (Relation.TransGen.single hb)
            · exact hacyc l hlU (Relation.TransGen.head hb (hp b hh))
        · simp only [List.mem_cons]
          rw [h2 x]
          simp only [List.mem_cons]
          tauto
        · exact h3 x (List.mem_cons_of_mem _ hx)
        · exact h3 l (List.mem_cons_self _ _)

theorem EdgesForward_before {L : Type} (out : L → List L) (sorted : List L) :
    EdgesForward out sorted → ∀ a ∈ sorted, ∀ b ∈ out a,
      ∃ pre post, sorted = pre ++ a :: post ∧ b ∈ post := by
  induction sorted with
  | nil => intro _ a ha; simp at ha
  | cons c sorted ih =>
    intro hs a ha b hb
    rcases List.mem_cons.mp ha with h | h
    · subst h
      exact ⟨[], sorted, rfl, hs.1 b hb⟩
    · obtain ⟨pre, post, e, hbp⟩ := ih hs.2 a h b hb
      exact ⟨c :: pre, post, by rw [e]; rfl, hbp⟩

/-- C16: for a list of distinct layers whose out-edge graph is closed and
acyclic, `topology_sort` returns a list in which, for every out edge from a
layer `a` to a layer `b`, `a` stands before `b`. -/
theorem C16_sort_respects_edges {L : Type} [DecidableEq L] (out : L → List L)
    (layers : List L) (hnd : layers.Nodup)
    (hclosed : ∀ a ∈ layers, ∀ b ∈ out a, b ∈ layers)
    (hacyc : ∀ a ∈ layers, ¬ Relation.TransGen (fun x y => y ∈ out x) a a) :
    ∃ sorted, topology_sort out layers = some sorted ∧
      ∀ a ∈ layers, ∀ b ∈ out a, ∃ pre post, sorted = pre ++ a :: post ∧ b ∈ post := by
  have hspec := buildAdjacent_spec out layers (fun _ => none) hnd (fun _ _ => rfl)
  have hadj : ∀ l ∈ layers, buildAdjacent out layers (fun _ => none) l = some (out l) := by
    intro l hl
    rw [hspec, if_pos hl]
  have hadj2 : ∀ l outs, buildAdjacent out layers (fun _ => none) l = some outs →
      l ∈ layers ∧ outs = out l := by
    intro l outs h
    rw [hspec] at h
    by_cases hl : l ∈ layers
    · rw [if_pos hl] at h
      exact ⟨hl, (Option.some.inj h).symm⟩
    · rw [if_neg hl] at h
      simp at h
  have hlen : unvisited layers ([] : List L) ≤ layers.length := by
    unfold unvisited
    exact List.countP_le_length _
  obtain ⟨new, vis', e, hvis, hnew_nd, hnew, hall⟩ :=
    visitAll_total layers (topology_sort_inner (buildAdjacent out layers (fun _ => none))
        layers.length) layers.length
      (topology_sort_inner_total layers out _ hadj hclosed layers.length)
      layers ⟨[], []⟩ (fun b hb => hb) hlen
  simp only [List.append_nil] at e
  obtain ⟨hfwd, _, _, _⟩ := visitAll_forward out
    (topology_sort_inner (buildAdjacent out layers (fun _ => none)) layers.length) []
    (topology_sort_inner_forward layers out _ hadj2 hacyc layers.length []) layers
    ⟨[], []⟩ ⟨vis', new⟩ e (fun x => by simp) (fun b _ p hp => by simp at hp) trivial
  refine ⟨new, ?_, fun a ha b hb => ?_⟩
  · unfold topology_sort
    simp only [e]
  · have hmem : a ∈ new := by
      have := (hvis a).mp (hall a ha)
      simpa using this
    exact EdgesForward_before out new hfwd a hmem b hb

theorem diamondOut_lt (a b : Nat) (h : b ∈ diamondOut a) : a < b := by
  unfold diamondOut at h
  split_ifs at h <;> simp at h <;> omega

theorem diamondOut_acyclic (a : Nat) :
    ¬ Relation.TransGen (fun x y => y ∈ diamondOut x) a a := by
  have key : ∀ x y, Relation.TransGen (fun x y => y ∈ diamondOut x) x y → x < y := by
    intro x y h
    induction h with
    | single h => exact diamondOut_lt _ _ h
    | tail _ h ih => exact lt_trans ih (diamondOut_lt _ _ h)
  intro h
  exact lt_irrefl a (key a a h)

/-- C16 witness: the diamond `0 → 1, 0 → 2, 1 → 3, 2 → 3` given as `[2, 0, 3, 1]`. -/
theorem C16_sort_respects_edges_witness :
    (∃ sorted, topology_sort diamondOut [2, 0, 3, 1] = some sorted ∧
      ∀ a ∈ [2, 0, 3, 1], ∀ b ∈ diamondOut a,
        ∃ pre post, sorted = pre ++ a :: post ∧ b ∈ post) ∧
    topology_sort diamondOut [2, 0, 3, 1] = some [0, 1, 2, 3] :=
  ⟨C16_sort_respects_edges diamondOut [2, 0, 3, 1] (by decide) (by decide)
      (fun a _ => diamondOut_acyclic a),
   by decide⟩

end lapis
